import Mathlib

/-!
Shallow embedding of `src/translate.py` (an HTML i18n annotation tool) and
verification of its specification claims.

The program parses an HTML document with BeautifulSoup, walks every tag
(`process_html` iterates `soup.find_all(True)`, a pre-order snapshot of all
tags, calling `process_tag` on each), annotates translatable text and
attributes with `data-i18n` / `data-i18n-*` attributes, collects normalized
keys into a global registry, and serializes the mutated tree.

Embedding conventions:
* The parsed document is a forest of `Node`s (tags carry a numeric identity
  so that the `find_all` snapshot semantics — processing original tag
  objects wherever they end up, including after being detached by
  `tag.clear()` — can be modelled faithfully).
* `tag.clear()` detaches children; detached tag children are kept in a
  detached pool (`St.det`) because the `find_all` loop still processes them.
* Strings are Lean `String`s; all character-level operations are written on
  `String.data` (`List Char`) so that everything reduces in the kernel.
* Python's `html.unescape` (used by the `data-i18n` output fix-up at lines
  251-255 of the source) is modelled on the five entity forms that
  `html.escape` produces; the source's serialization-only regex fix-ups for
  boolean attributes and `<input>` self-closing style (lines 239-249) are
  string-level cosmetics outside the tree model and are not modelled.
-/

namespace Translate

/-! ### Character and string primitives -/

/-- Whitespace as recognized by Python's `str.strip` / `\s` (the code points
of `str.isspace`). -/
def py_space (c : Char) : Bool :=
  c == ' ' || (9 ≤ c.toNat && c.toNat ≤ 13) || (28 ≤ c.toNat && c.toNat ≤ 31) ||
  c.toNat == 133 || c.toNat == 160 || c.toNat == 0x1680 ||
  (0x2000 ≤ c.toNat && c.toNat ≤ 0x200a) || c.toNat == 0x2028 || c.toNat == 0x2029 ||
  c.toNat == 0x202f || c.toNat == 0x205f || c.toNat == 0x3000

/-- Python `str.strip()` on a character list. -/
def py_strip (l : List Char) : List Char :=
  ((l.dropWhile py_space).reverse.dropWhile py_space).reverse

/-- Python `str.strip()` on a `String`. -/
def strip_str (s : String) : String := ⟨py_strip s.data⟩

/-- The characters collapsed by `normalize_text`'s regex `[\n\t\r]+`. -/
def is_ntr (c : Char) : Bool := c == '\n' || c == '\t' || c == '\r'

/-- `re.sub(r'[\n\t\r]+', ' ', text)`: replace each maximal run of
newline/tab/carriage-return characters by a single space.  The boolean flag
records whether the previous character was part of such a run. -/
def collapse_ntr : Bool → List Char → List Char
  | _, [] => []
  | prev, c :: rest =>
    if is_ntr c then
      if prev then collapse_ntr true rest else ' ' :: collapse_ntr true rest
    else
      c :: collapse_ntr false rest

/-- `normalize_text` (source lines 31-38): collapse `[\n\t\r]+` runs to a
single space, then strip leading/trailing whitespace. -/
def normalize_text (s : String) : String := ⟨py_strip (collapse_ntr false s.data)⟩

/-- Does the character list contain the two-character pattern `a` `b`
(substring search, as `re.search` of a two-character literal pattern)? -/
def has_pair (a b : Char) : List Char → Bool
  | [] => false
  | [_] => false
  | x :: y :: rest => (x == a && y == b) || has_pair a b (y :: rest)

/-- `has_template_syntax` (source lines 40-47): the five `TEMPLATE_PATTERNS`
are the two-character sequences `{{`, `@{`, `%{`, `${`, `#{`. -/
def has_template_markers (s : String) : Bool :=
  has_pair '{' '{' s.data || has_pair '@' '{' s.data || has_pair '%' '{' s.data ||
  has_pair '$' '{' s.data || has_pair '#' '{' s.data

/-- The letter set of `should_translate`'s regex
`[A-Za-zĄąĆćĘęŁłŃńÓóŚśŹźŻż]`. -/
def is_ext_letter (c : Char) : Bool :=
  (65 ≤ c.toNat && c.toNat ≤ 90) || (97 ≤ c.toNat && c.toNat ≤ 122) ||
  ['Ą', 'ą', 'Ć', 'ć', 'Ę', 'ę', 'Ł', 'ł', 'Ń', 'ń', 'Ó', 'ó', 'Ś', 'ś', 'Ź', 'ź', 'Ż', 'ż'].contains c

/-- `should_translate` (source lines 49-60): reject when the stripped text
has length at most 1, reject when the text contains template syntax,
otherwise accept exactly when the stripped text contains a letter of the
extended Latin set. -/
def should_translate (s : String) : Bool :=
  let stripped := py_strip s.data
  if stripped.length ≤ 1 then false
  else if has_template_markers s then false
  else stripped.any is_ext_letter

/-- One character of Python's `html.escape(..., quote=True)`. -/
def escape_char (c : Char) : List Char :=
  if c == '&' then "&amp;".data
  else if c == '<' then "&lt;".data
  else if c == '>' then "&gt;".data
  else if c == '"' then "&quot;".data
  else if c.toNat == 39 then "&#x27;".data
  else [c]

/-- `escape_attribute_value` (source lines 71-77): `html.escape(value, quote=True)`. -/
def escape_attribute_value (s : String) : String :=
  ⟨(s.data.map escape_char).flatten⟩

/-- If `pat` is a leading segment of `l`, return the remainder. -/
def drop_pat : List Char → List Char → Option (List Char)
  | [], l => some l
  | _ :: _, [] => none
  | p :: ps, c :: cs => if p == c then drop_pat ps cs else none

/-- One `&`-entity step of `html.unescape`, restricted to the five entity
forms produced by `html.escape(..., quote=True)`.  Returns the decoded
character and the rest of the input when the head of `l` is such an entity
body. -/
def match_entity (l : List Char) : Option (Char × List Char) :=
  match drop_pat "amp;".data l with
  | some rest => some ('&', rest)
  | none =>
    match drop_pat "lt;".data l with
    | some rest => some ('<', rest)
    | none =>
      match drop_pat "gt;".data l with
      | some rest => some ('>', rest)
      | none =>
        match drop_pat "quot;".data l with
        | some rest => some ('"', rest)
        | none =>
          match drop_pat "#x27;".data l with
          | some rest => some (Char.ofNat 39, rest)
          | none => none

/-- Fueled single pass of `html.unescape` over a character list: every step
consumes at least one character, so `l.length` fuel always suffices.
This models Python's `html.unescape` on the entity forms that
`escape_attribute_value` emits; other entity spellings are left unchanged. -/
def unescape_go : Nat → List Char → List Char
  | 0, l => l
  | _ + 1, [] => []
  | f + 1, c :: rest =>
    if c == '&' then
      match match_entity rest with
      | some (d, rest') => d :: unescape_go f rest'
      | none => c :: unescape_go f rest
    else c :: unescape_go f rest

/-- `html.unescape` on a `String` (single left-to-right pass). -/
def unescape_html (s : String) : String := ⟨unescape_go s.data.length s.data⟩

/-- Python `str.lower()` (ASCII-adequate, as used on tag names). -/
def lower (s : String) : String := ⟨s.data.map Char.toLower⟩

/-- Is `pre` a leading segment of `l`? -/
def list_starts : List Char → List Char → Bool
  | [], _ => true
  | _ :: _, [] => false
  | p :: ps, c :: cs => p == c && list_starts ps cs

/-- Does the attribute name start with `data-i18n` (the names matched by the
output fix-up regex `data-i18n([^=]*)=` at source lines 253-255)? -/
def starts_data_i18n (s : String) : Bool := list_starts "data-i18n".data s.data

/-! ### Attribute maps

BeautifulSoup attributes behave as an insertion-ordered dictionary:
lookup, update-or-append assignment, and deletion. -/

/-- Attribute list of a tag (insertion-ordered, keys unique on reachable
states). -/
abbrev Attrs := List (String × String)

/-- `tag[k]` lookup. -/
def get_attr (k : String) : Attrs → Option String
  | [] => none
  | (k', v) :: rest => if k' == k then some v else get_attr k rest

/-- `tag.has_attr(k)`. -/
def has_attr_k (k : String) (a : Attrs) : Bool := (get_attr k a).isSome

/-- `tag[k] = v`: replace the existing binding in place, else append. -/
def set_attr (k v : String) : Attrs → Attrs
  | [] => [(k, v)]
  | (k', v') :: rest => if k' == k then (k, v) :: rest else (k', v') :: set_attr k v rest

/-- `del tag[k]`: remove the binding of `k`. -/
def del_attr (k : String) : Attrs → Attrs
  | [] => []
  | (k', v') :: rest => if k' == k then rest else (k', v') :: del_attr k rest

/-! ### Configuration constants (source lines 15-25) -/

/-- `SKIPPED_TAGS` (source line 15). -/
def SKIPPED_TAGS : List String := ["br", "hr", "script", "style", "meta", "link"]

/-- `PRESERVED_FORMATTING_TAGS` (source line 16).  Read by `process_tag`
(line 115) but never used afterwards; kept for fidelity. -/
def PRESERVED_FORMATTING_TAGS : List String :=
  ["b", "i", "strong", "em", "u", "code", "kbd", "mark", "small", "sub", "sup", "p"]

/-- `TRANSLATABLE_ATTRIBUTES` (source lines 19-25), in dictionary order. -/
def TRANSLATABLE_ATTRIBUTES : List (String × String) :=
  [("title", "data-i18n-title"),
   ("placeholder", "data-i18n-placeholder"),
   ("alt", "data-i18n-alt"),
   ("aria-label", "data-i18n-aria-label"),
   ("aria-description", "data-i18n-aria-description")]

/-- The tag names tested by `has_input_children` (source lines 157-160). -/
def input_like_tags : List String := ["input", "select", "textarea", "button"]

/-! ### Document model -/

/-- A parsed document node: a text node (`NavigableString`), a comment, or a
tag.  The `id` field models Python object identity of tags: `process_html`
iterates over the `find_all(True)` result, a snapshot of tag objects taken
before any mutation, and later processes each object wherever it then lives
(still attached, or detached by an `option` `clear()`).  Synthetic `span`
wrappers created during processing receive fresh identities. -/
inductive Node where
  | text (s : String) : Node
  | comment (s : String) : Node
  | tag (id : Nat) (name : String) (attrs : Attrs) (children : List Node) : Node
deriving Repr

/-- Traversal configuration: `config.get('skipped_tags', SKIPPED_TAGS)`,
`config.get('preserved_tags', ...)` (unused by the source after being read)
and `config.get('remove_original_attrs', True)`. -/
structure Config where
  skipped_tags : List String
  preserved_tags : List String
  remove_original_attrs : Bool

/-- The configuration `process_html` uses when `config` is `None` /
defaulted: default skip set and original-attribute removal. -/
def default_config : Config :=
  { skipped_tags := SKIPPED_TAGS
    preserved_tags := PRESERVED_FORMATTING_TAGS
    remove_original_attrs := true }

/-- Walker state: the global `translation_keys` registry (an
insertion-ordered mapping, each key mapped to itself), a fresh-identity
counter for synthetic spans, and the tags detached by `tag.clear()` during
the current `find_all`-loop step (they are still processed later by the
loop). -/
structure St where
  reg : List (String × String)
  fresh : Nat
  det : List Node
deriving Repr

/-- `add_translation_key` (source lines 62-69): normalize, insert if the
normalized key is absent, otherwise leave the registry unchanged. -/
def add_translation_key (key : String) (reg : List (String × String)) :
    List (String × String) :=
  let norm := normalize_text key
  if reg.any (fun p => p.1 == norm) then reg else reg ++ [(norm, norm)]

/-- Is the node a `NavigableString` (text or comment)? -/
def is_nav_string : Node → Bool
  | .text _ => true
  | .comment _ => true
  | .tag _ _ _ _ => false

/-- Is the node a `Tag`? -/
def is_tag : Node → Bool
  | .tag _ _ _ _ => true
  | _ => false

/-- Lower-cased tag name (empty for non-tags). -/
def node_name_lower : Node → String
  | .tag _ nm _ _ => lower nm
  | _ => ""

/-- The direct text content of a children list (source line 137): the
concatenation of the direct text children, comments excluded. -/
def direct_text_chars : List Node → List Char
  | [] => []
  | .text s :: rest => s.data ++ direct_text_chars rest
  | _ :: rest => direct_text_chars rest

/-- Direct text content as a `String`. -/
def direct_text (ch : List Node) : String := ⟨direct_text_chars ch⟩

/-- The leading-whitespace group of the source's
`re.match(r'^(\s*)(.*?)(\s*)$', text, re.DOTALL)` split (source line 86). -/
def wrap_leading (s : String) : List Char := s.data.takeWhile py_space

/-- The core group of the whitespace split: the text after removing the
maximal leading and trailing whitespace runs. -/
def wrap_core (s : String) : List Char :=
  (((s.data.dropWhile py_space).reverse).dropWhile py_space).reverse

/-- The trailing-whitespace group of the whitespace split. -/
def wrap_trailing (s : String) : List Char :=
  (((s.data.dropWhile py_space).reverse).takeWhile py_space).reverse

/-- The leading-whitespace text node, when non-empty (source lines 89-90). -/
def lead_nodes (s : String) : List Node :=
  if (wrap_leading s).isEmpty then [] else [Node.text ⟨wrap_leading s⟩]

/-- The trailing-whitespace text node, when non-empty (source lines 101-102). -/
def trail_nodes (s : String) : List Node :=
  if (wrap_trailing s).isEmpty then [] else [Node.text ⟨wrap_trailing s⟩]

/-- `wrap_text_with_whitespace` (source lines 80-103): split a text into
leading whitespace, core, and trailing whitespace; wrap a translatable core
in an empty `<span data-i18n="...">` (the raw normalized key, unescaped at
this call site in the source) and register the key; keep an untranslatable
core as text. -/
def wrap_text_with_whitespace (s : String) (st : St) : List Node × St :=
  if !(wrap_core s).isEmpty && should_translate ⟨wrap_core s⟩ then
    (lead_nodes s ++
      [Node.tag st.fresh "span" [("data-i18n", normalize_text ⟨wrap_core s⟩)] []] ++
      trail_nodes s,
     { st with
        fresh := st.fresh + 1
        reg := add_translation_key (normalize_text ⟨wrap_core s⟩) st.reg })
  else if !(wrap_core s).isEmpty then
    (lead_nodes s ++ [Node.text ⟨wrap_core s⟩] ++ trail_nodes s, st)
  else
    (lead_nodes s ++ trail_nodes s, st)

/-- One step of the translatable-attribute loop (source lines 121-134) for a
single `(attr_name, i18n_attr)` pair: when the attribute is present,
non-empty and translatable, store the escaped normalized value under the
`data-i18n-*` name, optionally delete the original attribute, and register
the key. -/
def process_attr_pair (cfg : Config) (acc : Attrs × List (String × String))
    (p : String × String) : Attrs × List (String × String) :=
  match get_attr p.1 acc.1 with
  | none => acc
  | some v =>
    if v != "" && should_translate v then
      ((if cfg.remove_original_attrs then
          del_attr p.1 (set_attr p.2 (escape_attribute_value (normalize_text v)) acc.1)
        else set_attr p.2 (escape_attribute_value (normalize_text v)) acc.1),
       add_translation_key (normalize_text v) acc.2)
    else acc

/-- The translatable-attribute loop of `process_tag` (source lines 121-134),
iterating `TRANSLATABLE_ATTRIBUTES` in dictionary order. -/
def process_attributes (cfg : Config) (attrs : Attrs) (reg : List (String × String)) :
    Attrs × List (String × String) :=
  TRANSLATABLE_ATTRIBUTES.foldl (process_attr_pair cfg) (attrs, reg)

mutual

/-- `process_tag` (source lines 106-213).  Returns the rewritten node and the
updated state; tags detached by `tag.clear()` are appended to `St.det`.

Branches, in source order: skip-set early return (114-119); translatable
attributes (121-134); direct text content (137); the `option` special case
(139-147); whole-tag annotation tests (149-161); mixed text/input-children
handling (162-178); text-only annotation (180-187); and the per-child
fallback loop (189-213). -/
def process_tag (cfg : Config) : Node → St → Node × St
  | .text s, st => (.text s, st)
  | .comment s, st => (.comment s, st)
  | .tag i nm attrs ch, st =>
    let name := lower nm
    if cfg.skipped_tags.contains name then (.tag i nm attrs ch, st)
    else
      let (attrs1, reg1) := process_attributes cfg attrs st.reg
      let st1 : St := { st with reg := reg1 }
      let t := direct_text ch
      if name == "option" then
        -- lines 139-147: annotate the option's own text only; `tag.clear()`
        -- detaches all children (tag children join the detached pool).
        if t != "" && should_translate t then
          let norm := normalize_text t
          (.tag i nm (set_attr "data-i18n" (escape_attribute_value norm) attrs1) [],
           { st1 with
              reg := add_translation_key norm st1.reg
              det := st1.det ++ ch.filter is_tag })
        else (.tag i nm attrs1 ch, st1)
      else if t != "" && should_translate t then
        let has_only_text := ch.all is_nav_string
        let child_tags := ch.filter is_tag
        let has_input_children :=
          child_tags.any (fun c => input_like_tags.contains (node_name_lower c))
        if has_input_children && strip_str t != "" then
          -- lines 162-178: mixed content.  The source first replaces every
          -- translatable direct text child with a span and then recurses
          -- into the (pre-existing) child tags; the two passes touch
          -- disjoint children, so they are fused into one pass here.
          let (ch', st') := process_mixed cfg ch st1
          (.tag i nm attrs1 ch', st')
        else if has_only_text then
          -- lines 180-187: annotate the whole tag and clear its contents.
          let norm := normalize_text t
          (.tag i nm (set_attr "data-i18n" (escape_attribute_value norm) attrs1) [],
           { st1 with
              reg := add_translation_key norm st1.reg
              det := st1.det ++ ch.filter is_tag })
        else
          let (ch', st') := process_children cfg (has_attr_k "data-i18n" attrs1) ch st1
          (.tag i nm attrs1 ch', st')
      else
        let (ch', st') := process_children cfg (has_attr_k "data-i18n" attrs1) ch st1
        (.tag i nm attrs1 ch', st')

/-- The mixed-content pass of `process_tag` (source lines 162-178): replace
each translatable direct text child by an empty annotated span; recurse into
child tags; keep everything else. -/
def process_mixed (cfg : Config) : List Node → St → List Node × St
  | [], st => ([], st)
  | .text s :: rest, st =>
    if strip_str s != "" && should_translate s then
      let norm := normalize_text s
      let span := Node.tag st.fresh "span" [("data-i18n", escape_attribute_value norm)] []
      let st' : St := { st with fresh := st.fresh + 1, reg := add_translation_key norm st.reg }
      let (rest', st'') := process_mixed cfg rest st'
      (span :: rest', st'')
    else
      let (rest', st') := process_mixed cfg rest st
      (.text s :: rest', st')
  | .comment s :: rest, st =>
    let (rest', st') := process_mixed cfg rest st
    (.comment s :: rest', st')
  | .tag j nm a c :: rest, st =>
    let (c', st') := process_tag cfg (.tag j nm a c) st
    let (rest', st'') := process_mixed cfg rest st'
    (c' :: rest', st'')

/-- The fallback per-child loop of `process_tag` (source lines 189-213).
`parent_has` records whether the parent carries a `data-i18n` attribute
(line 196).  Non-whitespace text children are wrapped via
`wrap_text_with_whitespace` unless the parent is annotated; whitespace text
and comments are kept; child tags are recursed into unless they are in the
skip set or are already-annotated spans. -/
def process_children (cfg : Config) (parent_has : Bool) : List Node → St → List Node × St
  | [], st => ([], st)
  | .text s :: rest, st =>
    if strip_str s != "" then
      if parent_has then
        let (rest', st') := process_children cfg parent_has rest st
        (.text s :: rest', st')
      else
        let (nodes, st') := wrap_text_with_whitespace s st
        let (rest', st'') := process_children cfg parent_has rest st'
        (nodes ++ rest', st'')
    else
      let (rest', st') := process_children cfg parent_has rest st
      (.text s :: rest', st')
  | .comment s :: rest, st =>
    let (rest', st') := process_children cfg parent_has rest st
    (.comment s :: rest', st')
  | .tag j nm a c :: rest, st =>
    if cfg.skipped_tags.contains (lower nm) then
      let (rest', st') := process_children cfg parent_has rest st
      (.tag j nm a c :: rest', st')
    else if lower nm == "span" && has_attr_k "data-i18n" a then
      let (rest', st') := process_children cfg parent_has rest st
      (.tag j nm a c :: rest', st')
    else
      let (c', st') := process_tag cfg (.tag j nm a c) st
      let (rest', st'') := process_children cfg parent_has rest st'
      (c' :: rest', st'')

end

mutual

/-- Apply `process_tag` to the tag with identity `i` inside a node, modelling
one iteration of the `find_all(True)` loop acting on one original tag object
(source lines 227-230). -/
def target_node (cfg : Config) (i : Nat) : Node → St → Node × St
  | .tag j nm a c, st =>
    if j == i then process_tag cfg (.tag j nm a c) st
    else
      let (c', st') := target_list cfg i c st
      (.tag j nm a c', st')
  | n, st => (n, st)

/-- `target_node` over a forest. -/
def target_list (cfg : Config) (i : Nat) : List Node → St → List Node × St
  | [], st => ([], st)
  | n :: rest, st =>
    let (n', st') := target_node cfg i n st
    let (rest', st'') := target_list cfg i rest st'
    (n' :: rest', st'')

end

mutual

/-- Pre-order list of tag identities of a node (`find_all(True)` order). -/
def node_ids : Node → List Nat
  | .tag i _ _ ch => i :: list_ids ch
  | _ => []

/-- Pre-order list of tag identities of a forest. -/
def list_ids : List Node → List Nat
  | [] => []
  | n :: rest => node_ids n ++ list_ids rest

end

mutual

/-- Largest tag identity in a node (0 if none). -/
def node_max_id : Node → Nat
  | .tag i _ _ ch => max i (list_max_id ch)
  | _ => 0

/-- Largest tag identity in a forest (0 if none). -/
def list_max_id : List Node → Nat
  | [] => 0
  | n :: rest => max (node_max_id n) (list_max_id rest)

end

/-- One iteration of the `find_all(True)` loop (source lines 227-230):
process the tag object with identity `i`, whether it is still attached or
was detached earlier; tags freshly detached during this step join the pool. -/
def run_step (cfg : Config) (acc : List Node × List Node × St) (i : Nat) :
    List Node × List Node × St :=
  let (doc, pool, st) := acc
  let (doc', st1) := target_list cfg i doc st
  let (pool', st2) := target_list cfg i pool st1
  (doc', pool' ++ st2.det, { st2 with det := [] })

/-- The whole `find_all(True)` loop over a snapshot of tag identities. -/
def run_loop (cfg : Config) (ids : List Nat) (doc : List Node) (st : St) :
    List Node × List Node × St :=
  ids.foldl (run_step cfg) (doc, [], st)

mutual

/-- The output fix-up of `process_html` (source lines 251-255): apply
`html.unescape` to the value of every attribute whose name starts with
`data-i18n`. -/
def fix_node : Node → Node
  | .tag i nm a ch =>
    .tag i nm (a.map fun p => if starts_data_i18n p.1 then (p.1, unescape_html p.2) else p)
      (fix_list ch)
  | n => n

/-- `fix_node` over a forest. -/
def fix_list : List Node → List Node
  | [] => []
  | n :: rest => fix_node n :: fix_list rest

end

/-- `process_html` (source lines 216-257) starting from a given registry
state (the registry is a module-level global in the source): snapshot the
tag identities in document order, run the loop, and apply the `data-i18n`
unescape fix-up to the surviving document.  Returns the rewritten document
and the final registry.

The source additionally serializes the tree (`str(soup)`, line 236) and
runs three `re.sub` passes over the resulting string: the boolean-attribute
rewrites `attr="attr"`/`attr=""` and the `<input([^>]*)/>` slash stripping
(lines 238-249), and the `data-i18n([^=]*)="([^"]*)"` unescape (lines
251-255).  This embedding works at the parsed-tree level: the unescape pass
is modeled on the `data-i18n*` attributes it targets, while the
string-level reach of all three passes into verbatim text such as raw
script bodies is accounted for by the `serial_clean` side conditions where
byte-level content is at stake. -/
def process_html_from (cfg : Config) (reg : List (String × String)) (doc : List Node) :
    List Node × List (String × String) :=
  let ids := list_ids doc
  let st0 : St := { reg := reg, fresh := list_max_id doc + 1, det := [] }
  let (doc', _pool, st) := run_loop cfg ids doc st0
  (fix_list doc', st.reg)

/-- `process_html` on a fresh interpreter run (empty global registry). -/
def process_html (cfg : Config) (doc : List Node) : List Node × List (String × String) :=
  process_html_from cfg [] doc

/-! ### Observation helpers for the theorems -/

/-- The annotation attribute values (`data-i18n` and `data-i18n-*`) of one
attribute list, in order. -/
def avals_attrs (a : Attrs) : List String :=
  a.filterMap fun p => if starts_data_i18n p.1 then some p.2 else none

mutual

/-- All annotation attribute values (`data-i18n` and `data-i18n-*`) occurring
in a node, in document order. -/
def node_annot_values : Node → List String
  | .tag _ _ a ch => avals_attrs a ++ list_annot_values ch
  | _ => []

/-- All annotation attribute values occurring in a forest. -/
def list_annot_values : List Node → List String
  | [] => []
  | n :: rest => node_annot_values n ++ list_annot_values rest

end

mutual

/-- The signatures (attribute list, direct text content) of every `script`
element of a node, in document order.  Since parsed `script` content is raw
text, the direct text is the block's byte content. -/
def node_script_sigs : Node → List (Attrs × String)
  | .tag _ nm a ch =>
    if lower nm == "script" then [(a, direct_text ch)] else list_script_sigs ch
  | _ => []

/-- `script` signatures of a forest. -/
def list_script_sigs : List Node → List (Attrs × String)
  | [] => []
  | n :: rest => node_script_sigs n ++ list_script_sigs rest

end

/-! ### The top-level entry point (source lines 259-330)

`main` reads the input file, processes it, writes the rewritten HTML and the
translations JSON, and maps each failure class to `sys.exit(1)` after
logging a descriptive message.  File-system effects are modelled by a
`World` record of outcomes; the parse step is folded into reading (the input
arrives as a `Node` forest). -/

/-- The failure taxonomy of `main`'s `except` clauses (source lines 319-330). -/
inductive MainError where
  | fileNotFound
  | permissionDenied
  | decodingError
  | unexpected
deriving DecidableEq, Repr

/-- The descriptive `logger.error` message for each failure class. -/
def error_message : MainError → String
  | .fileNotFound => "File not found"
  | .permissionDenied => "Permission denied"
  | .decodingError => "Encoding error"
  | .unexpected => "Unexpected error"

/-- The file-system steps `main` performs, in order. -/
inductive MainEvent where
  | readFile
  | writeHtmlFile
  | writeJsonFile
deriving DecidableEq, Repr

/-- Outcomes the environment assigns to each file-system step. -/
structure World where
  read_input : Except MainError (List Node)
  write_html : Except MainError Unit
  write_json : Except MainError Unit

/-- `main` (source lines 297-330): attempt read, process, write HTML, write
JSON; the first failure is logged and terminates the run with exit status 1;
success exits with status 0.  Returns (exit code, logged error message,
attempted steps in order). -/
def main_run (cfg : Config) (w : World) : Nat × Option String × List MainEvent :=
  match w.read_input with
  | .error e => (1, some (error_message e), [.readFile])
  | .ok doc =>
    let _out := process_html cfg doc
    match w.write_html with
    | .error e => (1, some (error_message e), [.readFile, .writeHtmlFile])
    | .ok _ =>
      match w.write_json with
      | .error e => (1, some (error_message e), [.readFile, .writeHtmlFile, .writeJsonFile])
      | .ok _ => (0, none, [.readFile, .writeHtmlFile, .writeJsonFile])

/-! ## Theorems -/

/-! ### Whitespace-stripping lemmas -/

theorem dropWhile_dropWhile (p : Char → Bool) (l : List Char) :
    (l.dropWhile p).dropWhile p = l.dropWhile p := by
  induction l with
  | nil => rfl
  | cons c t ih =>
    by_cases h : p c
    · simp [List.dropWhile_cons, h, ih]
    · simp [List.dropWhile_cons, h]

theorem dropWhile_suffix_of (p : Char → Bool) (l : List Char) : l.dropWhile p <:+ l := by
  induction l with
  | nil => exact List.suffix_rfl
  | cons c t ih =>
    by_cases h : p c
    · simpa [List.dropWhile_cons, h] using ih.trans (List.suffix_cons c t)
    · simp [List.dropWhile_cons, h]

theorem head_dropWhile_false (p : Char → Bool) (l : List Char) (c : Char)
    (h : (l.dropWhile p).head? = some c) : p c = false := by
  induction l with
  | nil => simp at h
  | cons d t ih =>
    by_cases hd : p d
    · rw [List.dropWhile_cons, if_pos hd] at h; exact ih h
    · rw [List.dropWhile_cons, if_neg hd] at h
      simp at h
      simpa [← h] using hd

/-- Back-stripping, the second half of `py_strip`. -/
def strip_back (l : List Char) : List Char := (l.reverse.dropWhile py_space).reverse

theorem py_strip_eq (l : List Char) : py_strip l = strip_back (l.dropWhile py_space) := rfl

theorem strip_back_strip_back (l : List Char) : strip_back (strip_back l) = strip_back l := by
  unfold strip_back
  rw [List.reverse_reverse, dropWhile_dropWhile]

theorem strip_back_isPre (l : List Char) : strip_back l <+: l := by
  have h := dropWhile_suffix_of py_space l.reverse
  have h2 := (@List.reverse_prefix _ (l.reverse.dropWhile py_space) l.reverse).2 h
  simpa [List.reverse_reverse] using h2

theorem dropWhile_eq_self_of_head (p : Char → Bool) (l : List Char)
    (h : ∀ c, l.head? = some c → p c = false) : l.dropWhile p = l := by
  cases l with
  | nil => rfl
  | cons c t => simp [List.dropWhile_cons, h c rfl]

theorem dropWhile_strip_back_dropWhile (l : List Char) :
    (strip_back (l.dropWhile py_space)).dropWhile py_space
      = strip_back (l.dropWhile py_space) := by
  apply dropWhile_eq_self_of_head
  intro c hc
  rcases strip_back_isPre (l.dropWhile py_space) with ⟨t, ht⟩
  have hc' : (l.dropWhile py_space).head? = some c := by
    rcases he : strip_back (l.dropWhile py_space) with _ | ⟨d, r⟩
    · rw [he] at hc; simp at hc
    · rw [he] at hc; simp at hc
      rw [← ht, he, hc]; rfl
  exact head_dropWhile_false py_space l c hc'

theorem py_strip_idem (l : List Char) : py_strip (py_strip l) = py_strip l := by
  rw [py_strip_eq, py_strip_eq l, dropWhile_strip_back_dropWhile, strip_back_strip_back]

theorem py_strip_subset (l : List Char) (c : Char) (h : c ∈ py_strip l) : c ∈ l := by
  unfold py_strip at h
  rw [List.mem_reverse] at h
  have h1 := (dropWhile_suffix_of py_space (l.dropWhile py_space).reverse).sublist.subset h
  rw [List.mem_reverse] at h1
  exact (dropWhile_suffix_of py_space l).sublist.subset h1

/-! ### Normalization lemmas -/

theorem collapse_ntr_not_ntr (l : List Char) : ∀ b c, c ∈ collapse_ntr b l → is_ntr c = false := by
  induction l with
  | nil => intro b c h; simp [collapse_ntr] at h
  | cons d t ih =>
    intro b c h
    by_cases hd : is_ntr d
    · cases b with
      | true => rw [collapse_ntr, if_pos hd] at h; exact ih true c h
      | false =>
        rw [collapse_ntr, if_pos hd] at h
        rcases List.mem_cons.1 h with h' | h'
        · subst h'; rfl
        · exact ih true c h'
    · rw [collapse_ntr, if_neg hd] at h
      rcases List.mem_cons.1 h with h' | h'
      · subst h'; simpa using hd
      · exact ih false c h'

theorem collapse_ntr_id (l : List Char) (h : ∀ c ∈ l, is_ntr c = false) :
    ∀ b, collapse_ntr b l = l := by
  induction l with
  | nil => intro b; rfl
  | cons d t ih =>
    intro b
    have hd : is_ntr d = false := h d (List.mem_cons_self d t)
    rw [collapse_ntr, if_neg (by simp [hd])]
    rw [ih (fun c hc => h c (List.mem_cons_of_mem d hc)) false]

theorem normalize_text_idem (s : String) :
    normalize_text (normalize_text s) = normalize_text s := by
  show (⟨py_strip (collapse_ntr false (py_strip (collapse_ntr false s.data)))⟩ : String)
      = ⟨py_strip (collapse_ntr false s.data)⟩
  rw [collapse_ntr_id _ (fun c hc =>
        collapse_ntr_not_ntr s.data false c (py_strip_subset _ c hc)) false,
      py_strip_idem]

/-! ### C5 -/

/-- C5: text normalization is a pure function (it is a Lean function by
construction) and idempotent: `normalize_text (normalize_text s) =
normalize_text s` for every string; hence every already-normalized string
(a fixed point / image element of the normalizer) is returned unchanged. -/
theorem c5_normalize_idempotent (s : String) :
    normalize_text (normalize_text s) = normalize_text s :=
  normalize_text_idem s

/-! ### C4 -/

/-- C4: the translatability predicate accepts exactly the strings with no
template-placeholder marker, whose trimmed length exceeds one character, and
that contain at least one letter of the fixed extended Latin set (both cases
of each letter are in the set, so the containment test is
case-insensitive). -/
theorem c4_should_translate_characterization (s : String) :
    should_translate s = true ↔
      has_template_markers s = false ∧ 1 < (py_strip s.data).length ∧
        (py_strip s.data).any is_ext_letter = true := by
  show (if (py_strip s.data).length ≤ 1 then false
        else if has_template_markers s then false
        else (py_strip s.data).any is_ext_letter) = true ↔ _
  by_cases h1 : (py_strip s.data).length ≤ 1
  · rw [if_pos h1]
    constructor
    · intro h; exact absurd h (by simp)
    · rintro ⟨-, h, -⟩; omega
  · by_cases h2 : has_template_markers s
    · rw [if_neg h1, if_pos h2]
      constructor
      · intro h; exact absurd h (by simp)
      · rintro ⟨h, -, -⟩; rw [h2] at h; cases h
    · rw [if_neg h1, if_neg h2]
      constructor
      · intro h; exact ⟨by simpa using h2, by omega, h⟩
      · rintro ⟨-, -, h⟩; exact h

/-! ### C10 -/

theorem add_key_invariant (k : String) (reg : List (String × String))
    (h : ∀ p ∈ reg, p.2 = p.1 ∧ normalize_text p.1 = p.1) :
    ∀ p ∈ add_translation_key k reg, p.2 = p.1 ∧ normalize_text p.1 = p.1 := by
  intro p hp
  simp only [add_translation_key] at hp
  split at hp
  · exact h p hp
  · rcases List.mem_append.1 hp with h1 | h1
    · exact h p h1
    · have : p = (normalize_text k, normalize_text k) := by simpa using h1
      subst this
      exact ⟨rfl, normalize_text_idem k⟩

theorem fold_add_invariant (ks : List String) :
    ∀ p ∈ ks.foldl (fun r k => add_translation_key k r) [],
      p.2 = p.1 ∧ normalize_text p.1 = p.1 := by
  suffices h : ∀ reg, (∀ p ∈ reg, p.2 = p.1 ∧ normalize_text p.1 = p.1) →
      ∀ p ∈ ks.foldl (fun r k => add_translation_key k r) reg,
        p.2 = p.1 ∧ normalize_text p.1 = p.1 by
    exact h [] (by simp)
  induction ks with
  | nil => intro reg h; simpa using h
  | cons k t ih => intro reg h; exact ih _ (add_key_invariant k reg h)

theorem normalized_fixed_point_chars (s : String) (h : normalize_text s = s) :
    (∀ c ∈ s.data, is_ntr c = false) ∧ py_strip s.data = s.data := by
  have hdata : s.data = py_strip (collapse_ntr false s.data) := by
    have h2 : (normalize_text s).data = py_strip (collapse_ntr false s.data) := rfl
    rw [h] at h2; exact h2
  constructor
  · intro c hc
    rw [hdata] at hc
    exact collapse_ntr_not_ntr _ _ _ (py_strip_subset _ _ hc)
  · conv_lhs => rw [hdata, py_strip_idem]
    exact hdata.symm

/-- C10: every key stored in the registry (by any sequence of
`add_translation_key` calls starting from the empty registry) is a
normalization fixed point — it contains no newline, tab, or carriage-return
character, is free of leading/trailing whitespace — and is mapped to itself;
registering a key whose normalized form is already present returns the
registry unchanged (and registration is a total function, so it never
fails). -/
theorem c10_registry_invariant :
    (∀ ks : List String, ∀ p ∈ ks.foldl (fun r k => add_translation_key k r) [],
        p.2 = p.1 ∧ normalize_text p.1 = p.1 ∧
          (∀ c ∈ p.1.data, is_ntr c = false) ∧ py_strip p.1.data = p.1.data)
    ∧ ∀ k reg, (reg.any fun q => q.1 == normalize_text k) = true →
        add_translation_key k reg = reg := by
  constructor
  · intro ks p hp
    obtain ⟨h1, h2⟩ := fold_add_invariant ks p hp
    obtain ⟨h3, h4⟩ := normalized_fixed_point_chars p.1 h2
    exact ⟨h1, h2, h3, h4⟩
  · intro k reg h
    simp only [add_translation_key]
    rw [if_pos h]

/-- Witness for C10 at a concrete registration sequence. -/
theorem c10_witness :
    (("a b", "a b") ∈ ["a\nb"].foldl (fun r k => add_translation_key k r) [] ∧
      (("a b", "a b") : String × String).2 = ("a b", "a b").1 ∧
      normalize_text "a b" = "a b" ∧
      (∀ c ∈ "a b".data, is_ntr c = false) ∧ py_strip "a b".data = "a b".data) ∧
    (([("x", "x")].any fun q => q.1 == normalize_text "x ") = true ∧
      add_translation_key "x " [("x", "x")] = [("x", "x")]) :=
  ⟨⟨by decide, c10_registry_invariant.1 ["a\nb"] ("a b", "a b") (by decide)⟩,
   ⟨by decide, c10_registry_invariant.2 "x " [("x", "x")] (by decide)⟩⟩

/-! ### C9 -/

/-- C9: `main` exits with status 0 exactly on fully successful runs; on
file-not-found, permission, decoding, or unexpected failures it logs the
corresponding descriptive (non-empty) message and exits with status 1; the
attempted-step trace never repeats a step (no condition is retried), and in
particular the input is read exactly once. -/
theorem c9_main_error_handling (cfg : Config) (w : World) :
    ((∃ d, w.read_input = Except.ok d) → w.write_html = Except.ok () →
        w.write_json = Except.ok () →
        main_run cfg w = (0, none, [.readFile, .writeHtmlFile, .writeJsonFile]))
    ∧ (∀ e, w.read_input = Except.error e →
        main_run cfg w = (1, some (error_message e), [MainEvent.readFile]))
    ∧ (∀ d e, w.read_input = Except.ok d → w.write_html = Except.error e →
        main_run cfg w = (1, some (error_message e), [.readFile, .writeHtmlFile]))
    ∧ (∀ d e, w.read_input = Except.ok d → w.write_html = Except.ok () →
        w.write_json = Except.error e →
        main_run cfg w = (1, some (error_message e), [.readFile, .writeHtmlFile, .writeJsonFile]))
    ∧ (∀ e, error_message e ≠ "")
    ∧ (main_run cfg w).2.2.Nodup
    ∧ (main_run cfg w).2.2.count MainEvent.readFile = 1 := by
  refine ⟨?_, ?_, ?_, ?_, ?_, ?_, ?_⟩
  · rintro ⟨d, hd⟩ hh hj; simp [main_run, hd, hh, hj]
  · intro e he; simp [main_run, he]
  · intro d e hd he; simp [main_run, hd, he]
  · intro d e hd hh hj; simp [main_run, hd, hh, hj]
  · intro e; cases e <;> simp [error_message]
  · rcases hri : w.read_input with e | d
    · simp [main_run, hri]
    · rcases hwh : w.write_html with e | u
      · simp [main_run, hri, hwh]
      · rcases hwj : w.write_json with e | v
        · simp [main_run, hri, hwh, hwj]
        · simp [main_run, hri, hwh, hwj]
  · rcases hri : w.read_input with e | d
    · simp [main_run, hri]
    · rcases hwh : w.write_html with e | u
      · simp [main_run, hri, hwh]
      · rcases hwj : w.write_json with e | v
        · simp [main_run, hri, hwh, hwj]
        · simp [main_run, hri, hwh, hwj]

/-- Witness for C9 at a concrete failing world. -/
theorem c9_witness :
    main_run default_config
        { read_input := Except.error MainError.fileNotFound
          write_html := Except.ok ()
          write_json := Except.ok () }
      = (1, some (error_message MainError.fileNotFound), [MainEvent.readFile]) :=
  (c9_main_error_handling default_config
    { read_input := Except.error MainError.fileNotFound
      write_html := Except.ok ()
      write_json := Except.ok () }).2.1 MainError.fileNotFound rfl

/-! ### C7 -/

/-- C7: processing `<input type="text" placeholder="Enter name">` under the
default configuration yields `data-i18n-placeholder="Enter name"`, removes
the original `placeholder` attribute, and registers the key `"Enter name"`
mapped to itself. -/
theorem c7_placeholder_scenario :
    process_html default_config
        [Node.tag 1 "input" [("type", "text"), ("placeholder", "Enter name")] []]
      = ([Node.tag 1 "input" [("type", "text"), ("data-i18n-placeholder", "Enter name")] []],
         [("Enter name", "Enter name")]) := rfl

/-! ### Counterexamples for C1, C2, C3, C6, C8 -/

/-- C1 counterexample: in `<option value="v">Hello <b>World</b></option>`,
annotating the option clears its contents and detaches `<b>World</b>`; the
`find_all` loop still processes the detached tag and registers `"World"`,
which then appears in the registry but on no annotation of the output
document. -/
theorem c1_counterexample :
    ("World", "World") ∈ (process_html default_config
        [Node.tag 1 "option" [("value", "v")]
          [Node.text "Hello ", Node.tag 2 "b" [] [Node.text "World"]]]).2 ∧
    "World" ∉ list_annot_values (process_html default_config
        [Node.tag 1 "option" [("value", "v")]
          [Node.text "Hello ", Node.tag 2 "b" [] [Node.text "World"]]]).1 := by
  constructor
  · decide
  · decide

/-- Configuration of the C2 counterexample: the default configuration with
`div` added to the skip set (as `--skip-tags div` would produce). -/
def c2_config : Config := { default_config with skipped_tags := SKIPPED_TAGS ++ ["div"] }

/-- C2 counterexample: with `div` in the skip set, processing
`<div><p>Hello</p></div>` annotates the `<p>` inside the skipped `div`'s
subtree and registers `"Hello"`: the `find_all(True)` loop of `process_html`
processes every tag of the document directly, so skipping a tag does not
protect the elements of its subtree. -/
theorem c2_counterexample :
    "div" ∈ c2_config.skipped_tags ∧
    process_html c2_config [Node.tag 1 "div" [] [Node.tag 2 "p" [] [Node.text "Hello"]]]
      = ([Node.tag 1 "div" [] [Node.tag 2 "p" [("data-i18n", "Hello")] []]],
         [("Hello", "Hello")]) :=
  ⟨by decide, rfl⟩

/-- C3 counterexample: for `<div>A &amp; B</div>` (parsed text `A &amp; B`),
the first pass stores the escaped key and the output fix-up unescapes it
once, leaving annotation value `A &amp; B`; re-running the pass on that
output unescapes the value again to `A & B`, so the second output differs
from the first. -/
theorem c3_counterexample :
    list_annot_values (process_html default_config
        [Node.tag 1 "div" [] [Node.text "A &amp; B"]]).1 = ["A &amp; B"] ∧
    list_annot_values (process_html_from default_config
        (process_html default_config [Node.tag 1 "div" [] [Node.text "A &amp; B"]]).2
        (process_html default_config [Node.tag 1 "div" [] [Node.text "A &amp; B"]]).1).1
      = ["A & B"] ∧
    ("A & B" : String) ≠ "A &amp; B" := by
  refine ⟨rfl, rfl, by decide⟩

/-- C6 counterexample: in `<option value="v"><b>Hello</b></option>` the
option's child `<b>` is annotated (and cleared) by the `find_all` loop, so
option children are not untouched. -/
theorem c6_counterexample :
    process_html default_config
        [Node.tag 1 "option" [("value", "v")] [Node.tag 2 "b" [] [Node.text "Hello"]]]
      = ([Node.tag 1 "option" [("value", "v")]
            [Node.tag 2 "b" [("data-i18n", "Hello")] []]],
         [("Hello", "Hello")]) := rfl

theorem get_attr_set_attr_ne (k k' v : String) (a : Attrs) (h : k' ≠ k) :
    get_attr k (set_attr k' v a) = get_attr k a := by
  induction a with
  | nil => simp [set_attr, get_attr, beq_iff_eq, h]
  | cons q rest ih =>
    obtain ⟨k0, v0⟩ := q
    by_cases h0 : k0 = k'
    · subst h0
      simp [set_attr, get_attr, beq_iff_eq, h]
    · simp [set_attr, get_attr, beq_iff_eq, h0, ih]

theorem get_attr_del_attr_ne (k k' : String) (a : Attrs) (h : k' ≠ k) :
    get_attr k (del_attr k' a) = get_attr k a := by
  induction a with
  | nil => simp [del_attr]
  | cons q rest ih =>
    obtain ⟨k0, v0⟩ := q
    by_cases h0 : k0 = k'
    · subst h0
      simp [del_attr, get_attr, beq_iff_eq, h]
    · simp [del_attr, get_attr, beq_iff_eq, h0, ih]

theorem get_attr_pair_preserved (cfg : Config) (k : String)
    (acc : Attrs × List (String × String)) (p : String × String)
    (h1 : p.1 ≠ k) (h2 : p.2 ≠ k) :
    get_attr k (process_attr_pair cfg acc p).1 = get_attr k acc.1 := by
  cases hg : get_attr p.1 acc.1 with
  | none => simp only [process_attr_pair, hg]
  | some v =>
    simp only [process_attr_pair, hg]
    by_cases hc : (v != "" && should_translate v) = true
    · rw [if_pos hc]
      show get_attr k (if cfg.remove_original_attrs then
          del_attr p.1 (set_attr p.2 (escape_attribute_value (normalize_text v)) acc.1)
        else set_attr p.2 (escape_attribute_value (normalize_text v)) acc.1) = get_attr k acc.1
      split
      · rw [get_attr_del_attr_ne _ _ _ h1, get_attr_set_attr_ne _ _ _ _ h2]
      · rw [get_attr_set_attr_ne _ _ _ _ h2]
    · rw [if_neg hc]

theorem get_attr_fold_preserved (cfg : Config) (k : String) (ps : List (String × String))
    (h : ∀ p ∈ ps, p.1 ≠ k ∧ p.2 ≠ k) :
    ∀ acc, get_attr k (ps.foldl (process_attr_pair cfg) acc).1 = get_attr k acc.1 := by
  induction ps with
  | nil => intro acc; rfl
  | cons p rest ih =>
    intro acc
    rw [List.foldl_cons,
      ih (fun q hq => h q (List.mem_cons_of_mem p hq)) (process_attr_pair cfg acc p),
      get_attr_pair_preserved cfg k acc p (h p (List.mem_cons_self p rest)).1
        (h p (List.mem_cons_self p rest)).2]

theorem get_attr_value_process_attributes (cfg : Config) (a : Attrs)
    (reg : List (String × String)) :
    get_attr "value" (process_attributes cfg a reg).1 = get_attr "value" a :=
  get_attr_fold_preserved cfg "value" TRANSLATABLE_ATTRIBUTES (by decide) (a, reg)

/-! ### C6: `value` attributes are preserved -/

/-- The `(identity, value)` pair a tag's own attribute list contributes. -/
def value_pair (i : Nat) (a : Attrs) : List (Nat × String) :=
  match get_attr "value" a with
  | some v => [(i, v)]
  | none => []

mutual

/-- The `(tag identity, value-attribute)` pairs of a node's subtree. -/
def node_value_pairs : Node → List (Nat × String)
  | .tag i _ a ch => value_pair i a ++ list_value_pairs ch
  | _ => []

/-- The `(tag identity, value-attribute)` pairs of a forest. -/
def list_value_pairs : List Node → List (Nat × String)
  | [] => []
  | n :: rest => node_value_pairs n ++ list_value_pairs rest

end

/-- `node_value_pairs` as a multiset. -/
def vpn (n : Node) : Multiset (Nat × String) := ↑(node_value_pairs n)

/-- `list_value_pairs` as a multiset. -/
def vpl (l : List Node) : Multiset (Nat × String) := ↑(list_value_pairs l)

/-- The value pair contributed by a tag's own attribute list, as a multiset. -/
def vhead (i : Nat) (a : Attrs) : Multiset (Nat × String) := ↑(value_pair i a)

theorem list_value_pairs_append (l₁ l₂ : List Node) :
    list_value_pairs (l₁ ++ l₂) = list_value_pairs l₁ ++ list_value_pairs l₂ := by
  induction l₁ with
  | nil => rfl
  | cons n rest ih =>
    show node_value_pairs n ++ list_value_pairs (rest ++ l₂) = _
    rw [ih, list_value_pairs, List.append_assoc]

theorem vpl_append (l₁ l₂ : List Node) : vpl (l₁ ++ l₂) = vpl l₁ + vpl l₂ := by
  unfold vpl
  rw [list_value_pairs_append, ← Multiset.coe_add]

theorem vpl_cons (n : Node) (rest : List Node) : vpl (n :: rest) = vpn n + vpl rest := by
  unfold vpl vpn
  rw [list_value_pairs, ← Multiset.coe_add]

theorem vpl_nil : vpl [] = 0 := rfl

theorem vpn_text (s : String) : vpn (.text s) = 0 := rfl

theorem vpn_comment (s : String) : vpn (.comment s) = 0 := rfl

theorem vpn_tag (i : Nat) (nm : String) (a : Attrs) (ch : List Node) :
    vpn (.tag i nm a ch) = vhead i a + vpl ch := by
  unfold vpn vhead vpl
  rw [node_value_pairs, ← Multiset.coe_add]

theorem vhead_congr (i : Nat) (a a' : Attrs)
    (h : get_attr "value" a = get_attr "value" a') : vhead i a = vhead i a' := by
  unfold vhead value_pair
  rw [h]

theorem vpl_filter_is_tag (l : List Node) : vpl (l.filter is_tag) = vpl l := by
  induction l with
  | nil => rfl
  | cons n rest ih =>
    cases n with
    | text s => rw [List.filter_cons_of_neg (by simp [is_tag]), vpl_cons, vpn_text, zero_add, ih]
    | comment s =>
      rw [List.filter_cons_of_neg (by simp [is_tag]), vpl_cons, vpn_comment, zero_add, ih]
    | tag i nm a ch =>
      rw [List.filter_cons_of_pos (by simp [is_tag]), vpl_cons, vpl_cons, ih]

theorem vpn_span (f : Nat) (v : String) :
    vpn (Node.tag f "span" [("data-i18n", v)] []) = 0 := rfl

theorem vpl_wrap_nodes (s : String) (st : St) :
    vpl (wrap_text_with_whitespace s st).1 = 0 := by
  unfold wrap_text_with_whitespace
  have hl : vpl (lead_nodes s) = 0 := by
    unfold lead_nodes
    split <;> rfl
  have ht : vpl (trail_nodes s) = 0 := by
    unfold trail_nodes
    split <;> rfl
  split
  · rw [vpl_append, vpl_append, hl, ht, vpl_cons, vpl_nil, vpn_span]
    simp
  · split
    · rw [vpl_append, vpl_append, hl, ht, vpl_cons, vpl_nil, vpn_text]
      simp
    · rw [vpl_append, hl, ht]
      simp

theorem wrap_det (s : String) (st : St) :
    (wrap_text_with_whitespace s st).2.det = st.det := by
  unfold wrap_text_with_whitespace
  split
  · rfl
  · split <;> rfl

mutual

theorem vp_process_tag (cfg : Config) (n : Node) (st : St) :
    vpn (process_tag cfg n st).1 + vpl (process_tag cfg n st).2.det = vpn n + vpl st.det := by
  cases n with
  | text s => rfl
  | comment s => rfl
  | tag i nm attrs ch =>
    rw [process_tag]
    by_cases hskip : cfg.skipped_tags.contains (lower nm) = true
    · rw [if_pos hskip]
    · rw [if_neg hskip]
      rcases hpa : process_attributes cfg attrs st.reg with ⟨attrs1, reg1⟩
      dsimp only
      have hval : get_attr "value" attrs1 = get_attr "value" attrs := by
        have h := get_attr_value_process_attributes cfg attrs st.reg
        rw [hpa] at h; exact h
      by_cases hopt : (lower nm == "option") = true
      · rw [if_pos hopt]
        by_cases ht : (direct_text ch != "" && should_translate (direct_text ch)) = true
        · rw [if_pos ht]
          dsimp only
          rw [vpn_tag, vpn_tag, vpl_nil,
            vhead_congr i _ attrs (by rw [get_attr_set_attr_ne _ _ _ _ (by decide), hval]),
            vpl_append, vpl_filter_is_tag]
          abel
        · rw [if_neg ht]
          dsimp only
          rw [vpn_tag, vpn_tag, vhead_congr i attrs1 attrs hval]
      · rw [if_neg hopt]
        by_cases ht : (direct_text ch != "" && should_translate (direct_text ch)) = true
        · rw [if_pos ht]
          by_cases hmix : ((ch.filter is_tag).any
              (fun c => input_like_tags.contains (node_name_lower c))
                && strip_str (direct_text ch) != "") = true
          · rw [if_pos hmix]
            rcases hpm : process_mixed cfg ch { st with reg := reg1 } with ⟨ch2, st2⟩
            have e := vp_process_mixed cfg ch { st with reg := reg1 }
            rw [hpm] at e
            dsimp only
            rw [vpn_tag, vpn_tag, vhead_congr i attrs1 attrs hval, add_assoc, e, add_assoc]
          · rw [if_neg hmix]
            by_cases honly : (ch.all is_nav_string) = true
            · rw [if_pos honly]
              dsimp only
              rw [vpn_tag, vpn_tag, vpl_nil,
                vhead_congr i _ attrs (by rw [get_attr_set_attr_ne _ _ _ _ (by decide), hval]),
                vpl_append, vpl_filter_is_tag]
              abel
            · rw [if_neg honly]
              rcases hpc : process_children cfg (has_attr_k "data-i18n" attrs1) ch
                  { st with reg := reg1 } with ⟨ch2, st2⟩
              have e := vp_process_children cfg (has_attr_k "data-i18n" attrs1) ch
                { st with reg := reg1 }
              rw [hpc] at e
              dsimp only
              rw [vpn_tag, vpn_tag, vhead_congr i attrs1 attrs hval, add_assoc, e, add_assoc]
        · rw [if_neg ht]
          rcases hpc : process_children cfg (has_attr_k "data-i18n" attrs1) ch
              { st with reg := reg1 } with ⟨ch2, st2⟩
          have e := vp_process_children cfg (has_attr_k "data-i18n" attrs1) ch
            { st with reg := reg1 }
          rw [hpc] at e
          dsimp only
          rw [vpn_tag, vpn_tag, vhead_congr i attrs1 attrs hval, add_assoc, e, add_assoc]
termination_by sizeOf n

theorem vp_process_mixed (cfg : Config) (ch : List Node) (st : St) :
    vpl (process_mixed cfg ch st).1 + vpl (process_mixed cfg ch st).2.det
      = vpl ch + vpl st.det := by
  cases ch with
  | nil => rfl
  | cons c rest =>
    cases c with
    | text s =>
      rw [process_mixed]
      by_cases hc : (strip_str s != "" && should_translate s) = true
      · rw [if_pos hc]
        dsimp only
        rw [vpl_cons, vpl_cons, vpn_text, vpn_span, zero_add, zero_add]
        exact vp_process_mixed cfg rest
          { st with
            fresh := st.fresh + 1
            reg := add_translation_key (normalize_text s) st.reg }
      · rw [if_neg hc]
        rcases hr : process_mixed cfg rest st with ⟨rest2, st2⟩
        have e := vp_process_mixed cfg rest st
        rw [hr] at e
        dsimp only at e
        try rw [hr]
        dsimp only
        rw [vpl_cons, vpl_cons, vpn_text, zero_add, zero_add]
        exact e
    | comment s =>
      rw [process_mixed]
      rcases hr : process_mixed cfg rest st with ⟨rest2, st2⟩
      have e := vp_process_mixed cfg rest st
      rw [hr] at e
      dsimp only at e
      try rw [hr]
      dsimp only
      rw [vpl_cons, vpl_cons, vpn_comment, zero_add, zero_add]
      exact e
    | tag j nm a c =>
      rw [process_mixed]
      rcases hh : process_tag cfg (.tag j nm a c) st with ⟨c2, st2⟩
      have e1 := vp_process_tag cfg (.tag j nm a c) st
      rw [hh] at e1
      dsimp only at e1
      dsimp only
      rw [vpl_cons, vpl_cons]
      calc vpn c2 + vpl (process_mixed cfg rest st2).1 + vpl (process_mixed cfg rest st2).2.det
          = vpn c2 + (vpl (process_mixed cfg rest st2).1
              + vpl (process_mixed cfg rest st2).2.det) := by rw [add_assoc]
        _ = vpn c2 + (vpl rest + vpl st2.det) := by rw [vp_process_mixed cfg rest st2]
        _ = (vpn c2 + vpl st2.det) + vpl rest := by abel
        _ = (vpn (.tag j nm a c) + vpl st.det) + vpl rest := by rw [e1]
        _ = vpn (.tag j nm a c) + vpl rest + vpl st.det := by abel
termination_by sizeOf ch

theorem vp_process_children (cfg : Config) (b : Bool) (ch : List Node) (st : St) :
    vpl (process_children cfg b ch st).1 + vpl (process_children cfg b ch st).2.det
      = vpl ch + vpl st.det := by
  cases ch with
  | nil => rfl
  | cons c rest =>
    cases c with
    | text s =>
      rw [process_children]
      by_cases hws : (strip_str s != "") = true
      · rw [if_pos hws]
        cases b with
        | true =>
          rw [if_pos (rfl : (true : Bool) = true)]
          rcases hr : process_children cfg true rest st with ⟨rest2, st2⟩
          have e := vp_process_children cfg true rest st
          rw [hr] at e
          dsimp only at e
          try rw [hr]
          dsimp only
          rw [vpl_cons, vpl_cons, vpn_text, zero_add, zero_add]
          exact e
        | false =>
          rw [if_neg (by simp : ¬(false : Bool) = true)]
          rcases hw : wrap_text_with_whitespace s st with ⟨nodes, st1⟩
          have hwv := vpl_wrap_nodes s st
          have hwd := wrap_det s st
          rw [hw] at hwv hwd
          dsimp only at hwv hwd
          dsimp only
          rw [vpl_append, hwv, zero_add, vpl_cons, vpn_text, zero_add,
            vp_process_children cfg false rest st1, hwd]
      · rw [if_neg hws]
        rcases hr : process_children cfg b rest st with ⟨rest2, st2⟩
        have e := vp_process_children cfg b rest st
        rw [hr] at e
        dsimp only at e
        try rw [hr]
        dsimp only
        rw [vpl_cons, vpl_cons, vpn_text, zero_add, zero_add]
        exact e
    | comment s =>
      rw [process_children]
      rcases hr : process_children cfg b rest st with ⟨rest2, st2⟩
      have e := vp_process_children cfg b rest st
      rw [hr] at e
      dsimp only at e
      try rw [hr]
      dsimp only
      rw [vpl_cons, vpl_cons, vpn_comment, zero_add, zero_add]
      exact e
    | tag j nm a c =>
      rw [process_children]
      by_cases hsk : cfg.skipped_tags.contains (lower nm) = true
      · rw [if_pos hsk]
        rcases hr : process_children cfg b rest st with ⟨rest2, st2⟩
        have e := vp_process_children cfg b rest st
        rw [hr] at e
        dsimp only at e
        try rw [hr]
        dsimp only
        rw [vpl_cons, vpl_cons, add_assoc, e, add_assoc]
      · rw [if_neg hsk]
        by_cases hsp : (lower nm == "span" && has_attr_k "data-i18n" a) = true
        · rw [if_pos hsp]
          rcases hr : process_children cfg b rest st with ⟨rest2, st2⟩
          have e := vp_process_children cfg b rest st
          rw [hr] at e
          dsimp only at e
          try rw [hr]
          dsimp only
          rw [vpl_cons, vpl_cons, add_assoc, e, add_assoc]
        · rw [if_neg hsp]
          rcases hh : process_tag cfg (.tag j nm a c) st with ⟨c2, st2⟩
          have e1 := vp_process_tag cfg (.tag j nm a c) st
          rw [hh] at e1
          dsimp only at e1
          dsimp only
          rw [vpl_cons, vpl_cons]
          calc vpn c2 + vpl (process_children cfg b rest st2).1
                + vpl (process_children cfg b rest st2).2.det
              = vpn c2 + (vpl (process_children cfg b rest st2).1
                  + vpl (process_children cfg b rest st2).2.det) := by rw [add_assoc]
            _ = vpn c2 + (vpl rest + vpl st2.det) := by rw [vp_process_children cfg b rest st2]
            _ = (vpn c2 + vpl st2.det) + vpl rest := by abel
            _ = (vpn (.tag j nm a c) + vpl st.det) + vpl rest := by rw [e1]
            _ = vpn (.tag j nm a c) + vpl rest + vpl st.det := by abel
termination_by sizeOf ch

end

mutual

theorem vp_target_node (cfg : Config) (i : Nat) (n : Node) (st : St) :
    vpn (target_node cfg i n st).1 + vpl (target_node cfg i n st).2.det
      = vpn n + vpl st.det := by
  cases n with
  | text s => rfl
  | comment s => rfl
  | tag j nm a c =>
    rw [target_node]
    by_cases hij : (j == i) = true
    · rw [if_pos hij]
      exact vp_process_tag cfg (.tag j nm a c) st
    · rw [if_neg hij]
      dsimp only
      rw [vpn_tag, vpn_tag, add_assoc, vp_target_list cfg i c st, add_assoc]
termination_by sizeOf n

theorem vp_target_list (cfg : Config) (i : Nat) (l : List Node) (st : St) :
    vpl (target_list cfg i l st).1 + vpl (target_list cfg i l st).2.det
      = vpl l + vpl st.det := by
  cases l with
  | nil => rfl
  | cons n rest =>
    rw [target_list]
    rcases hh : target_node cfg i n st with ⟨n2, st2⟩
    have e1 := vp_target_node cfg i n st
    rw [hh] at e1
    dsimp only at e1
    dsimp only
    rw [vpl_cons, vpl_cons]
    calc vpn n2 + vpl (target_list cfg i rest st2).1 + vpl (target_list cfg i rest st2).2.det
        = vpn n2 + (vpl (target_list cfg i rest st2).1
            + vpl (target_list cfg i rest st2).2.det) := by rw [add_assoc]
      _ = vpn n2 + (vpl rest + vpl st2.det) := by rw [vp_target_list cfg i rest st2]
      _ = (vpn n2 + vpl st2.det) + vpl rest := by abel
      _ = (vpn n + vpl st.det) + vpl rest := by rw [e1]
      _ = vpn n + vpl rest + vpl st.det := by abel
termination_by sizeOf l

end

theorem vp_run_step (cfg : Config) (acc : List Node × List Node × St) (i : Nat) :
    vpl (run_step cfg acc i).1 + vpl (run_step cfg acc i).2.1 + vpl (run_step cfg acc i).2.2.det
      = vpl acc.1 + vpl acc.2.1 + vpl acc.2.2.det := by
  obtain ⟨doc, pool, st⟩ := acc
  rcases h1 : target_list cfg i doc st with ⟨doc2, st1⟩
  have e1 := vp_target_list cfg i doc st
  rw [h1] at e1
  dsimp only at e1
  rcases h2 : target_list cfg i pool st1 with ⟨pool2, st2⟩
  have e2 := vp_target_list cfg i pool st1
  rw [h2] at e2
  dsimp only at e2
  rw [run_step]
  dsimp only
  try rw [h1]
  try rw [h2]
  dsimp only
  rw [vpl_append, vpl_nil]
  calc vpl doc2 + (vpl pool2 + vpl st2.det) + 0
      = vpl doc2 + (vpl pool + vpl st1.det) + 0 := by rw [e2]
    _ = (vpl doc2 + vpl st1.det) + vpl pool := by abel
    _ = (vpl doc + vpl st.det) + vpl pool := by rw [e1]
    _ = vpl doc + vpl pool + vpl st.det := by abel

theorem vp_foldl (cfg : Config) (ids : List Nat) :
    ∀ acc : List Node × List Node × St,
      vpl (ids.foldl (run_step cfg) acc).1 + vpl (ids.foldl (run_step cfg) acc).2.1
          + vpl (ids.foldl (run_step cfg) acc).2.2.det
        = vpl acc.1 + vpl acc.2.1 + vpl acc.2.2.det := by
  induction ids with
  | nil => intro acc; rfl
  | cons i rest ih =>
    intro acc
    rw [List.foldl_cons, ih (run_step cfg acc i), vp_run_step]

theorem vp_run_loop (cfg : Config) (ids : List Nat) (doc : List Node) (st : St) :
    vpl (run_loop cfg ids doc st).1 + vpl (run_loop cfg ids doc st).2.1
        + vpl (run_loop cfg ids doc st).2.2.det
      = vpl doc + vpl st.det := by
  have e := vp_foldl cfg ids (doc, [], st)
  rw [run_loop]
  dsimp only at e
  rw [vpl_nil, add_zero] at e
  exact e

theorem get_attr_value_fix_map (a : Attrs) :
    get_attr "value"
        (a.map fun p => if starts_data_i18n p.1 then (p.1, unescape_html p.2) else p)
      = get_attr "value" a := by
  induction a with
  | nil => rfl
  | cons q rest ih =>
    obtain ⟨k, v⟩ := q
    by_cases hk : k = "value"
    · subst hk
      rw [List.map_cons]
      rw [if_neg (by decide : ¬starts_data_i18n "value" = true)]
      rfl
    · rw [List.map_cons]
      by_cases hs : starts_data_i18n k = true
      · rw [if_pos hs]
        simp [get_attr, beq_iff_eq, hk, ih]
      · rw [if_neg hs]
        simp [get_attr, beq_iff_eq, hk, ih]

mutual

theorem vp_fix_node (n : Node) : node_value_pairs (fix_node n) = node_value_pairs n := by
  cases n with
  | text s => rfl
  | comment s => rfl
  | tag i nm a ch =>
    rw [fix_node]
    show value_pair i _ ++ list_value_pairs (fix_list ch) = value_pair i a ++ list_value_pairs ch
    rw [vp_fix_list ch]
    unfold value_pair
    rw [get_attr_value_fix_map]
termination_by sizeOf n

theorem vp_fix_list (l : List Node) : list_value_pairs (fix_list l) = list_value_pairs l := by
  cases l with
  | nil => rfl
  | cons n rest =>
    rw [fix_list]
    show node_value_pairs (fix_node n) ++ list_value_pairs (fix_list rest) = _
    rw [vp_fix_node n, vp_fix_list rest, list_value_pairs]
termination_by sizeOf l

end

/-- C6 (amended): the claim fails for option children (the document loop
still processes and annotates them — see the counterexample), but its
`value`-attribute guarantee holds in full generality: for every
configuration and every input document, every `(tag, value-attribute)` pair
of the output document is a `(tag, value-attribute)` pair of the input
document, so `value` attributes are never renamed, removed from a surviving
tag, or modified — on `option` elements and everywhere else. -/
theorem c6_value_attributes_preserved (cfg : Config) (reg : List (String × String))
    (doc : List Node) :
    (↑(list_value_pairs (process_html_from cfg reg doc).1) : Multiset (Nat × String))
      ≤ ↑(list_value_pairs doc) := by
  rw [process_html_from]
  dsimp only
  rcases hrl : run_loop cfg (list_ids doc) doc
      { reg := reg, fresh := list_max_id doc + 1, det := [] } with ⟨doc2, pool2, st2⟩
  have e := vp_run_loop cfg (list_ids doc) doc
    { reg := reg, fresh := list_max_id doc + 1, det := [] }
  rw [hrl] at e
  dsimp only at e
  rw [vpl_nil, add_zero] at e
  dsimp only
  rw [show list_value_pairs (fix_list doc2) = list_value_pairs doc2 from vp_fix_list doc2]
  have hle : vpl doc2 ≤ vpl doc := by
    rw [← e]
    exact le_trans (Multiset.le_add_right _ _) (Multiset.le_add_right _ _)
  exact hle

/-! ### Generic subtree signatures

A *signature measure* assigns to each tag (identity, name, attributes,
children) a list of observations.  For measures that vanish on every tag
whose name is outside the skip set (and with `span` outside the skip set, so
that synthetic wrapper spans contribute nothing), the multiset of
signatures of document plus detached pool is invariant under the walk:
skip-named tags are returned untouched by `process_tag`, and every other
tag contributes no signature before or after.  Instantiated below for C2
(skip-tag signatures) and C8 (script signatures). -/

mutual

/-- All signatures of a node's subtree under measure `f`. -/
def node_sig {α : Type} (f : Nat → String → Attrs → List Node → List α) : Node → List α
  | .tag i nm a ch => f i nm a ch ++ list_sig f ch
  | _ => []

/-- All signatures of a forest under measure `f`. -/
def list_sig {α : Type} (f : Nat → String → Attrs → List Node → List α) :
    List Node → List α
  | [] => []
  | n :: rest => node_sig f n ++ list_sig f rest

end


/-- `process_tag` keeps a tag's identity and name: every branch returns a
tag with the same `id` and `name`, changing only attributes and children. -/
theorem process_tag_shape (cfg : Config) (j : Nat) (nm : String) (a : Attrs)
    (c : List Node) (st : St) :
    ∃ a2 c2, (process_tag cfg (.tag j nm a c) st).1 = .tag j nm a2 c2 := by
  rw [process_tag]
  by_cases hskip : cfg.skipped_tags.contains (lower nm) = true
  · rw [if_pos hskip]
    exact ⟨a, c, rfl⟩
  · rw [if_neg hskip]
    rcases hpa : process_attributes cfg a st.reg with ⟨a1, r1⟩
    dsimp only
    by_cases hopt : (lower nm == "option") = true
    · rw [if_pos hopt]
      by_cases ht : (direct_text c != "" && should_translate (direct_text c)) = true
      · rw [if_pos ht]
        exact ⟨_, _, rfl⟩
      · rw [if_neg ht]
        exact ⟨_, _, rfl⟩
    · rw [if_neg hopt]
      by_cases ht : (direct_text c != "" && should_translate (direct_text c)) = true
      · rw [if_pos ht]
        by_cases hmix : ((c.filter is_tag).any
            (fun x => input_like_tags.contains (node_name_lower x))
              && strip_str (direct_text c) != "") = true
        · rw [if_pos hmix]
          rcases hpm : process_mixed cfg c { st with reg := r1 } with ⟨c2, st2⟩
          dsimp only
          exact ⟨_, _, rfl⟩
        · rw [if_neg hmix]
          by_cases honly : (c.all is_nav_string) = true
          · rw [if_pos honly]
            exact ⟨_, _, rfl⟩
          · rw [if_neg honly]
            rcases hpc : process_children cfg (has_attr_k "data-i18n" a1) c
                { st with reg := r1 } with ⟨c2, st2⟩
            dsimp only
            exact ⟨_, _, rfl⟩
      · rw [if_neg ht]
        rcases hpc : process_children cfg (has_attr_k "data-i18n" a1) c
            { st with reg := r1 } with ⟨c2, st2⟩
        dsimp only
        exact ⟨_, _, rfl⟩

/-- `target_node` also keeps a tag's identity and name. -/
theorem target_node_shape (cfg : Config) (i j : Nat) (nm : String) (a : Attrs)
    (c : List Node) (st : St) :
    ∃ a2 c2, (target_node cfg i (.tag j nm a c) st).1 = .tag j nm a2 c2 := by
  rw [target_node]
  by_cases hij : (j == i) = true
  · rw [if_pos hij]
    exact process_tag_shape cfg j nm a c st
  · rw [if_neg hij]
    rcases ht : target_list cfg i c st with ⟨c2, st2⟩
    dsimp only
    exact ⟨_, _, rfl⟩

/-- One `find_all`-loop step never changes the direct text content of any
children list: text nodes are returned unchanged and tags stay tags. -/
theorem direct_text_chars_target_list (cfg : Config) (i : Nat) (l : List Node) (st : St) :
    direct_text_chars (target_list cfg i l st).1 = direct_text_chars l := by
  cases l with
  | nil => rfl
  | cons n rest =>
    rw [target_list]
    cases n with
    | text s =>
      rw [show target_node cfg i (.text s) st = (.text s, st) from rfl]
      dsimp only
      simp only [direct_text_chars]
      rw [direct_text_chars_target_list cfg i rest st]
    | comment s =>
      rw [show target_node cfg i (.comment s) st = (.comment s, st) from rfl]
      dsimp only
      simp only [direct_text_chars]
      exact direct_text_chars_target_list cfg i rest st
    | tag j nm a c =>
      rcases hh : target_node cfg i (.tag j nm a c) st with ⟨n2, st2⟩
      obtain ⟨a2, c2, hshape⟩ := target_node_shape cfg i j nm a c st
      rw [hh] at hshape
      dsimp only at hshape
      dsimp only
      rw [hshape]
      simp only [direct_text_chars]
      exact direct_text_chars_target_list cfg i rest st2
termination_by sizeOf l

/-- `direct_text` form of `direct_text_chars_target_list`. -/
theorem direct_text_target_list (cfg : Config) (i : Nat) (l : List Node) (st : St) :
    direct_text (target_list cfg i l st).1 = direct_text l :=
  congrArg String.mk (direct_text_chars_target_list cfg i l st)

section SigInvariant

variable {α : Type}

/-- `node_sig` as a multiset. -/
def sgn (f : Nat → String → Attrs → List Node → List α) (n : Node) : Multiset α :=
  ↑(node_sig f n)

/-- `list_sig` as a multiset. -/
def sgl (f : Nat → String → Attrs → List Node → List α) (l : List Node) : Multiset α :=
  ↑(list_sig f l)

theorem list_sig_append (f : Nat → String → Attrs → List Node → List α)
    (l₁ l₂ : List Node) :
    list_sig f (l₁ ++ l₂) = list_sig f l₁ ++ list_sig f l₂ := by
  induction l₁ with
  | nil => rfl
  | cons n rest ih =>
    show node_sig f n ++ list_sig f (rest ++ l₂) = _
    rw [ih, list_sig, List.append_assoc]

theorem sgl_append (f : Nat → String → Attrs → List Node → List α) (l₁ l₂ : List Node) :
    sgl f (l₁ ++ l₂) = sgl f l₁ + sgl f l₂ := by
  unfold sgl
  rw [list_sig_append, ← Multiset.coe_add]

theorem sgl_cons (f : Nat → String → Attrs → List Node → List α) (n : Node)
    (rest : List Node) :
    sgl f (n :: rest) = sgn f n + sgl f rest := by
  unfold sgl sgn
  rw [list_sig, ← Multiset.coe_add]

theorem sgl_nil (f : Nat → String → Attrs → List Node → List α) : sgl f [] = 0 := rfl

theorem sgn_text (f : Nat → String → Attrs → List Node → List α) (s : String) :
    sgn f (.text s) = 0 := rfl

theorem sgn_comment (f : Nat → String → Attrs → List Node → List α) (s : String) :
    sgn f (.comment s) = 0 := rfl

theorem sgn_tag (f : Nat → String → Attrs → List Node → List α) (i : Nat) (nm : String)
    (a : Attrs) (ch : List Node) :
    sgn f (.tag i nm a ch) = ↑(f i nm a ch) + sgl f ch := by
  unfold sgn sgl
  rw [node_sig, ← Multiset.coe_add]

theorem sgn_span_zero (cfg : Config) (f : Nat → String → Attrs → List Node → List α)
    (hempty : ∀ i nm a ch, cfg.skipped_tags.contains (lower nm) = false → f i nm a ch = [])
    (hsp : cfg.skipped_tags.contains "span" = false) (fr : Nat) (v : String) :
    sgn f (Node.tag fr "span" [("data-i18n", v)] []) = 0 := by
  rw [sgn_tag, hempty fr "span" [("data-i18n", v)] [] (by rw [show lower "span" = "span" from rfl]; exact hsp)]
  rfl

theorem sgl_wrap_nodes (cfg : Config) (f : Nat → String → Attrs → List Node → List α)
    (hempty : ∀ i nm a ch, cfg.skipped_tags.contains (lower nm) = false → f i nm a ch = [])
    (hsp : cfg.skipped_tags.contains "span" = false) (s : String) (st : St) :
    sgl f (wrap_text_with_whitespace s st).1 = 0 := by
  unfold wrap_text_with_whitespace
  have hl : sgl f (lead_nodes s) = 0 := by
    unfold lead_nodes
    split <;> rfl
  have ht : sgl f (trail_nodes s) = 0 := by
    unfold trail_nodes
    split <;> rfl
  split
  · rw [sgl_append, sgl_append, hl, ht, sgl_cons, sgl_nil, sgn_span_zero cfg f hempty hsp]
    simp
  · split
    · rw [sgl_append, sgl_append, hl, ht, sgl_cons, sgl_nil, sgn_text]
      simp
    · rw [sgl_append, hl, ht]
      simp

theorem sgl_filter_is_tag (f : Nat → String → Attrs → List Node → List α) (l : List Node) : sgl f (l.filter is_tag) = sgl f l := by
  induction l with
  | nil => rfl
  | cons n rest ih =>
    cases n with
    | text s => rw [List.filter_cons_of_neg (by simp [is_tag]), sgl_cons, sgn_text, zero_add, ih]
    | comment s =>
      rw [List.filter_cons_of_neg (by simp [is_tag]), sgl_cons, sgn_comment, zero_add, ih]
    | tag i nm a ch =>
      rw [List.filter_cons_of_pos (by simp [is_tag]), sgl_cons, sgl_cons, ih]

mutual

theorem sg_process_tag (cfg : Config) (f : Nat → String → Attrs → List Node → List α)
    (hempty : ∀ i nm a ch, cfg.skipped_tags.contains (lower nm) = false → f i nm a ch = [])
    (hsp : cfg.skipped_tags.contains "span" = false) (n : Node) (st : St) :
    sgn f (process_tag cfg n st).1 + sgl f (process_tag cfg n st).2.det
      = sgn f n + sgl f st.det := by
  cases n with
  | text s => rfl
  | comment s => rfl
  | tag i nm attrs ch =>
    rw [process_tag]
    by_cases hskip : cfg.skipped_tags.contains (lower nm) = true
    · rw [if_pos hskip]
    · rw [if_neg hskip]
      have hskip' : cfg.skipped_tags.contains (lower nm) = false := by
        revert hskip
        cases cfg.skipped_tags.contains (lower nm) <;> simp
      have hz : ∀ a' ch', (↑(f i nm a' ch') : Multiset α) = 0 := fun a' ch' => by
        rw [hempty i nm a' ch' hskip']
        rfl
      rcases hpa : process_attributes cfg attrs st.reg with ⟨attrs1, reg1⟩
      dsimp only
      by_cases hopt : (lower nm == "option") = true
      · rw [if_pos hopt]
        by_cases ht : (direct_text ch != "" && should_translate (direct_text ch)) = true
        · rw [if_pos ht]
          dsimp only
          rw [sgn_tag, sgn_tag, hz, hz, sgl_nil, sgl_append,
            sgl_filter_is_tag f]
          abel
        · rw [if_neg ht]
          dsimp only
          rw [sgn_tag, sgn_tag, hz, hz]
      · rw [if_neg hopt]
        by_cases ht : (direct_text ch != "" && should_translate (direct_text ch)) = true
        · rw [if_pos ht]
          by_cases hmix : ((ch.filter is_tag).any
              (fun c => input_like_tags.contains (node_name_lower c))
                && strip_str (direct_text ch) != "") = true
          · rw [if_pos hmix]
            rcases hpm : process_mixed cfg ch { st with reg := reg1 } with ⟨ch2, st2⟩
            have e := sg_process_mixed cfg f hempty hsp ch { st with reg := reg1 }
            rw [hpm] at e
            dsimp only at e
            try rw [hpm]
            dsimp only
            rw [sgn_tag, sgn_tag, hz, hz, zero_add, zero_add]
            exact e
          · rw [if_neg hmix]
            by_cases honly : (ch.all is_nav_string) = true
            · rw [if_pos honly]
              dsimp only
              rw [sgn_tag, sgn_tag, hz, hz, sgl_nil, sgl_append,
                sgl_filter_is_tag f]
              abel
            · rw [if_neg honly]
              rcases hpc : process_children cfg (has_attr_k "data-i18n" attrs1) ch
                  { st with reg := reg1 } with ⟨ch2, st2⟩
              have e := sg_process_children cfg f hempty hsp (has_attr_k "data-i18n" attrs1) ch
                { st with reg := reg1 }
              rw [hpc] at e
              dsimp only at e
              try rw [hpc]
              dsimp only
              rw [sgn_tag, sgn_tag, hz, hz, zero_add, zero_add]
              exact e
        · rw [if_neg ht]
          rcases hpc : process_children cfg (has_attr_k "data-i18n" attrs1) ch
              { st with reg := reg1 } with ⟨ch2, st2⟩
          have e := sg_process_children cfg f hempty hsp (has_attr_k "data-i18n" attrs1) ch
            { st with reg := reg1 }
          rw [hpc] at e
          dsimp only at e
          try rw [hpc]
          dsimp only
          rw [sgn_tag, sgn_tag, hz, hz, zero_add, zero_add]
          exact e
termination_by sizeOf n

theorem sg_process_mixed (cfg : Config) (f : Nat → String → Attrs → List Node → List α)
    (hempty : ∀ i nm a ch, cfg.skipped_tags.contains (lower nm) = false → f i nm a ch = [])
    (hsp : cfg.skipped_tags.contains "span" = false) (ch : List Node) (st : St) :
    sgl f (process_mixed cfg ch st).1 + sgl f (process_mixed cfg ch st).2.det
      = sgl f ch + sgl f st.det := by
  cases ch with
  | nil => rfl
  | cons c rest =>
    cases c with
    | text s =>
      rw [process_mixed]
      by_cases hc : (strip_str s != "" && should_translate s) = true
      · rw [if_pos hc]
        dsimp only
        rw [sgl_cons, sgl_cons, sgn_text, sgn_span_zero cfg f hempty hsp, zero_add, zero_add]
        exact sg_process_mixed cfg f hempty hsp rest
          { st with
            fresh := st.fresh + 1
            reg := add_translation_key (normalize_text s) st.reg }
      · rw [if_neg hc]
        dsimp only
        rw [sgl_cons, sgl_cons, sgn_text, zero_add, zero_add]
        exact sg_process_mixed cfg f hempty hsp rest st
    | comment s =>
      rw [process_mixed]
      dsimp only
      rw [sgl_cons, sgl_cons, sgn_comment, zero_add, zero_add]
      exact sg_process_mixed cfg f hempty hsp rest st
    | tag j nm a c =>
      rw [process_mixed]
      rcases hh : process_tag cfg (.tag j nm a c) st with ⟨c2, st2⟩
      have e1 := sg_process_tag cfg f hempty hsp (.tag j nm a c) st
      rw [hh] at e1
      dsimp only at e1
      dsimp only
      rw [sgl_cons, sgl_cons]
      calc sgn f c2 + sgl f (process_mixed cfg rest st2).1
            + sgl f (process_mixed cfg rest st2).2.det
          = sgn f c2 + (sgl f (process_mixed cfg rest st2).1
              + sgl f (process_mixed cfg rest st2).2.det) := by rw [add_assoc]
        _ = sgn f c2 + (sgl f rest + sgl f st2.det) := by rw [sg_process_mixed cfg f hempty hsp rest st2]
        _ = (sgn f c2 + sgl f st2.det) + sgl f rest := by abel
        _ = (sgn f (.tag j nm a c) + sgl f st.det) + sgl f rest := by rw [e1]
        _ = sgn f (.tag j nm a c) + sgl f rest + sgl f st.det := by abel
termination_by sizeOf ch

theorem sg_process_children (cfg : Config) (f : Nat → String → Attrs → List Node → List α)
    (hempty : ∀ i nm a ch, cfg.skipped_tags.contains (lower nm) = false → f i nm a ch = [])
    (hsp : cfg.skipped_tags.contains "span" = false) (b : Bool) (ch : List Node) (st : St) :
    sgl f (process_children cfg b ch st).1 + sgl f (process_children cfg b ch st).2.det
      = sgl f ch + sgl f st.det := by
  cases ch with
  | nil => rfl
  | cons c rest =>
    cases c with
    | text s =>
      rw [process_children]
      by_cases hws : (strip_str s != "") = true
      · rw [if_pos hws]
        cases b with
        | true =>
          rw [if_pos (rfl : (true : Bool) = true)]
          dsimp only
          rw [sgl_cons, sgl_cons, sgn_text, zero_add, zero_add]
          exact sg_process_children cfg f hempty hsp true rest st
        | false =>
          rw [if_neg (by simp : ¬(false : Bool) = true)]
          rcases hw : wrap_text_with_whitespace s st with ⟨nodes, st1⟩
          have hwv := sgl_wrap_nodes cfg f hempty hsp s st
          have hwd := wrap_det s st
          rw [hw] at hwv hwd
          dsimp only at hwv hwd
          dsimp only
          rw [sgl_append, hwv, zero_add, sgl_cons, sgn_text, zero_add,
            sg_process_children cfg f hempty hsp false rest st1, hwd]
      · rw [if_neg hws]
        dsimp only
        rw [sgl_cons, sgl_cons, sgn_text, zero_add, zero_add]
        exact sg_process_children cfg f hempty hsp b rest st
    | comment s =>
      rw [process_children]
      dsimp only
      rw [sgl_cons, sgl_cons, sgn_comment, zero_add, zero_add]
      exact sg_process_children cfg f hempty hsp b rest st
    | tag j nm a c =>
      rw [process_children]
      by_cases hsk : cfg.skipped_tags.contains (lower nm) = true
      · rw [if_pos hsk]
        dsimp only
        rw [sgl_cons, sgl_cons, add_assoc, sg_process_children cfg f hempty hsp b rest st, add_assoc]
      · rw [if_neg hsk]
        by_cases hspn : (lower nm == "span" && has_attr_k "data-i18n" a) = true
        · rw [if_pos hspn]
          dsimp only
          rw [sgl_cons, sgl_cons, add_assoc, sg_process_children cfg f hempty hsp b rest st, add_assoc]
        · rw [if_neg hspn]
          rcases hh : process_tag cfg (.tag j nm a c) st with ⟨c2, st2⟩
          have e1 := sg_process_tag cfg f hempty hsp (.tag j nm a c) st
          rw [hh] at e1
          dsimp only at e1
          dsimp only
          rw [sgl_cons, sgl_cons]
          calc sgn f c2 + sgl f (process_children cfg b rest st2).1
                + sgl f (process_children cfg b rest st2).2.det
              = sgn f c2 + (sgl f (process_children cfg b rest st2).1
                  + sgl f (process_children cfg b rest st2).2.det) := by rw [add_assoc]
            _ = sgn f c2 + (sgl f rest + sgl f st2.det) := by
                  rw [sg_process_children cfg f hempty hsp b rest st2]
            _ = (sgn f c2 + sgl f st2.det) + sgl f rest := by abel
            _ = (sgn f (.tag j nm a c) + sgl f st.det) + sgl f rest := by rw [e1]
            _ = sgn f (.tag j nm a c) + sgl f rest + sgl f st.det := by abel
termination_by sizeOf ch

end

mutual

theorem sg_target_node (cfg : Config) (f : Nat → String → Attrs → List Node → List α)
    (hempty : ∀ i nm a ch, cfg.skipped_tags.contains (lower nm) = false → f i nm a ch = [])
    (hsp : cfg.skipped_tags.contains "span" = false)
    (hdt : ∀ i nm a ch ch2, direct_text ch2 = direct_text ch → f i nm a ch2 = f i nm a ch)
    (i : Nat) (n : Node) (st : St) :
    sgn f (target_node cfg i n st).1 + sgl f (target_node cfg i n st).2.det
      = sgn f n + sgl f st.det := by
  cases n with
  | text s => rfl
  | comment s => rfl
  | tag j nm a c =>
    rw [target_node]
    by_cases hij : (j == i) = true
    · rw [if_pos hij]
      exact sg_process_tag cfg f hempty hsp (.tag j nm a c) st
    · rw [if_neg hij]
      dsimp only
      rw [sgn_tag, sgn_tag, add_assoc, sg_target_list cfg f hempty hsp hdt i c st, add_assoc,
        hdt j nm a c (target_list cfg i c st).1 (direct_text_target_list cfg i c st)]
termination_by sizeOf n

theorem sg_target_list (cfg : Config) (f : Nat → String → Attrs → List Node → List α)
    (hempty : ∀ i nm a ch, cfg.skipped_tags.contains (lower nm) = false → f i nm a ch = [])
    (hsp : cfg.skipped_tags.contains "span" = false)
    (hdt : ∀ i nm a ch ch2, direct_text ch2 = direct_text ch → f i nm a ch2 = f i nm a ch)
    (i : Nat) (l : List Node) (st : St) :
    sgl f (target_list cfg i l st).1 + sgl f (target_list cfg i l st).2.det
      = sgl f l + sgl f st.det := by
  cases l with
  | nil => rfl
  | cons n rest =>
    rw [target_list]
    rcases hh : target_node cfg i n st with ⟨n2, st2⟩
    have e1 := sg_target_node cfg f hempty hsp hdt i n st
    rw [hh] at e1
    dsimp only at e1
    dsimp only
    rw [sgl_cons, sgl_cons]
    calc sgn f n2 + sgl f (target_list cfg i rest st2).1
          + sgl f (target_list cfg i rest st2).2.det
        = sgn f n2 + (sgl f (target_list cfg i rest st2).1
            + sgl f (target_list cfg i rest st2).2.det) := by rw [add_assoc]
      _ = sgn f n2 + (sgl f rest + sgl f st2.det) := by rw [sg_target_list cfg f hempty hsp hdt i rest st2]
      _ = (sgn f n2 + sgl f st2.det) + sgl f rest := by abel
      _ = (sgn f n + sgl f st.det) + sgl f rest := by rw [e1]
      _ = sgn f n + sgl f rest + sgl f st.det := by abel
termination_by sizeOf l

end

theorem sg_run_step (cfg : Config) (f : Nat → String → Attrs → List Node → List α)
    (hempty : ∀ i nm a ch, cfg.skipped_tags.contains (lower nm) = false → f i nm a ch = [])
    (hsp : cfg.skipped_tags.contains "span" = false)
    (hdt : ∀ i nm a ch ch2, direct_text ch2 = direct_text ch → f i nm a ch2 = f i nm a ch)
    (acc : List Node × List Node × St) (i : Nat) :
    sgl f (run_step cfg acc i).1 + sgl f (run_step cfg acc i).2.1
        + sgl f (run_step cfg acc i).2.2.det
      = sgl f acc.1 + sgl f acc.2.1 + sgl f acc.2.2.det := by
  obtain ⟨doc, pool, st⟩ := acc
  rcases h1 : target_list cfg i doc st with ⟨doc2, st1⟩
  have e1 := sg_target_list cfg f hempty hsp hdt i doc st
  rw [h1] at e1
  dsimp only at e1
  rcases h2 : target_list cfg i pool st1 with ⟨pool2, st2⟩
  have e2 := sg_target_list cfg f hempty hsp hdt i pool st1
  rw [h2] at e2
  dsimp only at e2
  rw [run_step]
  dsimp only
  try rw [h1]
  try rw [h2]
  dsimp only
  rw [sgl_append, sgl_nil]
  calc sgl f doc2 + (sgl f pool2 + sgl f st2.det) + 0
      = sgl f doc2 + (sgl f pool + sgl f st1.det) + 0 := by rw [e2]
    _ = (sgl f doc2 + sgl f st1.det) + sgl f pool := by abel
    _ = (sgl f doc + sgl f st.det) + sgl f pool := by rw [e1]
    _ = sgl f doc + sgl f pool + sgl f st.det := by abel

theorem sg_foldl (cfg : Config) (f : Nat → String → Attrs → List Node → List α)
    (hempty : ∀ i nm a ch, cfg.skipped_tags.contains (lower nm) = false → f i nm a ch = [])
    (hsp : cfg.skipped_tags.contains "span" = false)
    (hdt : ∀ i nm a ch ch2, direct_text ch2 = direct_text ch → f i nm a ch2 = f i nm a ch)
    (ids : List Nat) :
    ∀ acc : List Node × List Node × St,
      sgl f (ids.foldl (run_step cfg) acc).1 + sgl f (ids.foldl (run_step cfg) acc).2.1
          + sgl f (ids.foldl (run_step cfg) acc).2.2.det
        = sgl f acc.1 + sgl f acc.2.1 + sgl f acc.2.2.det := by
  induction ids with
  | nil => intro acc; rfl
  | cons i rest ih =>
    intro acc
    rw [List.foldl_cons, ih (run_step cfg acc i), sg_run_step cfg f hempty hsp hdt]

theorem sg_run_loop (cfg : Config) (f : Nat → String → Attrs → List Node → List α)
    (hempty : ∀ i nm a ch, cfg.skipped_tags.contains (lower nm) = false → f i nm a ch = [])
    (hsp : cfg.skipped_tags.contains "span" = false)
    (hdt : ∀ i nm a ch ch2, direct_text ch2 = direct_text ch → f i nm a ch2 = f i nm a ch)
    (ids : List Nat) (doc : List Node) (st : St) :
    sgl f (run_loop cfg ids doc st).1 + sgl f (run_loop cfg ids doc st).2.1
        + sgl f (run_loop cfg ids doc st).2.2.det
      = sgl f doc + sgl f st.det := by
  have e := sg_foldl cfg f hempty hsp hdt ids (doc, [], st)
  rw [run_loop]
  dsimp only at e
  rw [sgl_nil, add_zero] at e
  exact e

end SigInvariant

/-! ### Documents whose options have no element children

When every `option` element (anywhere in the document) has no element
children, `tag.clear()` never detaches a tag: the `option` clear drops only
text, and the text-only clear (`has_only_text`) drops only
`NavigableString`s.  Hence the detached pool stays empty for such
documents, and the property is preserved by the walk (annotated tags end up
empty; synthetic spans are childless). -/

mutual

/-- No `option` tag in this node's subtree has an element child. -/
def opts_flat_node : Node → Bool
  | .tag _ nm _ ch =>
    ((lower nm != "option") || (ch.filter is_tag).isEmpty) && opts_flat_list ch
  | _ => true

/-- No `option` tag in this forest has an element child. -/
def opts_flat_list : List Node → Bool
  | [] => true
  | n :: rest => opts_flat_node n && opts_flat_list rest

end

theorem filter_is_tag_nil_of_all_nav (ch : List Node) (h : ch.all is_nav_string = true) :
    ch.filter is_tag = [] := by
  induction ch with
  | nil => rfl
  | cons n rest ih =>
    rw [List.all_cons, Bool.and_eq_true] at h
    cases n with
    | text s => rw [List.filter_cons_of_neg (by simp [is_tag])]; exact ih h.2
    | comment s => rw [List.filter_cons_of_neg (by simp [is_tag])]; exact ih h.2
    | tag i nm a c => simp [is_nav_string] at h

theorem opts_flat_wrap (s : String) (st : St) :
    opts_flat_list (wrap_text_with_whitespace s st).1 = true := by
  unfold wrap_text_with_whitespace
  have hl : opts_flat_list (lead_nodes s) = true := by
    unfold lead_nodes
    split <;> rfl
  have ht : opts_flat_list (trail_nodes s) = true := by
    unfold trail_nodes
    split <;> rfl
  have happ : ∀ l₁ l₂ : List Node, opts_flat_list l₁ = true → opts_flat_list l₂ = true →
      opts_flat_list (l₁ ++ l₂) = true := by
    intro l₁
    induction l₁ with
    | nil => intro l₂ _ h2; exact h2
    | cons n rest ih =>
      intro l₂ h1 h2
      rw [List.cons_append, opts_flat_list, Bool.and_eq_true]
      rw [opts_flat_list, Bool.and_eq_true] at h1
      exact ⟨h1.1, ih l₂ h1.2 h2⟩
  split
  · exact happ _ _ (happ _ _ hl (by rfl)) ht
  · split
    · exact happ _ _ (happ _ _ hl (by rfl)) ht
    · exact happ _ _ hl ht

theorem opts_flat_append (l₁ l₂ : List Node) :
    opts_flat_list (l₁ ++ l₂) = (opts_flat_list l₁ && opts_flat_list l₂) := by
  induction l₁ with
  | nil => rfl
  | cons n rest ih =>
    rw [List.cons_append, opts_flat_list, opts_flat_list, ih, Bool.and_assoc]

mutual

theorem flat_process_tag (cfg : Config) (n : Node) (st : St) (h : opts_flat_node n = true) :
    (process_tag cfg n st).2.det = st.det
      ∧ opts_flat_node (process_tag cfg n st).1 = true := by
  cases n with
  | text s => exact ⟨rfl, rfl⟩
  | comment s => exact ⟨rfl, rfl⟩
  | tag i nm attrs ch =>
    rw [opts_flat_node, Bool.and_eq_true] at h
    obtain ⟨h1, h2⟩ := h
    rw [process_tag]
    by_cases hskip : cfg.skipped_tags.contains (lower nm) = true
    · rw [if_pos hskip]
      exact ⟨rfl, by rw [opts_flat_node, Bool.and_eq_true]; exact ⟨h1, h2⟩⟩
    · rw [if_neg hskip]
      rcases hpa : process_attributes cfg attrs st.reg with ⟨attrs1, reg1⟩
      dsimp only
      by_cases hopt : (lower nm == "option") = true
      · rw [if_pos hopt]
        have hfe : ch.filter is_tag = [] := by
          rw [show (lower nm != "option") = false by simp [bne, hopt]] at h1
          rw [Bool.false_or] at h1
          exact List.isEmpty_iff.1 h1
        by_cases ht : (direct_text ch != "" && should_translate (direct_text ch)) = true
        · rw [if_pos ht]
          refine ⟨?_, ?_⟩
          · dsimp only
            rw [hfe, List.append_nil]
          · dsimp only
            rw [opts_flat_node]
            simp [opts_flat_list]
        · rw [if_neg ht]
          exact ⟨rfl, by rw [opts_flat_node, Bool.and_eq_true]; exact ⟨h1, h2⟩⟩
      · rw [if_neg hopt]
        have hne : (lower nm == "option") = false := by
          revert hopt
          cases lower nm == "option" <;> simp
        have h1' : ∀ b : Bool, (lower nm != "option" || b) = true := by
          intro b
          rw [show (lower nm != "option") = true by simp [bne, hne]]
          simp
        by_cases ht : (direct_text ch != "" && should_translate (direct_text ch)) = true
        · rw [if_pos ht]
          by_cases hmix : ((ch.filter is_tag).any
              (fun c => input_like_tags.contains (node_name_lower c))
                && strip_str (direct_text ch) != "") = true
          · rw [if_pos hmix]
            obtain ⟨hd, hf⟩ := flat_process_mixed cfg ch { st with reg := reg1 } h2
            refine ⟨?_, ?_⟩
            · dsimp only
              exact hd
            · dsimp only
              rw [opts_flat_node, Bool.and_eq_true]
              exact ⟨h1' _, hf⟩
          · rw [if_neg hmix]
            by_cases honly : (ch.all is_nav_string) = true
            · rw [if_pos honly]
              refine ⟨?_, ?_⟩
              · dsimp only
                rw [filter_is_tag_nil_of_all_nav ch honly, List.append_nil]
              · dsimp only
                rw [opts_flat_node]
                simp [opts_flat_list]
            · rw [if_neg honly]
              obtain ⟨hd, hf⟩ := flat_process_children cfg (has_attr_k "data-i18n" attrs1) ch
                { st with reg := reg1 } h2
              refine ⟨?_, ?_⟩
              · dsimp only
                exact hd
              · dsimp only
                rw [opts_flat_node, Bool.and_eq_true]
                exact ⟨h1' _, hf⟩
        · rw [if_neg ht]
          obtain ⟨hd, hf⟩ := flat_process_children cfg (has_attr_k "data-i18n" attrs1) ch
            { st with reg := reg1 } h2
          refine ⟨?_, ?_⟩
          · dsimp only
            exact hd
          · dsimp only
            rw [opts_flat_node, Bool.and_eq_true]
            exact ⟨h1' _, hf⟩
termination_by sizeOf n

theorem flat_process_mixed (cfg : Config) (ch : List Node) (st : St)
    (h : opts_flat_list ch = true) :
    (process_mixed cfg ch st).2.det = st.det
      ∧ opts_flat_list (process_mixed cfg ch st).1 = true := by
  cases ch with
  | nil => exact ⟨rfl, rfl⟩
  | cons c rest =>
    rw [opts_flat_list, Bool.and_eq_true] at h
    obtain ⟨hc1, hc2⟩ := h
    cases c with
    | text s =>
      rw [process_mixed]
      by_cases hc : (strip_str s != "" && should_translate s) = true
      · rw [if_pos hc]
        obtain ⟨hd, hf⟩ := flat_process_mixed cfg rest
          { st with
            fresh := st.fresh + 1
            reg := add_translation_key (normalize_text s) st.reg } hc2
        refine ⟨hd, ?_⟩
        dsimp only
        rw [opts_flat_list, Bool.and_eq_true]
        exact ⟨rfl, hf⟩
      · rw [if_neg hc]
        obtain ⟨hd, hf⟩ := flat_process_mixed cfg rest st hc2
        refine ⟨hd, ?_⟩
        dsimp only
        rw [opts_flat_list, Bool.and_eq_true]
        exact ⟨rfl, hf⟩
    | comment s =>
      rw [process_mixed]
      obtain ⟨hd, hf⟩ := flat_process_mixed cfg rest st hc2
      refine ⟨hd, ?_⟩
      dsimp only
      rw [opts_flat_list, Bool.and_eq_true]
      exact ⟨rfl, hf⟩
    | tag j nm a c =>
      rw [process_mixed]
      rcases hh : process_tag cfg (.tag j nm a c) st with ⟨c2, st2⟩
      have e1 := flat_process_tag cfg (.tag j nm a c) st hc1
      rw [hh] at e1
      dsimp only at e1
      obtain ⟨hd2, hf2⟩ := flat_process_mixed cfg rest st2 hc2
      refine ⟨?_, ?_⟩
      · dsimp only
        rw [hd2, e1.1]
      · dsimp only
        rw [opts_flat_list, Bool.and_eq_true]
        exact ⟨e1.2, hf2⟩
termination_by sizeOf ch

theorem flat_process_children (cfg : Config) (b : Bool) (ch : List Node) (st : St)
    (h : opts_flat_list ch = true) :
    (process_children cfg b ch st).2.det = st.det
      ∧ opts_flat_list (process_children cfg b ch st).1 = true := by
  cases ch with
  | nil => exact ⟨rfl, rfl⟩
  | cons c rest =>
    rw [opts_flat_list, Bool.and_eq_true] at h
    obtain ⟨hc1, hc2⟩ := h
    cases c with
    | text s =>
      rw [process_children]
      by_cases hws : (strip_str s != "") = true
      · rw [if_pos hws]
        cases b with
        | true =>
          rw [if_pos (rfl : (true : Bool) = true)]
          obtain ⟨hd, hf⟩ := flat_process_children cfg true rest st hc2
          refine ⟨hd, ?_⟩
          dsimp only
          rw [opts_flat_list, Bool.and_eq_true]
          exact ⟨rfl, hf⟩
        | false =>
          rw [if_neg (by simp : ¬(false : Bool) = true)]
          rcases hw : wrap_text_with_whitespace s st with ⟨nodes, st1⟩
          have hwf := opts_flat_wrap s st
          have hwd := wrap_det s st
          rw [hw] at hwf hwd
          dsimp only at hwf hwd
          obtain ⟨hd, hf⟩ := flat_process_children cfg false rest st1 hc2
          refine ⟨?_, ?_⟩
          · dsimp only
            rw [hd, hwd]
          · dsimp only
            rw [opts_flat_append, Bool.and_eq_true]
            exact ⟨hwf, hf⟩
      · rw [if_neg hws]
        obtain ⟨hd, hf⟩ := flat_process_children cfg b rest st hc2
        refine ⟨hd, ?_⟩
        dsimp only
        rw [opts_flat_list, Bool.and_eq_true]
        exact ⟨rfl, hf⟩
    | comment s =>
      rw [process_children]
      obtain ⟨hd, hf⟩ := flat_process_children cfg b rest st hc2
      refine ⟨hd, ?_⟩
      dsimp only
      rw [opts_flat_list, Bool.and_eq_true]
      exact ⟨rfl, hf⟩
    | tag j nm a c =>
      rw [process_children]
      by_cases hsk : cfg.skipped_tags.contains (lower nm) = true
      · rw [if_pos hsk]
        obtain ⟨hd, hf⟩ := flat_process_children cfg b rest st hc2
        refine ⟨hd, ?_⟩
        dsimp only
        rw [opts_flat_list, Bool.and_eq_true]
        exact ⟨hc1, hf⟩
      · rw [if_neg hsk]
        by_cases hspn : (lower nm == "span" && has_attr_k "data-i18n" a) = true
        · rw [if_pos hspn]
          obtain ⟨hd, hf⟩ := flat_process_children cfg b rest st hc2
          refine ⟨hd, ?_⟩
          dsimp only
          rw [opts_flat_list, Bool.and_eq_true]
          exact ⟨hc1, hf⟩
        · rw [if_neg hspn]
          rcases hh : process_tag cfg (.tag j nm a c) st with ⟨c2, st2⟩
          have e1 := flat_process_tag cfg (.tag j nm a c) st hc1
          rw [hh] at e1
          dsimp only at e1
          obtain ⟨hd2, hf2⟩ := flat_process_children cfg b rest st2 hc2
          refine ⟨?_, ?_⟩
          · dsimp only
            rw [hd2, e1.1]
          · dsimp only
            rw [opts_flat_list, Bool.and_eq_true]
            exact ⟨e1.2, hf2⟩
termination_by sizeOf ch

end

/-- A `find_all` step maps each child in place without changing its
constructor, so a children list with no element children keeps having
none. -/
theorem target_list_filter_is_tag_nil (cfg : Config) (i : Nat) (l : List Node) (st : St)
    (h : l.filter is_tag = []) :
    (target_list cfg i l st).1.filter is_tag = [] := by
  induction l generalizing st with
  | nil => rfl
  | cons n rest ih =>
    cases n with
    | text s =>
      rw [List.filter_cons_of_neg (by simp [is_tag])] at h
      rw [target_list]
      rw [show target_node cfg i (.text s) st = (.text s, st) from rfl]
      dsimp only
      rw [List.filter_cons_of_neg (by simp [is_tag])]
      exact ih st h
    | comment s =>
      rw [List.filter_cons_of_neg (by simp [is_tag])] at h
      rw [target_list]
      rw [show target_node cfg i (.comment s) st = (.comment s, st) from rfl]
      dsimp only
      rw [List.filter_cons_of_neg (by simp [is_tag])]
      exact ih st h
    | tag j nm a c =>
      rw [List.filter_cons_of_pos (by simp [is_tag])] at h
      exact absurd h (by simp)

mutual

theorem flat_target_node (cfg : Config) (i : Nat) (n : Node) (st : St)
    (h : opts_flat_node n = true) :
    (target_node cfg i n st).2.det = st.det
      ∧ opts_flat_node (target_node cfg i n st).1 = true := by
  cases n with
  | text s => exact ⟨rfl, rfl⟩
  | comment s => exact ⟨rfl, rfl⟩
  | tag j nm a c =>
    rw [target_node]
    by_cases hij : (j == i) = true
    · rw [if_pos hij]
      exact flat_process_tag cfg (.tag j nm a c) st h
    · rw [if_neg hij]
      rw [opts_flat_node, Bool.and_eq_true] at h
      obtain ⟨h1, h2⟩ := h
      obtain ⟨hd, hf⟩ := flat_target_list cfg i c st h2
      refine ⟨?_, ?_⟩
      · dsimp only
        exact hd
      · dsimp only
        rw [opts_flat_node, Bool.and_eq_true]
        refine ⟨?_, hf⟩
        rcases (Bool.or_eq_true _ _).mp h1 with hne | hemp
        · rw [hne]
          simp
        · rw [show ((target_list cfg i c st).1.filter is_tag).isEmpty = true from
            List.isEmpty_iff.2 (target_list_filter_is_tag_nil cfg i c st
              (List.isEmpty_iff.1 hemp))]
          simp
termination_by sizeOf n

theorem flat_target_list (cfg : Config) (i : Nat) (l : List Node) (st : St)
    (h : opts_flat_list l = true) :
    (target_list cfg i l st).2.det = st.det
      ∧ opts_flat_list (target_list cfg i l st).1 = true := by
  cases l with
  | nil => exact ⟨rfl, rfl⟩
  | cons n rest =>
    rw [opts_flat_list, Bool.and_eq_true] at h
    obtain ⟨h1, h2⟩ := h
    rw [target_list]
    rcases hh : target_node cfg i n st with ⟨n2, st2⟩
    have e1 := flat_target_node cfg i n st h1
    rw [hh] at e1
    dsimp only at e1
    obtain ⟨hd2, hf2⟩ := flat_target_list cfg i rest st2 h2
    refine ⟨?_, ?_⟩
    · dsimp only
      rw [hd2, e1.1]
    · dsimp only
      rw [opts_flat_list, Bool.and_eq_true]
      exact ⟨e1.2, hf2⟩
termination_by sizeOf l

end

/-- The signature of the skip-named tags: identity, written name, and the
full attribute list. -/
def skip_sig (cfg : Config) : Nat → String → Attrs → List Node → List (Nat × String × Attrs) :=
  fun i nm a _ => if cfg.skipped_tags.contains (lower nm) then [(i, nm, a)] else []

theorem skip_sig_empty (cfg : Config) : ∀ i nm a ch,
    cfg.skipped_tags.contains (lower nm) = false → skip_sig cfg i nm a ch = [] := by
  intro i nm a ch h
  unfold skip_sig
  rw [if_neg (by rw [h]; exact Bool.false_ne_true)]

theorem skip_sig_dt (cfg : Config) : ∀ i nm a ch ch2,
    direct_text ch2 = direct_text ch → skip_sig cfg i nm a ch2 = skip_sig cfg i nm a ch :=
  fun _ _ _ _ _ _ => rfl

/-- The output fix-up map is the identity on attribute lists with no
`data-i18n`-prefixed key. -/
theorem fix_attr_map_id (a : Attrs) (h : ∀ p ∈ a, starts_data_i18n p.1 = false) :
    (a.map fun p => if starts_data_i18n p.1 then (p.1, unescape_html p.2) else p) = a := by
  induction a with
  | nil => rfl
  | cons q rest ih =>
    rw [List.map_cons]
    rw [if_neg (by simp [h q (List.mem_cons_self q rest)])]
    rw [ih (fun p hp => h p (List.mem_cons_of_mem q hp))]

mutual

theorem skip_fix_node (cfg : Config) (n : Node)
    (h : ∀ sig ∈ node_sig (skip_sig cfg) n, ∀ p ∈ sig.2.2, starts_data_i18n p.1 = false) :
    node_sig (skip_sig cfg) (fix_node n) = node_sig (skip_sig cfg) n := by
  cases n with
  | text s => rfl
  | comment s => rfl
  | tag i nm a ch =>
    rw [fix_node]
    show skip_sig cfg i nm _ _ ++ list_sig (skip_sig cfg) (fix_list ch)
        = skip_sig cfg i nm a ch ++ list_sig (skip_sig cfg) ch
    have hch : ∀ sig ∈ list_sig (skip_sig cfg) ch, ∀ p ∈ sig.2.2,
        starts_data_i18n p.1 = false := by
      intro sig hs
      exact h sig (by rw [node_sig]; exact List.mem_append_right _ hs)
    rw [skip_fix_list cfg ch hch]
    congr 1
    unfold skip_sig
    by_cases hc : cfg.skipped_tags.contains (lower nm) = true
    · rw [if_pos hc, if_pos hc]
      have hmem : (i, nm, a) ∈ node_sig (skip_sig cfg) (.tag i nm a ch) := by
        rw [node_sig]
        apply List.mem_append_left
        unfold skip_sig
        rw [if_pos hc]
        exact List.mem_singleton.2 rfl
      have hcl := h (i, nm, a) hmem
      rw [fix_attr_map_id a hcl]
    · rw [if_neg hc, if_neg hc]
termination_by sizeOf n

theorem skip_fix_list (cfg : Config) (l : List Node)
    (h : ∀ sig ∈ list_sig (skip_sig cfg) l, ∀ p ∈ sig.2.2, starts_data_i18n p.1 = false) :
    list_sig (skip_sig cfg) (fix_list l) = list_sig (skip_sig cfg) l := by
  cases l with
  | nil => rfl
  | cons n rest =>
    rw [fix_list]
    show node_sig (skip_sig cfg) (fix_node n) ++ list_sig (skip_sig cfg) (fix_list rest) = _
    have hn : ∀ sig ∈ node_sig (skip_sig cfg) n, ∀ p ∈ sig.2.2,
        starts_data_i18n p.1 = false := by
      intro sig hs
      exact h sig (by rw [list_sig]; exact List.mem_append_left _ hs)
    have hr : ∀ sig ∈ list_sig (skip_sig cfg) rest, ∀ p ∈ sig.2.2,
        starts_data_i18n p.1 = false := by
      intro sig hs
      exact h sig (by rw [list_sig]; exact List.mem_append_right _ hs)
    rw [skip_fix_node cfg n hn, skip_fix_list cfg rest hr, list_sig]
termination_by sizeOf l

end

/-- C2 (amended): the subtree half of the claim fails — the `find_all` loop
of `process_html` processes the elements inside a skipped tag's subtree
directly, so they can be annotated and can register keys (see the
counterexample).  What does hold, for every configuration whose skip set
does not contain `span` and every document whose skip-named tags carry no
pre-existing `data-i18n*` attribute: every skip-named tag of the output
document appears in the input with identity, name and the exact same
attribute list — a skip-named tag itself is never annotated and none of its
attributes are added, removed, or modified. -/
theorem c2_skip_tags_not_annotated (cfg : Config) (reg : List (String × String))
    (doc : List Node)
    (hsp : cfg.skipped_tags.contains "span" = false)
    (hclean : ∀ sig ∈ list_sig (skip_sig cfg) doc, ∀ p ∈ sig.2.2,
      starts_data_i18n p.1 = false) :
    ((↑(list_sig (skip_sig cfg) (process_html_from cfg reg doc).1) :
        Multiset (Nat × String × Attrs))
      ≤ ↑(list_sig (skip_sig cfg) doc))
    ∧ ∀ sig ∈ list_sig (skip_sig cfg) (process_html_from cfg reg doc).1,
        ∀ p ∈ sig.2.2, starts_data_i18n p.1 = false := by
  rw [process_html_from]
  dsimp only
  rcases hrl : run_loop cfg (list_ids doc) doc
      { reg := reg, fresh := list_max_id doc + 1, det := [] } with ⟨doc2, pool2, st2⟩
  have e := sg_run_loop cfg (skip_sig cfg) (skip_sig_empty cfg) hsp (skip_sig_dt cfg)
    (list_ids doc) doc { reg := reg, fresh := list_max_id doc + 1, det := [] }
  rw [hrl] at e
  dsimp only at e
  rw [sgl_nil, add_zero] at e
  dsimp only
  have hle2 : sgl (skip_sig cfg) doc2 ≤ sgl (skip_sig cfg) doc := by
    rw [← e]
    exact le_trans (Multiset.le_add_right _ _) (Multiset.le_add_right _ _)
  have hmem2 : ∀ sig ∈ list_sig (skip_sig cfg) doc2, ∀ p ∈ sig.2.2,
      starts_data_i18n p.1 = false := by
    intro sig hs
    exact hclean sig (Multiset.mem_coe.1 (Multiset.subset_of_le hle2 (Multiset.mem_coe.2 hs)))
  have hfix : list_sig (skip_sig cfg) (fix_list doc2) = list_sig (skip_sig cfg) doc2 :=
    skip_fix_list cfg doc2 hmem2
  constructor
  · rw [hfix]
    exact hle2
  · intro sig hs
    rw [hfix] at hs
    exact hmem2 sig hs

/-- Witness for C2 at a concrete document: a `<script type="module">` block
under the default configuration. -/
theorem c2_witness :
    (default_config.skipped_tags.contains "span" = false) ∧
    (∀ sig ∈ list_sig (skip_sig default_config)
        [Node.tag 1 "script" [("type", "module")] [Node.text "var x;"]],
      ∀ p ∈ sig.2.2, starts_data_i18n p.1 = false) ∧
    (((↑(list_sig (skip_sig default_config)
          (process_html_from default_config []
            [Node.tag 1 "script" [("type", "module")] [Node.text "var x;"]]).1) :
        Multiset (Nat × String × Attrs))
      ≤ ↑(list_sig (skip_sig default_config)
            [Node.tag 1 "script" [("type", "module")] [Node.text "var x;"]]))
    ∧ ∀ sig ∈ list_sig (skip_sig default_config)
          (process_html_from default_config []
            [Node.tag 1 "script" [("type", "module")] [Node.text "var x;"]]).1,
        ∀ p ∈ sig.2.2, starts_data_i18n p.1 = false) :=
  ⟨by decide, by decide,
    c2_skip_tags_not_annotated default_config []
      [Node.tag 1 "script" [("type", "module")] [Node.text "var x;"]]
      (by decide) (by decide)⟩

/-! ### C8: script contents pass through unchanged -/

/-- The signature of a script element: identity, written name, full
attribute list, and direct text content. -/
def script_sig : Nat → String → Attrs → List Node → List (Nat × String × Attrs × String) :=
  fun i nm a ch => if lower nm == "script" then [(i, nm, a, direct_text ch)] else []

/-- The output fix-up stage never changes the direct text content of any
element (it only rewrites attribute values). -/
theorem direct_text_chars_fix_list (l : List Node) :
    direct_text_chars (fix_list l) = direct_text_chars l := by
  cases l with
  | nil => rfl
  | cons n rest =>
    rw [fix_list]
    cases n with
    | text s =>
      show s.data ++ direct_text_chars (fix_list rest) = s.data ++ direct_text_chars rest
      rw [direct_text_chars_fix_list rest]
    | comment s =>
      exact direct_text_chars_fix_list rest
    | tag i nm a ch =>
      exact direct_text_chars_fix_list rest

mutual

theorem script_fix_node (n : Node)
    (h : ∀ sig ∈ node_sig script_sig n, ∀ p ∈ sig.2.2.1, starts_data_i18n p.1 = false) :
    node_sig script_sig (fix_node n) = node_sig script_sig n := by
  cases n with
  | text s => rfl
  | comment s => rfl
  | tag i nm a ch =>
    rw [fix_node]
    show script_sig i nm _ _ ++ list_sig script_sig (fix_list ch)
        = script_sig i nm a ch ++ list_sig script_sig ch
    have hch : ∀ sig ∈ list_sig script_sig ch, ∀ p ∈ sig.2.2.1,
        starts_data_i18n p.1 = false := by
      intro sig hs
      exact h sig (by rw [node_sig]; exact List.mem_append_right _ hs)
    rw [script_fix_list ch hch]
    congr 1
    unfold script_sig
    by_cases hc : (lower nm == "script") = true
    · rw [if_pos hc, if_pos hc]
      have hmem : (i, nm, a, direct_text ch) ∈ node_sig script_sig (.tag i nm a ch) := by
        rw [node_sig]
        apply List.mem_append_left
        unfold script_sig
        rw [if_pos hc]
        exact List.mem_singleton.2 rfl
      have hcl := h (i, nm, a, direct_text ch) hmem
      rw [fix_attr_map_id a hcl]
      rw [show direct_text (fix_list ch) = direct_text ch from
        congrArg String.mk (direct_text_chars_fix_list ch)]
    · rw [if_neg hc, if_neg hc]
termination_by sizeOf n

theorem script_fix_list (l : List Node)
    (h : ∀ sig ∈ list_sig script_sig l, ∀ p ∈ sig.2.2.1, starts_data_i18n p.1 = false) :
    list_sig script_sig (fix_list l) = list_sig script_sig l := by
  cases l with
  | nil => rfl
  | cons n rest =>
    rw [fix_list]
    show node_sig script_sig (fix_node n) ++ list_sig script_sig (fix_list rest) = _
    have hn : ∀ sig ∈ node_sig script_sig n, ∀ p ∈ sig.2.2.1,
        starts_data_i18n p.1 = false := by
      intro sig hs
      exact h sig (by rw [list_sig]; exact List.mem_append_left _ hs)
    have hr : ∀ sig ∈ list_sig script_sig rest, ∀ p ∈ sig.2.2.1,
        starts_data_i18n p.1 = false := by
      intro sig hs
      exact h sig (by rw [list_sig]; exact List.mem_append_right _ hs)
    rw [script_fix_node n hn, script_fix_list rest hr, list_sig]
termination_by sizeOf l

end

/-- A character `html.escape(..., quote=True)` leaves alone. -/
def clean_char (c : Char) : Bool :=
  !(c == '&' || c == '<' || c == '>' || c == '"' || c.toNat == 39)

/-- No character of the list is rewritten by the escaper. -/
def clean_chars (l : List Char) : Bool := l.all clean_char

/-- No ampersand: nothing for `html.unescape` to decode. -/
def amp_free (l : List Char) : Bool := l.all fun c => !(c == '&')

theorem escape_char_clean (c : Char) (h : clean_char c = true) : escape_char c = [c] := by
  unfold clean_char at h
  rw [Bool.not_eq_true'] at h
  simp only [Bool.or_eq_false_iff] at h
  obtain ⟨⟨⟨⟨h1, h2⟩, h3⟩, h4⟩, h5⟩ := h
  unfold escape_char
  rw [if_neg (by simp [h1]), if_neg (by simp [h2]), if_neg (by simp [h3]),
    if_neg (by simp [h4]), if_neg (by simp [h5])]

theorem flatten_escape_clean : ∀ l : List Char, clean_chars l = true →
    (l.map escape_char).flatten = l
  | [], _ => rfl
  | c :: rest, h => by
    simp only [clean_chars, List.all_cons, Bool.and_eq_true] at h
    rw [List.map_cons, List.flatten_cons, escape_char_clean c h.1,
      flatten_escape_clean rest (by simp only [clean_chars]; exact h.2)]
    rfl

/-- On escape-free strings `escape_attribute_value` is the identity. -/
theorem escape_id_of_clean (s : String) (h : clean_chars s.data = true) :
    escape_attribute_value s = s := by
  unfold escape_attribute_value
  rw [flatten_escape_clean s.data h]

theorem unescape_go_amp_free : ∀ l : List Char, amp_free l = true →
    unescape_go l.length l = l
  | [], _ => rfl
  | c :: rest, h => by
    simp only [amp_free, List.all_cons, Bool.and_eq_true] at h
    rw [List.length_cons, unescape_go]
    by_cases hc : (c == '&') = true
    · rw [hc] at h
      exact absurd h.1 (by decide)
    · rw [if_neg hc,
        unescape_go_amp_free rest (by simp only [amp_free]; exact h.2)]

/-- On ampersand-free strings `html.unescape` is the identity. -/
theorem unescape_id_of_amp_free (s : String) (h : amp_free s.data = true) :
    unescape_html s = s := by
  unfold unescape_html
  rw [unescape_go_amp_free s.data h]

theorem clean_chars_of_subset (l1 l2 : List Char)
    (hsub : ∀ c ∈ l1, c ∈ l2 ∨ clean_char c = true) (h : clean_chars l2 = true) :
    clean_chars l1 = true := by
  simp only [clean_chars, List.all_eq_true] at h ⊢
  intro c hc
  rcases hsub c hc with h1 | h1
  · exact h c h1
  · exact h1

theorem mem_collapse (l : List Char) : ∀ b c, c ∈ collapse_ntr b l → c ∈ l ∨ c = ' ' := by
  induction l with
  | nil => intro b c h; simp [collapse_ntr] at h
  | cons d t ih =>
    intro b c h
    by_cases hd : is_ntr d = true
    · rw [collapse_ntr, if_pos hd] at h
      by_cases hb : b = true
      · rw [if_pos hb] at h
        rcases ih true c h with h1 | h1
        · exact Or.inl (List.mem_cons_of_mem d h1)
        · exact Or.inr h1
      · rw [if_neg hb] at h
        rcases List.mem_cons.1 h with h1 | h1
        · exact Or.inr h1
        · rcases ih true c h1 with h2 | h2
          · exact Or.inl (List.mem_cons_of_mem d h2)
          · exact Or.inr h2
    · rw [collapse_ntr, if_neg hd] at h
      rcases List.mem_cons.1 h with h1 | h1
      · exact Or.inl (by rw [h1]; exact List.mem_cons_self d t)
      · rcases ih false c h1 with h2 | h2
        · exact Or.inl (List.mem_cons_of_mem d h2)
        · exact Or.inr h2

/-- Normalization preserves escape-freeness (it only removes characters and
introduces plain spaces). -/
theorem clean_normalize (s : String) (h : clean_chars s.data = true) :
    clean_chars (normalize_text s).data = true := by
  show clean_chars (py_strip (collapse_ntr false s.data)) = true
  apply clean_chars_of_subset _ s.data _ h
  intro c hc
  rcases mem_collapse s.data false c (py_strip_subset _ c hc) with h1 | h1
  · exact Or.inl h1
  · rw [h1]
    exact Or.inr (by decide)

theorem amp_free_of_clean (l : List Char) (h : clean_chars l = true) :
    amp_free l = true := by
  simp only [clean_chars, amp_free, List.all_eq_true] at h ⊢
  intro c hc
  have h2 := h c hc
  unfold clean_char at h2
  cases h3 : (c == '&') with
  | false => rfl
  | true =>
    rw [h3] at h2
    exact Bool.noConfusion h2

/-- All attribute values are escape-free. -/
def clean_attrs (a : Attrs) : Bool := a.all fun p => clean_chars p.2.data

/-- Attribute names are pairwise distinct, as in a BeautifulSoup attribute
dictionary. -/
def names_nodup : Attrs → Bool
  | [] => true
  | (k, _) :: rest => !(rest.any fun q => q.1 == k) && names_nodup rest

/-- No tag carries both an original translatable attribute and the derived
`data-i18n-*` name at once. -/
def attrs_ok (a : Attrs) : Bool :=
  TRANSLATABLE_ATTRIBUTES.all fun p => !(has_attr_k p.1 a) || !(has_attr_k p.2 a)

mutual

/-- The shape invariant a document maintains throughout processing: every
text and attribute value is escape-free, attribute names are unique,
original translatable attributes and their annotation names never coexist,
tags annotated with `data-i18n` have been cleared, and selection options
have no element children. -/
def wf_node : Node → Bool
  | .text s => clean_chars s.data
  | .comment _ => true
  | .tag _ nm a ch =>
    clean_attrs a && names_nodup a && attrs_ok a
      && (!(has_attr_k "data-i18n" a) || ch.isEmpty)
      && ((lower nm != "option") || (ch.filter is_tag).isEmpty)
      && wf_list ch

/-- `wf_node` over a forest. -/
def wf_list : List Node → Bool
  | [] => true
  | n :: rest => wf_node n && wf_list rest

end

/-- The keys of the registry. -/
def reg_keys (reg : List (String × String)) : List String := reg.map Prod.fst

theorem mem_reg_keys_add (x k : String) (reg : List (String × String)) :
    x ∈ reg_keys (add_translation_key k reg)
      ↔ x ∈ reg_keys reg ∨ x = normalize_text k := by
  unfold add_translation_key
  by_cases h : (reg.any fun p => p.1 == normalize_text k) = true
  · rw [if_pos h]
    constructor
    · exact Or.inl
    · intro h1
      rcases h1 with h1 | h1
      · exact h1
      · rcases List.any_eq_true.1 h with ⟨p, hp, he⟩
        rw [beq_iff_eq] at he
        rw [h1, ← he]
        exact List.mem_map_of_mem Prod.fst hp
  · rw [if_neg h]
    unfold reg_keys
    rw [List.map_append]
    constructor
    · intro h1
      rcases List.mem_append.1 h1 with h2 | h2
      · exact Or.inl h2
      · right
        simpa using h2
    · intro h1
      rcases h1 with h2 | h2
      · exact List.mem_append_left _ h2
      · apply List.mem_append_right
        simp [h2]

theorem reg_keys_grow (x k : String) (reg : List (String × String))
    (h : x ∈ reg_keys reg) : x ∈ reg_keys (add_translation_key k reg) :=
  (mem_reg_keys_add x k reg).2 (Or.inl h)

theorem get_attr_mem (k v : String) : ∀ a : Attrs, get_attr k a = some v → (k, v) ∈ a
  | (k0, v0) :: rest, h => by
    rw [get_attr] at h
    by_cases h0 : (k0 == k) = true
    · rw [if_pos h0] at h
      have hv : v0 = v := Option.some.inj h
      have hk : k0 = k := by rw [beq_iff_eq] at h0; exact h0
      rw [← hv, ← hk]
      exact List.mem_cons_self _ _
    · rw [if_neg h0] at h
      exact List.mem_cons_of_mem _ (get_attr_mem k v rest h)

theorem set_attr_absent (k v : String) : ∀ a : Attrs, has_attr_k k a = false →
    set_attr k v a = a ++ [(k, v)]
  | [], _ => rfl
  | (k0, v0) :: rest, h => by
    unfold has_attr_k at h
    rw [get_attr] at h
    rw [set_attr]
    by_cases h0 : (k0 == k) = true
    · rw [if_pos h0] at h
      simp at h
    · rw [if_neg h0] at h
      rw [if_neg h0, set_attr_absent k v rest h]
      rfl

theorem avals_attrs_append (a b : Attrs) :
    avals_attrs (a ++ b) = avals_attrs a ++ avals_attrs b := by
  unfold avals_attrs
  rw [List.filterMap_append]

theorem avals_attrs_single_i18n (k v : String) (hk : starts_data_i18n k = true) :
    avals_attrs [(k, v)] = [v] := by
  simp [avals_attrs, hk]

theorem avals_attrs_del (k : String) (hk : starts_data_i18n k = false) :
    ∀ a : Attrs, avals_attrs (del_attr k a) = avals_attrs a
  | [] => rfl
  | (k0, v0) :: rest => by
    rw [del_attr]
    by_cases h0 : (k0 == k) = true
    · rw [if_pos h0]
      have hk0 : starts_data_i18n k0 = false := by
        rw [beq_iff_eq] at h0; rw [h0]; exact hk
      simp [avals_attrs, hk0]
    · rw [if_neg h0]
      have ih := avals_attrs_del k hk rest
      simp only [avals_attrs, List.filterMap_cons] at ih ⊢
      rw [ih]

theorem get_attr_append_ne (k k2 v : String) (h : k2 ≠ k) :
    ∀ a : Attrs, get_attr k (a ++ [(k2, v)]) = get_attr k a
  | [] => by
    simp [get_attr, beq_iff_eq, h]
  | (k0, v0) :: rest => by
    rw [List.cons_append, get_attr, get_attr]
    by_cases h0 : (k0 == k) = true
    · rw [if_pos h0, if_pos h0]
    · rw [if_neg h0, if_neg h0, get_attr_append_ne k k2 v h rest]

theorem has_attr_eq_any (k : String) : ∀ a : Attrs,
    has_attr_k k a = a.any fun q => q.1 == k
  | [] => rfl
  | (k0, v0) :: rest => by
    unfold has_attr_k
    rw [get_attr, List.any_cons]
    by_cases h0 : (k0 == k) = true
    · rw [if_pos h0]
      rw [show ((k0, v0).1 == k) = true from h0]
      rfl
    · rw [if_neg h0]
      rw [show ((k0, v0).1 == k) = false from by
        cases h1 : (k0 == k) with
        | false => rfl
        | true => exact absurd h1 h0]
      rw [Bool.false_or]
      exact has_attr_eq_any k rest

theorem has_attr_del_imp (k k2 : String) : ∀ a : Attrs,
    has_attr_k k (del_attr k2 a) = true → has_attr_k k a = true
  | (k0, v0) :: rest, h => by
    rw [del_attr] at h
    by_cases h0 : (k0 == k2) = true
    · rw [if_pos h0] at h
      unfold has_attr_k at h ⊢
      rw [get_attr]
      by_cases hk0 : (k0 == k) = true
      · rw [if_pos hk0]; rfl
      · rw [if_neg hk0]; exact h
    · rw [if_neg h0] at h
      unfold has_attr_k at h ⊢
      rw [get_attr] at h ⊢
      by_cases hk0 : (k0 == k) = true
      · rw [if_pos hk0]; rfl
      · rw [if_neg hk0] at h ⊢
        exact has_attr_del_imp k k2 rest h

theorem has_attr_del_self (k : String) : ∀ a : Attrs, names_nodup a = true →
    has_attr_k k (del_attr k a) = false
  | [], _ => rfl
  | (k0, v0) :: rest, h => by
    simp only [names_nodup, Bool.and_eq_true] at h
    rw [del_attr]
    by_cases h0 : (k0 == k) = true
    · rw [if_pos h0]
      have hk0 : k0 = k := by rw [beq_iff_eq] at h0; exact h0
      subst hk0
      rw [has_attr_eq_any]
      rw [Bool.not_eq_true'] at h
      exact h.1
    · rw [if_neg h0]
      unfold has_attr_k
      rw [get_attr]
      by_cases hk0 : (k0 == k) = true
      · exact absurd hk0 h0
      · rw [if_neg hk0]
        exact has_attr_del_self k rest h.2

theorem del_attr_subset (k : String) : ∀ (a : Attrs) (q : String × String),
    q ∈ del_attr k a → q ∈ a
  | (k0, v0) :: rest, q, h => by
    rw [del_attr] at h
    by_cases h0 : (k0 == k) = true
    · rw [if_pos h0] at h
      exact List.mem_cons_of_mem _ h
    · rw [if_neg h0] at h
      rcases List.mem_cons.1 h with h1 | h1
      · rw [h1]; exact List.mem_cons_self _ _
      · exact List.mem_cons_of_mem _ (del_attr_subset k rest q h1)

theorem names_nodup_del (k : String) : ∀ a : Attrs, names_nodup a = true →
    names_nodup (del_attr k a) = true
  | [], _ => rfl
  | (k0, v0) :: rest, h => by
    simp only [names_nodup, Bool.and_eq_true] at h
    rw [del_attr]
    by_cases h0 : (k0 == k) = true
    · rw [if_pos h0]
      exact h.2
    · rw [if_neg h0]
      simp only [names_nodup, Bool.and_eq_true]
      refine ⟨?_, names_nodup_del k rest h.2⟩
      rw [Bool.not_eq_true'] at h ⊢
      rcases h with ⟨h1, _⟩
      rw [List.any_eq_false] at h1 ⊢
      intro q hq
      exact h1 q (del_attr_subset k rest q hq)

theorem clean_attrs_del (k : String) (a : Attrs) (h : clean_attrs a = true) :
    clean_attrs (del_attr k a) = true := by
  simp only [clean_attrs, List.all_eq_true] at h ⊢
  intro p hp
  exact h p (del_attr_subset k a p hp)

theorem clean_attrs_append_single (k v : String) (a : Attrs)
    (h : clean_attrs a = true) (hv : clean_chars v.data = true) :
    clean_attrs (a ++ [(k, v)]) = true := by
  simp only [clean_attrs, List.all_eq_true] at h ⊢
  intro p hp
  rcases List.mem_append.1 hp with h1 | h1
  · exact h p h1
  · rw [List.mem_singleton.1 h1]
    exact hv

theorem names_nodup_append_fresh (k v : String) : ∀ a : Attrs,
    names_nodup a = true → has_attr_k k a = false →
    names_nodup (a ++ [(k, v)]) = true
  | [], _, _ => rfl
  | (k0, v0) :: rest, h, hk => by
    simp only [names_nodup, Bool.and_eq_true] at h
    unfold has_attr_k at hk
    rw [get_attr] at hk
    by_cases h0 : (k0 == k) = true
    · rw [if_pos h0] at hk
      simp at hk
    · rw [if_neg h0] at hk
      rw [List.cons_append]
      simp only [names_nodup, Bool.and_eq_true]
      refine ⟨?_, names_nodup_append_fresh k v rest h.2 hk⟩
      rw [Bool.not_eq_true'] at h ⊢
      rcases h with ⟨h1, _⟩
      rw [List.any_eq_false] at h1 ⊢
      intro q hq
      rcases List.mem_append.1 hq with h2 | h2
      · exact h1 q h2
      · rw [List.mem_singleton.1 h2]
        intro h3
        rw [beq_iff_eq] at h3
        exact h0 (by rw [beq_iff_eq]; exact h3.symm)

/-- A name without the `data-i18n` lead and a name with it differ. -/
theorem ne_of_not_starts (x y : String) (hx : starts_data_i18n x = false)
    (hy : starts_data_i18n y = true) : x ≠ y := by
  intro he
  rw [he, hy] at hx
  exact Bool.noConfusion hx

/-- The name discipline of a translatable-attribute pair: the original name
is not `data-i18n`-prefixed, the derived name is, the derived name is not
exactly `data-i18n`, and no other pair derives the same name. -/
def good_pair (p : String × String) : Bool :=
  !(starts_data_i18n p.1) && starts_data_i18n p.2 && (p.2 != "data-i18n")
    && (TRANSLATABLE_ATTRIBUTES.all fun q => (q.2 != p.2) || (q.1 == p.1))

theorem good_pairs : TRANSLATABLE_ATTRIBUTES.all good_pair = true := by decide

/-- The attribute-list half of the walker invariant. -/
def attrs_wf (a : Attrs) : Bool := clean_attrs a && names_nodup a && attrs_ok a

/-- The relation the round-trip argument tracks across a rewriting step of an
attribute list together with the registry: the `data-i18n` binding is
untouched, new annotation values are registered, old annotation values
survive, new keys are annotation values, and the registry only grows. -/
def attr_rel (acc acc2 : Attrs × List (String × String)) : Prop :=
  get_attr "data-i18n" acc2.1 = get_attr "data-i18n" acc.1
  ∧ (∀ x ∈ avals_attrs acc2.1, x ∈ avals_attrs acc.1 ∨ x ∈ reg_keys acc2.2)
  ∧ (∀ x ∈ avals_attrs acc.1, x ∈ avals_attrs acc2.1)
  ∧ (∀ x ∈ reg_keys acc2.2, x ∈ reg_keys acc.2 ∨ x ∈ avals_attrs acc2.1)
  ∧ (∀ x ∈ reg_keys acc.2, x ∈ reg_keys acc2.2)

theorem attr_rel_refl (acc : Attrs × List (String × String)) : attr_rel acc acc :=
  ⟨rfl, fun _ h => Or.inl h, fun _ h => h, fun _ h => Or.inl h, fun _ h => h⟩

theorem attr_rel_trans (a b c : Attrs × List (String × String))
    (h1 : attr_rel a b) (h2 : attr_rel b c) : attr_rel a c := by
  obtain ⟨c1, d1, e1, f1, g1⟩ := h1
  obtain ⟨c2, d2, e2, f2, g2⟩ := h2
  refine ⟨c2.trans c1, ?_, ?_, ?_, ?_⟩
  · intro x hx
    rcases d2 x hx with h | h
    · rcases d1 x h with h3 | h3
      · exact Or.inl h3
      · exact Or.inr (g2 x h3)
    · exact Or.inr h
  · intro x hx
    exact e2 x (e1 x hx)
  · intro x hx
    rcases f2 x hx with h | h
    · rcases f1 x h with h3 | h3
      · exact Or.inl h3
      · exact Or.inr (e2 x h3)
    · exact Or.inr h
  · intro x hx
    exact g2 x (g1 x hx)

theorem attr_pair_step (cfg : Config) (hrm : cfg.remove_original_attrs = true)
    (p : String × String) (hgp : good_pair p = true)
    (hmem : p ∈ TRANSLATABLE_ATTRIBUTES)
    (acc : Attrs × List (String × String)) (hwf : attrs_wf acc.1 = true) :
    attrs_wf (process_attr_pair cfg acc p).1 = true
      ∧ attr_rel acc (process_attr_pair cfg acc p) := by
  have hwfA := hwf
  simp only [good_pair, Bool.and_eq_true] at hgp
  obtain ⟨⟨⟨hgp1, hgp2⟩, hgp3⟩, hgp4⟩ := hgp
  rw [Bool.not_eq_true'] at hgp1
  have hgp3' : p.2 ≠ "data-i18n" := by
    intro he
    rw [he] at hgp3
    exact absurd hgp3 (by decide)
  simp only [attrs_wf, Bool.and_eq_true] at hwf
  obtain ⟨⟨hclean, hnodup⟩, hok⟩ := hwf
  rw [process_attr_pair]
  rcases hga : get_attr p.1 acc.1 with _ | v
  · exact ⟨hwfA, attr_rel_refl acc⟩
  · dsimp only
    by_cases hv : (v != "" && should_translate v) = true
    · rw [if_pos hv, if_pos hrm]
      have hvmem := get_attr_mem p.1 v acc.1 hga
      have hvclean : clean_chars v.data = true := by
        simp only [clean_attrs, List.all_eq_true] at hclean
        exact hclean (p.1, v) hvmem
      have hnclean : clean_chars (normalize_text v).data = true := clean_normalize v hvclean
      have hw : escape_attribute_value (normalize_text v) = normalize_text v :=
        escape_id_of_clean _ hnclean
      have hhas1 : has_attr_k p.1 acc.1 = true := by
        unfold has_attr_k
        rw [hga]
        rfl
      have hokL : ∀ q ∈ TRANSLATABLE_ATTRIBUTES,
          (!(has_attr_k q.1 acc.1) || !(has_attr_k q.2 acc.1)) = true := by
        intro q hq
        have h := List.all_eq_true.1 (by simpa only [attrs_ok] using hok) q hq
        exact h
      have hp2abs : has_attr_k p.2 acc.1 = false := by
        have h := hokL p hmem
        rw [hhas1] at h
        simpa using h
      have hset := set_attr_absent p.2 (escape_attribute_value (normalize_text v)) acc.1 hp2abs
      rw [hw] at hset
      rw [hw, hset]
      have hstarts_din : starts_data_i18n "data-i18n" = true := by decide
      have hne1 : p.1 ≠ "data-i18n" := ne_of_not_starts p.1 "data-i18n" hgp1 hstarts_din
      have hav : avals_attrs (del_attr p.1 (acc.1 ++ [(p.2, normalize_text v)]))
          = avals_attrs acc.1 ++ [normalize_text v] := by
        rw [avals_attrs_del p.1 hgp1, avals_attrs_append,
          avals_attrs_single_i18n p.2 _ hgp2]
      have hnodup2 : names_nodup (acc.1 ++ [(p.2, normalize_text v)]) = true :=
        names_nodup_append_fresh p.2 _ acc.1 hnodup hp2abs
      constructor
      · simp only [attrs_wf, Bool.and_eq_true]
        refine ⟨⟨?_, names_nodup_del p.1 _ hnodup2⟩, ?_⟩
        · exact clean_attrs_del p.1 _
            (clean_attrs_append_single p.2 _ acc.1 hclean hnclean)
        · simp only [attrs_ok, List.all_eq_true]
          intro q hqmem
          by_cases hq2 : q.2 = p.2
          · simp only [List.all_eq_true] at hgp4
            have h4 := hgp4 q hqmem
            rw [show (q.2 != p.2) = false from by simp [hq2]] at h4
            rw [Bool.false_or, beq_iff_eq] at h4
            have hdel : has_attr_k q.1
                (del_attr p.1 (acc.1 ++ [(p.2, normalize_text v)])) = false := by
              rw [h4]
              exact has_attr_del_self p.1 _ hnodup2
            rw [hdel]
            rfl
          · have hq := hokL q hqmem
            have hqgood := List.all_eq_true.1 good_pairs q hqmem
            simp only [good_pair, Bool.and_eq_true] at hqgood
            have hq1ns : starts_data_i18n q.1 = false := by
              have h5 := hqgood.1.1.1
              rwa [Bool.not_eq_true'] at h5
            have hne_q1p2 : q.1 ≠ p.2 := ne_of_not_starts q.1 p.2 hq1ns hgp2
            by_cases hq1 : has_attr_k q.1 acc.1 = true
            · rw [hq1] at hq
              have hq2f : has_attr_k q.2 acc.1 = false := by simpa using hq
              have hdel : has_attr_k q.2
                  (del_attr p.1 (acc.1 ++ [(p.2, normalize_text v)])) = false := by
                cases hfin : has_attr_k q.2
                    (del_attr p.1 (acc.1 ++ [(p.2, normalize_text v)])) with
                | false => rfl
                | true =>
                  have h5 := has_attr_del_imp q.2 p.1 _ hfin
                  unfold has_attr_k at h5
                  rw [get_attr_append_ne q.2 p.2 (normalize_text v)
                    (fun he => hq2 he.symm) acc.1] at h5
                  unfold has_attr_k at hq2f
                  rw [hq2f] at h5
                  exact Bool.noConfusion h5
              rw [hdel]
              simp
            · have hq1f : has_attr_k q.1 acc.1 = false := by
                cases h6 : has_attr_k q.1 acc.1 with
                | false => rfl
                | true => exact absurd h6 hq1
              have hdel : has_attr_k q.1
                  (del_attr p.1 (acc.1 ++ [(p.2, normalize_text v)])) = false := by
                cases hfin : has_attr_k q.1
                    (del_attr p.1 (acc.1 ++ [(p.2, normalize_text v)])) with
                | false => rfl
                | true =>
                  have h5 := has_attr_del_imp q.1 p.1 _ hfin
                  unfold has_attr_k at h5
                  rw [get_attr_append_ne q.1 p.2 (normalize_text v)
                    (Ne.symm hne_q1p2) acc.1] at h5
                  unfold has_attr_k at hq1f
                  rw [hq1f] at h5
                  exact Bool.noConfusion h5
              rw [hdel]
              rfl
      · unfold attr_rel
        dsimp only
        refine ⟨?_, ?_, ?_, ?_, ?_⟩
        · rw [get_attr_del_attr_ne "data-i18n" p.1 _ hne1,
            get_attr_append_ne "data-i18n" p.2 (normalize_text v) hgp3' acc.1]
        · intro x hx
          rw [hav] at hx
          rcases List.mem_append.1 hx with h | h
          · exact Or.inl h
          · right
            rw [List.mem_singleton.1 h, mem_reg_keys_add]
            right
            rw [normalize_text_idem]
        · intro x hx
          rw [hav]
          exact List.mem_append_left _ hx
        · intro x hx
          rcases (mem_reg_keys_add x (normalize_text v) acc.2).1 hx with h | h
          · exact Or.inl h
          · right
            rw [hav]
            apply List.mem_append_right
            rw [List.mem_singleton, h, normalize_text_idem]
        · intro x hx
          exact reg_keys_grow x (normalize_text v) acc.2 hx
    · rw [if_neg hv]
      exact ⟨hwfA, attr_rel_refl acc⟩

theorem attr_fold (cfg : Config) (hrm : cfg.remove_original_attrs = true) :
    ∀ (ps : List (String × String)),
      (∀ p ∈ ps, good_pair p = true ∧ p ∈ TRANSLATABLE_ATTRIBUTES) →
      ∀ acc : Attrs × List (String × String), attrs_wf acc.1 = true →
      attrs_wf (ps.foldl (process_attr_pair cfg) acc).1 = true
        ∧ attr_rel acc (ps.foldl (process_attr_pair cfg) acc)
  | [], _, acc, hwf => ⟨hwf, attr_rel_refl acc⟩
  | p :: rest, hps, acc, hwf => by
    rw [List.foldl_cons]
    obtain ⟨hgp, hmem⟩ := hps p (List.mem_cons_self p rest)
    obtain ⟨hwf1, hrel1⟩ := attr_pair_step cfg hrm p hgp hmem acc hwf
    obtain ⟨hwf2, hrel2⟩ := attr_fold cfg hrm rest
      (fun q hq => hps q (List.mem_cons_of_mem p hq)) (process_attr_pair cfg acc p) hwf1
    exact ⟨hwf2, attr_rel_trans _ _ _ hrel1 hrel2⟩

theorem process_attributes_inv (cfg : Config) (hrm : cfg.remove_original_attrs = true)
    (a : Attrs) (reg : List (String × String)) (hwf : attrs_wf a = true) :
    attrs_wf (process_attributes cfg a reg).1 = true
      ∧ attr_rel (a, reg) (process_attributes cfg a reg) := by
  unfold process_attributes
  exact attr_fold cfg hrm TRANSLATABLE_ATTRIBUTES
    (fun p hp => ⟨List.all_eq_true.1 good_pairs p hp, hp⟩) (a, reg) hwf

/-- The round-trip relation between a before-state (annotation values `va`,
registry `ra`) and an after-state: new values are registered, old values
survive, new keys are values, the registry grows. -/
def rt_rel (va : List String) (ra : List (String × String))
    (vb : List String) (rb : List (String × String)) : Prop :=
  (∀ x ∈ vb, x ∈ va ∨ x ∈ reg_keys rb)
  ∧ (∀ x ∈ va, x ∈ vb)
  ∧ (∀ x ∈ reg_keys rb, x ∈ reg_keys ra ∨ x ∈ vb)
  ∧ (∀ x ∈ reg_keys ra, x ∈ reg_keys rb)

theorem rt_rel_refl (v : List String) (r : List (String × String)) : rt_rel v r v r :=
  ⟨fun _ h => Or.inl h, fun _ h => h, fun _ h => Or.inl h, fun _ h => h⟩

theorem rt_rel_trans (v1 : List String) (r1 : List (String × String))
    (v2 : List String) (r2 : List (String × String))
    (v3 : List String) (r3 : List (String × String))
    (h1 : rt_rel v1 r1 v2 r2) (h2 : rt_rel v2 r2 v3 r3) : rt_rel v1 r1 v3 r3 := by
  obtain ⟨a1, b1, c1, d1⟩ := h1
  obtain ⟨a2, b2, c2, d2⟩ := h2
  refine ⟨?_, ?_, ?_, ?_⟩
  · intro x hx
    rcases a2 x hx with h | h
    · rcases a1 x h with h3 | h3
      · exact Or.inl h3
      · exact Or.inr (d2 x h3)
    · exact Or.inr h
  · intro x hx
    exact b2 x (b1 x hx)
  · intro x hx
    rcases c2 x hx with h | h
    · rcases c1 x h with h3 | h3
      · exact Or.inl h3
      · exact Or.inr (b2 x h3)
    · exact Or.inr h
  · intro x hx
    exact d2 x (d1 x hx)

/-- Two independent round-trip steps on adjacent value groups chain into one
on the concatenation, threading the registry through the middle. -/
theorem rt_rel_append (v1 : List String) (r1 : List (String × String))
    (v2 : List String) (w1 w2 : List String)
    (r2 r3 : List (String × String))
    (h1 : rt_rel v1 r1 w1 r2) (h2 : rt_rel v2 r2 w2 r3) :
    rt_rel (v1 ++ v2) r1 (w1 ++ w2) r3 := by
  obtain ⟨a1, b1, c1, d1⟩ := h1
  obtain ⟨a2, b2, c2, d2⟩ := h2
  refine ⟨?_, ?_, ?_, ?_⟩
  · intro x hx
    rcases List.mem_append.1 hx with h | h
    · rcases a1 x h with h3 | h3
      · exact Or.inl (List.mem_append_left _ h3)
      · exact Or.inr (d2 x h3)
    · rcases a2 x h with h3 | h3
      · exact Or.inl (List.mem_append_right _ h3)
      · exact Or.inr h3
  · intro x hx
    rcases List.mem_append.1 hx with h | h
    · exact List.mem_append_left _ (b1 x h)
    · exact List.mem_append_right _ (b2 x h)
  · intro x hx
    rcases c2 x hx with h | h
    · rcases c1 x h with h3 | h3
      · exact Or.inl h3
      · exact Or.inr (List.mem_append_left _ h3)
    · exact Or.inr (List.mem_append_right _ h)
  · intro x hx
    exact d2 x (d1 x hx)

theorem attr_rel_rt (acc acc2 : Attrs × List (String × String)) (h : attr_rel acc acc2) :
    rt_rel (avals_attrs acc.1) acc.2 (avals_attrs acc2.1) acc2.2 := by
  obtain ⟨_, d, e, f, g⟩ := h
  exact ⟨d, e, f, g⟩

theorem list_annot_values_append (l1 l2 : List Node) :
    list_annot_values (l1 ++ l2) = list_annot_values l1 ++ list_annot_values l2 := by
  induction l1 with
  | nil => rfl
  | cons n rest ih =>
    show node_annot_values n ++ list_annot_values (rest ++ l2) = _
    rw [ih, list_annot_values, List.append_assoc]

theorem annot_values_no_tags : ∀ ch : List Node, ch.filter is_tag = [] →
    list_annot_values ch = []
  | [], _ => rfl
  | n :: rest, h => by
    cases n with
    | text s =>
      rw [List.filter_cons_of_neg (by simp [is_tag])] at h
      exact annot_values_no_tags rest h
    | comment s =>
      rw [List.filter_cons_of_neg (by simp [is_tag])] at h
      exact annot_values_no_tags rest h
    | tag i nm a c =>
      rw [List.filter_cons_of_pos (by simp [is_tag])] at h
      exact absurd h (by simp)

theorem direct_text_clean : ∀ ch : List Node, wf_list ch = true →
    clean_chars (direct_text_chars ch) = true
  | [], _ => rfl
  | n :: rest, h => by
    simp only [wf_list, Bool.and_eq_true] at h
    cases n with
    | text s =>
      rw [direct_text_chars]
      have h1 : clean_chars s.data = true := h.1
      have h2 := direct_text_clean rest h.2
      simp only [clean_chars, List.all_append] at h1 h2 ⊢
      rw [h1, h2]
      rfl
    | comment s => exact direct_text_clean rest h.2
    | tag i nm a c => exact direct_text_clean rest h.2

theorem mem_takeWhile_mem (p : Char → Bool) : ∀ l : List Char, ∀ c,
    c ∈ l.takeWhile p → c ∈ l
  | [], _, h => by simp [List.takeWhile] at h
  | d :: t, c, h => by
    rw [List.takeWhile_cons] at h
    by_cases hd : p d = true
    · rw [if_pos hd] at h
      rcases List.mem_cons.1 h with h1 | h1
      · rw [h1]; exact List.mem_cons_self _ _
      · exact List.mem_cons_of_mem _ (mem_takeWhile_mem p t c h1)
    · rw [if_neg hd] at h
      simp at h

theorem mem_dropWhile_mem (p : Char → Bool) : ∀ l : List Char, ∀ c,
    c ∈ l.dropWhile p → c ∈ l
  | [], _, h => h
  | d :: t, c, h => by
    rw [List.dropWhile_cons] at h
    by_cases hd : p d = true
    · rw [if_pos hd] at h
      exact List.mem_cons_of_mem _ (mem_dropWhile_mem p t c h)
    · rw [if_neg hd] at h
      exact h

theorem clean_wrap_leading (s : String) (h : clean_chars s.data = true) :
    clean_chars (wrap_leading s) = true := by
  apply clean_chars_of_subset _ s.data _ h
  intro c hc
  exact Or.inl (mem_takeWhile_mem py_space s.data c hc)

theorem clean_wrap_core (s : String) (h : clean_chars s.data = true) :
    clean_chars (wrap_core s) = true := by
  apply clean_chars_of_subset _ s.data _ h
  intro c hc
  left
  unfold wrap_core at hc
  rw [List.mem_reverse] at hc
  have h1 := mem_dropWhile_mem py_space _ c hc
  rw [List.mem_reverse] at h1
  exact mem_dropWhile_mem py_space _ c h1

theorem clean_wrap_trailing (s : String) (h : clean_chars s.data = true) :
    clean_chars (wrap_trailing s) = true := by
  apply clean_chars_of_subset _ s.data _ h
  intro c hc
  left
  unfold wrap_trailing at hc
  rw [List.mem_reverse] at hc
  have h1 := mem_takeWhile_mem py_space _ c hc
  rw [List.mem_reverse] at h1
  exact mem_dropWhile_mem py_space _ c h1

theorem wf_span (i : Nat) (v : String) (hv : clean_chars v.data = true) :
    wf_node (.tag i "span" [("data-i18n", v)] []) = true := by
  rw [wf_node]
  have h1 : clean_attrs [("data-i18n", v)] = true := by
    simp [clean_attrs, hv]
  rw [h1]
  rfl

theorem wf_list_append (l1 l2 : List Node) :
    wf_list (l1 ++ l2) = (wf_list l1 && wf_list l2) := by
  induction l1 with
  | nil => rfl
  | cons n rest ih =>
    show (wf_node n && wf_list (rest ++ l2)) = _
    rw [ih, ← Bool.and_assoc]
    rfl

theorem wf_lead_nodes (s : String) (h : clean_chars s.data = true) :
    wf_list (lead_nodes s) = true := by
  unfold lead_nodes
  by_cases hl : (wrap_leading s).isEmpty = true
  · rw [if_pos hl]; rfl
  · rw [if_neg hl]
    simp only [wf_list, Bool.and_eq_true]
    exact ⟨clean_wrap_leading s h, trivial⟩

theorem wf_trail_nodes (s : String) (h : clean_chars s.data = true) :
    wf_list (trail_nodes s) = true := by
  unfold trail_nodes
  by_cases hl : (wrap_trailing s).isEmpty = true
  · rw [if_pos hl]; rfl
  · rw [if_neg hl]
    simp only [wf_list, Bool.and_eq_true]
    exact ⟨clean_wrap_trailing s h, trivial⟩

theorem annot_values_lead (s : String) : list_annot_values (lead_nodes s) = [] := by
  unfold lead_nodes
  by_cases hl : (wrap_leading s).isEmpty = true
  · rw [if_pos hl]; rfl
  · rw [if_neg hl]; rfl

theorem annot_values_trail (s : String) : list_annot_values (trail_nodes s) = [] := by
  unfold trail_nodes
  by_cases hl : (wrap_trailing s).isEmpty = true
  · rw [if_pos hl]; rfl
  · rw [if_neg hl]; rfl

theorem wf_tag (i : Nat) (nm : String) (a : Attrs) (ch : List Node)
    (h1 : clean_attrs a = true) (h2 : names_nodup a = true) (h3 : attrs_ok a = true)
    (h4 : (!(has_attr_k "data-i18n" a) || ch.isEmpty) = true)
    (h5 : ((lower nm != "option") || (ch.filter is_tag).isEmpty) = true)
    (h6 : wf_list ch = true) :
    wf_node (.tag i nm a ch) = true := by
  rw [wf_node, h1, h2, h3, h4, h5, h6]
  rfl

theorem wf_tag_elim (i : Nat) (nm : String) (a : Attrs) (ch : List Node)
    (h : wf_node (.tag i nm a ch) = true) :
    clean_attrs a = true ∧ names_nodup a = true ∧ attrs_ok a = true
      ∧ (!(has_attr_k "data-i18n" a) || ch.isEmpty) = true
      ∧ ((lower nm != "option") || (ch.filter is_tag).isEmpty) = true
      ∧ wf_list ch = true := by
  rw [wf_node] at h
  simp only [Bool.and_eq_true] at h
  exact ⟨h.1.1.1.1.1, h.1.1.1.1.2, h.1.1.1.2, h.1.1.2, h.1.2, h.2⟩

theorem attrs_wf_intro (a : Attrs) (h1 : clean_attrs a = true)
    (h2 : names_nodup a = true) (h3 : attrs_ok a = true) : attrs_wf a = true := by
  simp only [attrs_wf, Bool.and_eq_true]
  exact ⟨⟨h1, h2⟩, h3⟩

theorem attrs_wf_elim (a : Attrs) (h : attrs_wf a = true) :
    clean_attrs a = true ∧ names_nodup a = true ∧ attrs_ok a = true := by
  simp only [attrs_wf, Bool.and_eq_true] at h
  exact ⟨h.1.1, h.1.2, h.2⟩

theorem rt_wrap (s : String) (st : St) (hs : clean_chars s.data = true) :
    (wrap_text_with_whitespace s st).2.det = st.det
    ∧ wf_list (wrap_text_with_whitespace s st).1 = true
    ∧ rt_rel [] st.reg (list_annot_values (wrap_text_with_whitespace s st).1)
        (wrap_text_with_whitespace s st).2.reg := by
  unfold wrap_text_with_whitespace
  by_cases h1 : (!(wrap_core s).isEmpty && should_translate ⟨wrap_core s⟩) = true
  · rw [if_pos h1]
    dsimp only
    have hspan : wf_node (.tag st.fresh "span"
        [("data-i18n", normalize_text ⟨wrap_core s⟩)] []) = true :=
      wf_span st.fresh _ (clean_normalize _ (clean_wrap_core s hs))
    have hv : list_annot_values (lead_nodes s
          ++ [Node.tag st.fresh "span" [("data-i18n", normalize_text ⟨wrap_core s⟩)] []]
          ++ trail_nodes s)
        = [normalize_text ⟨wrap_core s⟩] := by
      rw [list_annot_values_append, list_annot_values_append, annot_values_lead,
        annot_values_trail]
      rw [show list_annot_values [Node.tag st.fresh "span"
            [("data-i18n", normalize_text ⟨wrap_core s⟩)] []]
          = [normalize_text ⟨wrap_core s⟩] from by
        rw [list_annot_values, node_annot_values,
          avals_attrs_single_i18n _ _ (by decide)]
        rfl]
      rfl
    refine ⟨rfl, ?_, ?_⟩
    · rw [wf_list_append, wf_list_append, wf_lead_nodes s hs, wf_trail_nodes s hs]
      rw [show wf_list [Node.tag st.fresh "span"
            [("data-i18n", normalize_text ⟨wrap_core s⟩)] []] = true from by
        simp only [wf_list, Bool.and_eq_true]
        exact ⟨hspan, trivial⟩]
      rfl
    · rw [hv]
      refine ⟨?_, ?_, ?_, ?_⟩
      · intro x hx
        right
        rw [List.mem_singleton.1 hx, mem_reg_keys_add]
        right
        rw [normalize_text_idem]
      · intro x hx
        exact absurd hx (List.not_mem_nil x)
      · intro x hx
        rcases (mem_reg_keys_add x _ st.reg).1 hx with h | h
        · exact Or.inl h
        · right
          rw [List.mem_singleton, h, normalize_text_idem]
      · intro x hx
        exact reg_keys_grow x _ st.reg hx
  · rw [if_neg h1]
    by_cases h2 : (!(wrap_core s).isEmpty) = true
    · rw [if_pos h2]
      refine ⟨rfl, ?_, ?_⟩
      · rw [wf_list_append, wf_list_append, wf_lead_nodes s hs, wf_trail_nodes s hs]
        rw [show wf_list [Node.text ⟨wrap_core s⟩] = true from by
          simp only [wf_list, Bool.and_eq_true]
          exact ⟨clean_wrap_core s hs, trivial⟩]
        rfl
      · rw [show list_annot_values (lead_nodes s ++ [Node.text ⟨wrap_core s⟩]
              ++ trail_nodes s) = [] from by
          rw [list_annot_values_append, list_annot_values_append, annot_values_lead,
            annot_values_trail]
          rfl]
        exact rt_rel_refl [] st.reg
    · rw [if_neg h2]
      refine ⟨rfl, ?_, ?_⟩
      · rw [wf_list_append, wf_lead_nodes s hs, wf_trail_nodes s hs]
        rfl
      · rw [show list_annot_values (lead_nodes s ++ trail_nodes s) = [] from by
          rw [list_annot_values_append, annot_values_lead, annot_values_trail]
          rfl]
        exact rt_rel_refl [] st.reg

/-- Registering the normalized form of a text together with producing it as
an annotation value is one round-trip step from no values. -/
theorem rt_add_key (t : String) (r : List (String × String)) :
    rt_rel [] r [normalize_text t] (add_translation_key (normalize_text t) r) := by
  refine ⟨?_, ?_, ?_, ?_⟩
  · intro x hx
    right
    rw [List.mem_singleton.1 hx, mem_reg_keys_add]
    right
    rw [normalize_text_idem]
  · intro x hx
    exact absurd hx (List.not_mem_nil x)
  · intro x hx
    rcases (mem_reg_keys_add x _ r).1 hx with h | h
    · exact Or.inl h
    · right
      rw [List.mem_singleton, h, normalize_text_idem]
  · intro x hx
    exact reg_keys_grow x _ r hx

/-- Appending a fresh `data-i18n` binding cannot create a coexistence of an
original translatable attribute with its derived name. -/
theorem attrs_ok_append_din (a : Attrs) (v : String) (h : attrs_ok a = true) :
    attrs_ok (a ++ [("data-i18n", v)]) = true := by
  simp only [attrs_ok, List.all_eq_true] at h ⊢
  intro q hq
  have hgq := List.all_eq_true.1 good_pairs q hq
  simp only [good_pair, Bool.and_eq_true] at hgq
  have hq1ns : starts_data_i18n q.1 = false := by
    have h5 := hgq.1.1.1
    rwa [Bool.not_eq_true'] at h5
  have hq1ne : q.1 ≠ "data-i18n" := ne_of_not_starts q.1 _ hq1ns (by decide)
  have hq2ne : q.2 ≠ "data-i18n" := by
    have h5 := hgq.1.2
    intro he
    rw [he] at h5
    exact absurd h5 (by decide)
  have e1 : has_attr_k q.1 (a ++ [("data-i18n", v)]) = has_attr_k q.1 a := by
    unfold has_attr_k
    rw [get_attr_append_ne q.1 "data-i18n" v (Ne.symm hq1ne) a]
  have e2 : has_attr_k q.2 (a ++ [("data-i18n", v)]) = has_attr_k q.2 a := by
    unfold has_attr_k
    rw [get_attr_append_ne q.2 "data-i18n" v (Ne.symm hq2ne) a]
  rw [e1, e2]
  exact h q hq

mutual

/-- The round-trip invariant through `process_tag`: the detached pool is
unchanged (given the shape invariant), the shape invariant is preserved, and
annotation values and registry keys stay synchronized. -/
theorem rt_process_tag (cfg : Config) (hrm : cfg.remove_original_attrs = true)
    (n : Node) (st : St) (hwf : wf_node n = true) :
    (process_tag cfg n st).2.det = st.det
    ∧ wf_node (process_tag cfg n st).1 = true
    ∧ rt_rel (node_annot_values n) st.reg
        (node_annot_values (process_tag cfg n st).1) (process_tag cfg n st).2.reg := by
  cases n with
  | text s => exact ⟨rfl, hwf, rt_rel_refl _ _⟩
  | comment s => exact ⟨rfl, hwf, rt_rel_refl _ _⟩
  | tag i nm attrs ch =>
    obtain ⟨hcl, hnd, hok, hdi, hfl, hwch⟩ := wf_tag_elim i nm attrs ch hwf
    rw [process_tag]
    by_cases hskip : cfg.skipped_tags.contains (lower nm) = true
    · rw [if_pos hskip]
      exact ⟨rfl, hwf, rt_rel_refl _ _⟩
    · rw [if_neg hskip]
      rcases hpa : process_attributes cfg attrs st.reg with ⟨a1, r1⟩
      dsimp only
      have hattr := process_attributes_inv cfg hrm attrs st.reg
        (attrs_wf_intro attrs hcl hnd hok)
      rw [hpa] at hattr
      obtain ⟨hwf1, hrel1⟩ := hattr
      obtain ⟨hcl1, hnd1, hok1⟩ := attrs_wf_elim a1 hwf1
      have hdi1 : get_attr "data-i18n" a1 = get_attr "data-i18n" attrs := hrel1.1
      have hrt1 : rt_rel (avals_attrs attrs) st.reg (avals_attrs a1) r1 :=
        attr_rel_rt _ _ hrel1
      by_cases hopt : (lower nm == "option") = true
      · rw [if_pos hopt]
        by_cases ht : (direct_text ch != "" && should_translate (direct_text ch)) = true
        · rw [if_pos ht]
          dsimp only
          have hnotags : ch.filter is_tag = [] := by
            rw [show (lower nm != "option") = false from by simp [bne, hopt]] at hfl
            rw [Bool.false_or] at hfl
            exact List.isEmpty_iff.1 hfl
          have hchnil : list_annot_values ch = [] := annot_values_no_tags ch hnotags
          have hdiattrs : has_attr_k "data-i18n" attrs = false := by
            cases hda : has_attr_k "data-i18n" attrs with
            | false => rfl
            | true =>
              rw [hda] at hdi
              have h0 : ch.isEmpty = true := by simpa using hdi
              have hch0 : ch = [] := List.isEmpty_iff.1 h0
              rw [hch0, show direct_text ([] : List Node) = "" from rfl] at ht
              simp at ht
          have hdia1 : has_attr_k "data-i18n" a1 = false := by
            unfold has_attr_k
            rw [hdi1]
            exact hdiattrs
          have htclean : clean_chars (direct_text ch).data = true :=
            direct_text_clean ch hwch
          have hnclean := clean_normalize _ htclean
          have hesc : escape_attribute_value (normalize_text (direct_text ch))
              = normalize_text (direct_text ch) := escape_id_of_clean _ hnclean
          have hset := set_attr_absent "data-i18n"
            (escape_attribute_value (normalize_text (direct_text ch))) a1 hdia1
          rw [hesc] at hset
          rw [hesc, hset, hnotags]
          refine ⟨List.append_nil _, ?_, ?_⟩
          · exact wf_tag i nm _ []
              (clean_attrs_append_single "data-i18n" _ a1 hcl1 hnclean)
              (names_nodup_append_fresh "data-i18n" _ a1 hnd1 hdia1)
              (attrs_ok_append_din a1 _ hok1)
              (by simp) (by simp) rfl
          · have htotal := rt_rel_append (avals_attrs attrs) st.reg []
              (avals_attrs a1) [normalize_text (direct_text ch)] r1
              (add_translation_key (normalize_text (direct_text ch)) r1)
              hrt1 (rt_add_key (direct_text ch) r1)
            rw [node_annot_values, node_annot_values, hchnil, avals_attrs_append,
              avals_attrs_single_i18n "data-i18n" _ (by decide)]
            simp only [list_annot_values, List.append_nil] at htotal ⊢
            exact htotal
        · rw [if_neg ht]
          dsimp only
          refine ⟨rfl, ?_, ?_⟩
          · refine wf_tag i nm a1 ch hcl1 hnd1 hok1 ?_ hfl hwch
            rw [show has_attr_k "data-i18n" a1 = has_attr_k "data-i18n" attrs from by
              unfold has_attr_k; rw [hdi1]]
            exact hdi
          · rw [node_annot_values, node_annot_values]
            exact rt_rel_append (avals_attrs attrs) st.reg (list_annot_values ch)
              (avals_attrs a1) (list_annot_values ch) r1 r1
              hrt1 (rt_rel_refl (list_annot_values ch) r1)
      · rw [if_neg hopt]
        have hopt' : (lower nm == "option") = false := by
          cases h : (lower nm == "option") with
          | false => rfl
          | true => exact absurd h hopt
        have hflopt : (lower nm != "option") = true := by
          simp [bne, hopt']
        by_cases ht : (direct_text ch != "" && should_translate (direct_text ch)) = true
        · rw [if_pos ht]
          have hdiattrs : has_attr_k "data-i18n" attrs = false := by
            cases hda : has_attr_k "data-i18n" attrs with
            | false => rfl
            | true =>
              rw [hda] at hdi
              have h0 : ch.isEmpty = true := by simpa using hdi
              have hch0 : ch = [] := List.isEmpty_iff.1 h0
              rw [hch0, show direct_text ([] : List Node) = "" from rfl] at ht
              simp at ht
          have hdia1 : has_attr_k "data-i18n" a1 = false := by
            unfold has_attr_k
            rw [hdi1]
            exact hdiattrs
          by_cases hmix : ((ch.filter is_tag).any
              (fun c => input_like_tags.contains (node_name_lower c))
                && strip_str (direct_text ch) != "") = true
          · rw [if_pos hmix]
            rcases hpm : process_mixed cfg ch { st with reg := r1 } with ⟨ch2, st2⟩
            have e := rt_process_mixed cfg hrm ch { st with reg := r1 } hwch
            rw [hpm] at e
            dsimp only at e
            dsimp only
            obtain ⟨edet, ewf, ert⟩ := e
            refine ⟨edet, ?_, ?_⟩
            · refine wf_tag i nm a1 ch2 hcl1 hnd1 hok1 ?_ ?_ ewf
              · rw [hdia1]
                rfl
              · rw [hflopt]
                rfl
            · rw [node_annot_values, node_annot_values]
              exact rt_rel_append (avals_attrs attrs) st.reg (list_annot_values ch)
                (avals_attrs a1) (list_annot_values ch2) r1 st2.reg hrt1 ert
          · rw [if_neg hmix]
            by_cases honly : (ch.all is_nav_string) = true
            · rw [if_pos honly]
              dsimp only
              have hnotags := filter_is_tag_nil_of_all_nav ch honly
              have hchnil : list_annot_values ch = [] := annot_values_no_tags ch hnotags
              have htclean : clean_chars (direct_text ch).data = true :=
                direct_text_clean ch hwch
              have hnclean := clean_normalize _ htclean
              have hesc : escape_attribute_value (normalize_text (direct_text ch))
                  = normalize_text (direct_text ch) := escape_id_of_clean _ hnclean
              have hset := set_attr_absent "data-i18n"
                (escape_attribute_value (normalize_text (direct_text ch))) a1 hdia1
              rw [hesc] at hset
              rw [hesc, hset, hnotags]
              refine ⟨List.append_nil _, ?_, ?_⟩
              · exact wf_tag i nm _ []
                  (clean_attrs_append_single "data-i18n" _ a1 hcl1 hnclean)
                  (names_nodup_append_fresh "data-i18n" _ a1 hnd1 hdia1)
                  (attrs_ok_append_din a1 _ hok1)
                  (by simp) (by simp) rfl
              · have htotal := rt_rel_append (avals_attrs attrs) st.reg []
                  (avals_attrs a1) [normalize_text (direct_text ch)] r1
                  (add_translation_key (normalize_text (direct_text ch)) r1)
                  hrt1 (rt_add_key (direct_text ch) r1)
                rw [node_annot_values, node_annot_values, hchnil, avals_attrs_append,
                  avals_attrs_single_i18n "data-i18n" _ (by decide)]
                simp only [list_annot_values, List.append_nil] at htotal ⊢
                exact htotal
            · rw [if_neg honly]
              rcases hpc : process_children cfg (has_attr_k "data-i18n" a1) ch
                  { st with reg := r1 } with ⟨ch2, st2⟩
              have e := rt_process_children cfg hrm (has_attr_k "data-i18n" a1) ch
                { st with reg := r1 } hwch
              rw [hpc] at e
              dsimp only at e
              dsimp only
              obtain ⟨edet, ewf, ert⟩ := e
              refine ⟨edet, ?_, ?_⟩
              · refine wf_tag i nm a1 ch2 hcl1 hnd1 hok1 ?_ ?_ ewf
                · rw [hdia1]
                  rfl
                · rw [hflopt]
                  rfl
              · rw [node_annot_values, node_annot_values]
                exact rt_rel_append (avals_attrs attrs) st.reg (list_annot_values ch)
                  (avals_attrs a1) (list_annot_values ch2) r1 st2.reg hrt1 ert
        · rw [if_neg ht]
          rcases hpc : process_children cfg (has_attr_k "data-i18n" a1) ch
              { st with reg := r1 } with ⟨ch2, st2⟩
          have e := rt_process_children cfg hrm (has_attr_k "data-i18n" a1) ch
            { st with reg := r1 } hwch
          rw [hpc] at e
          dsimp only at e
          dsimp only
          obtain ⟨edet, ewf, ert⟩ := e
          refine ⟨edet, ?_, ?_⟩
          · refine wf_tag i nm a1 ch2 hcl1 hnd1 hok1 ?_ ?_ ewf
            · cases hda : has_attr_k "data-i18n" attrs with
              | false =>
                rw [show has_attr_k "data-i18n" a1 = false from by
                  unfold has_attr_k; rw [hdi1]; exact hda]
                rfl
              | true =>
                rw [hda] at hdi
                have h0 : ch.isEmpty = true := by simpa using hdi
                have hch0 : ch = [] := List.isEmpty_iff.1 h0
                rw [hch0] at hpc
                rw [show process_children cfg (has_attr_k "data-i18n" a1)
                    ([] : List Node) { st with reg := r1 }
                    = ([], { st with reg := r1 }) from rfl] at hpc
                have hch2 : ([] : List Node) = ch2 := congrArg Prod.fst hpc
                rw [← hch2]
                simp
            · rw [hflopt]
              rfl
          · rw [node_annot_values, node_annot_values]
            exact rt_rel_append (avals_attrs attrs) st.reg (list_annot_values ch)
              (avals_attrs a1) (list_annot_values ch2) r1 st2.reg hrt1 ert
termination_by sizeOf n

/-- The round-trip invariant through the mixed-content pass. -/
theorem rt_process_mixed (cfg : Config) (hrm : cfg.remove_original_attrs = true)
    (ch : List Node) (st : St) (hwf : wf_list ch = true) :
    (process_mixed cfg ch st).2.det = st.det
    ∧ wf_list (process_mixed cfg ch st).1 = true
    ∧ rt_rel (list_annot_values ch) st.reg
        (list_annot_values (process_mixed cfg ch st).1) (process_mixed cfg ch st).2.reg := by
  cases ch with
  | nil => exact ⟨rfl, rfl, rt_rel_refl _ _⟩
  | cons c rest =>
    simp only [wf_list, Bool.and_eq_true] at hwf
    obtain ⟨hwc, hwrest⟩ := hwf
    cases c with
    | text s =>
      rw [process_mixed]
      by_cases hc : (strip_str s != "" && should_translate s) = true
      · rw [if_pos hc]
        dsimp only
        have hsclean : clean_chars s.data = true := hwc
        have hesc : escape_attribute_value (normalize_text s) = normalize_text s :=
          escape_id_of_clean _ (clean_normalize s hsclean)
        rcases hpm : process_mixed cfg rest
            { st with fresh := st.fresh + 1
                      reg := add_translation_key (normalize_text s) st.reg }
          with ⟨rest2, st2⟩
        have e := rt_process_mixed cfg hrm rest
          { st with fresh := st.fresh + 1
                    reg := add_translation_key (normalize_text s) st.reg } hwrest
        rw [hpm] at e
        dsimp only at e
        dsimp only
        obtain ⟨edet, ewf, ert⟩ := e
        refine ⟨edet, ?_, ?_⟩
        · simp only [wf_list, Bool.and_eq_true]
          refine ⟨?_, ewf⟩
          rw [hesc]
          exact wf_span st.fresh _ (clean_normalize s hsclean)
        · rw [list_annot_values, list_annot_values]
          rw [show node_annot_values (Node.tag st.fresh "span"
                [("data-i18n", escape_attribute_value (normalize_text s))] [])
              = [normalize_text s] from by
            rw [node_annot_values, hesc,
              avals_attrs_single_i18n "data-i18n" _ (by decide)]
            rfl]
          exact rt_rel_append (node_annot_values (.text s)) st.reg
            (list_annot_values rest) [normalize_text s] (list_annot_values rest2)
            (add_translation_key (normalize_text s) st.reg) st2.reg
            (rt_add_key s st.reg) ert
      · rw [if_neg hc]
        dsimp only
        rcases hpm : process_mixed cfg rest st with ⟨rest2, st2⟩
        have e := rt_process_mixed cfg hrm rest st hwrest
        rw [hpm] at e
        dsimp only at e
        dsimp only
        obtain ⟨edet, ewf, ert⟩ := e
        refine ⟨edet, ?_, ?_⟩
        · simp only [wf_list, Bool.and_eq_true]
          exact ⟨hwc, ewf⟩
        · rw [list_annot_values, list_annot_values]
          exact rt_rel_append (node_annot_values (.text s)) st.reg
            (list_annot_values rest) (node_annot_values (.text s))
            (list_annot_values rest2) st.reg st2.reg
            (rt_rel_refl (node_annot_values (.text s)) st.reg) ert
    | comment s =>
      rw [process_mixed]
      dsimp only
      rcases hpm : process_mixed cfg rest st with ⟨rest2, st2⟩
      have e := rt_process_mixed cfg hrm rest st hwrest
      rw [hpm] at e
      dsimp only at e
      dsimp only
      obtain ⟨edet, ewf, ert⟩ := e
      refine ⟨edet, ?_, ?_⟩
      · simp only [wf_list, Bool.and_eq_true]
        exact ⟨hwc, ewf⟩
      · rw [list_annot_values, list_annot_values]
        exact rt_rel_append (node_annot_values (.comment s)) st.reg
          (list_annot_values rest) (node_annot_values (.comment s))
          (list_annot_values rest2) st.reg st2.reg
          (rt_rel_refl (node_annot_values (.comment s)) st.reg) ert
    | tag j nm2 a2 c2 =>
      rw [process_mixed]
      rcases hh : process_tag cfg (.tag j nm2 a2 c2) st with ⟨cc, st1⟩
      have e1 := rt_process_tag cfg hrm (.tag j nm2 a2 c2) st hwc
      rw [hh] at e1
      dsimp only at e1
      rcases hpm : process_mixed cfg rest st1 with ⟨rest2, st2⟩
      have e2 := rt_process_mixed cfg hrm rest st1 hwrest
      rw [hpm] at e2
      dsimp only at e2
      dsimp only
      rw [hpm]
      dsimp only
      obtain ⟨d1, w1, r1e⟩ := e1
      obtain ⟨d2, w2, r2e⟩ := e2
      refine ⟨by rw [d2, d1], ?_, ?_⟩
      · simp only [wf_list, Bool.and_eq_true]
        exact ⟨w1, w2⟩
      · rw [list_annot_values, list_annot_values]
        exact rt_rel_append (node_annot_values (.tag j nm2 a2 c2)) st.reg
          (list_annot_values rest) (node_annot_values cc) (list_annot_values rest2)
          st1.reg st2.reg r1e r2e
termination_by sizeOf ch

/-- The round-trip invariant through the fallback per-child loop. -/
theorem rt_process_children (cfg : Config) (hrm : cfg.remove_original_attrs = true)
    (parent_has : Bool) (ch : List Node) (st : St) (hwf : wf_list ch = true) :
    (process_children cfg parent_has ch st).2.det = st.det
    ∧ wf_list (process_children cfg parent_has ch st).1 = true
    ∧ rt_rel (list_annot_values ch) st.reg
        (list_annot_values (process_children cfg parent_has ch st).1)
        (process_children cfg parent_has ch st).2.reg := by
  cases ch with
  | nil => exact ⟨rfl, rfl, rt_rel_refl _ _⟩
  | cons c rest =>
    simp only [wf_list, Bool.and_eq_true] at hwf
    obtain ⟨hwc, hwrest⟩ := hwf
    cases c with
    | text s =>
      rw [process_children]
      by_cases h1 : (strip_str s != "") = true
      · rw [if_pos h1]
        by_cases h2 : parent_has = true
        · rw [if_pos h2]
          dsimp only
          rcases hpc : process_children cfg parent_has rest st with ⟨rest2, st2⟩
          have e := rt_process_children cfg hrm parent_has rest st hwrest
          rw [hpc] at e
          dsimp only at e
          dsimp only
          obtain ⟨edet, ewf, ert⟩ := e
          refine ⟨edet, ?_, ?_⟩
          · simp only [wf_list, Bool.and_eq_true]
            exact ⟨hwc, ewf⟩
          · rw [list_annot_values, list_annot_values]
            exact rt_rel_append (node_annot_values (.text s)) st.reg
              (list_annot_values rest) (node_annot_values (.text s))
              (list_annot_values rest2) st.reg st2.reg
              (rt_rel_refl (node_annot_values (.text s)) st.reg) ert
        · rw [if_neg h2]
          dsimp only
          rcases hwr : wrap_text_with_whitespace s st with ⟨nodes, stw⟩
          have ew := rt_wrap s st hwc
          rw [hwr] at ew
          dsimp only at ew
          rcases hpc2 : process_children cfg parent_has rest stw with ⟨rest2, st2⟩
          have e2 := rt_process_children cfg hrm parent_has rest stw hwrest
          rw [hpc2] at e2
          dsimp only at e2
          dsimp only
          obtain ⟨dwrap, wwrap, rwrap⟩ := ew
          obtain ⟨d2, w2, r2e⟩ := e2
          refine ⟨by rw [d2, dwrap], ?_, ?_⟩
          · rw [wf_list_append, wwrap, w2]
            rfl
          · rw [list_annot_values_append]
            rw [show list_annot_values (Node.text s :: rest)
                = [] ++ list_annot_values rest from rfl]
            exact rt_rel_append [] st.reg (list_annot_values rest)
              (list_annot_values nodes) (list_annot_values rest2) stw.reg st2.reg
              rwrap r2e
      · rw [if_neg h1]
        dsimp only
        rcases hpc : process_children cfg parent_has rest st with ⟨rest2, st2⟩
        have e := rt_process_children cfg hrm parent_has rest st hwrest
        rw [hpc] at e
        dsimp only at e
        dsimp only
        obtain ⟨edet, ewf, ert⟩ := e
        refine ⟨edet, ?_, ?_⟩
        · simp only [wf_list, Bool.and_eq_true]
          exact ⟨hwc, ewf⟩
        · rw [list_annot_values, list_annot_values]
          exact rt_rel_append (node_annot_values (.text s)) st.reg
            (list_annot_values rest) (node_annot_values (.text s))
            (list_annot_values rest2) st.reg st2.reg
            (rt_rel_refl (node_annot_values (.text s)) st.reg) ert
    | comment s =>
      rw [process_children]
      dsimp only
      rcases hpc : process_children cfg parent_has rest st with ⟨rest2, st2⟩
      have e := rt_process_children cfg hrm parent_has rest st hwrest
      rw [hpc] at e
      dsimp only at e
      dsimp only
      obtain ⟨edet, ewf, ert⟩ := e
      refine ⟨edet, ?_, ?_⟩
      · simp only [wf_list, Bool.and_eq_true]
        exact ⟨hwc, ewf⟩
      · rw [list_annot_values, list_annot_values]
        exact rt_rel_append (node_annot_values (.comment s)) st.reg
          (list_annot_values rest) (node_annot_values (.comment s))
          (list_annot_values rest2) st.reg st2.reg
          (rt_rel_refl (node_annot_values (.comment s)) st.reg) ert
    | tag j nm2 a2 c2 =>
      rw [process_children]
      by_cases hsk : cfg.skipped_tags.contains (lower nm2) = true
      · rw [if_pos hsk]
        dsimp only
        rcases hpc : process_children cfg parent_has rest st with ⟨rest2, st2⟩
        have e := rt_process_children cfg hrm parent_has rest st hwrest
        rw [hpc] at e
        dsimp only at e
        dsimp only
        obtain ⟨edet, ewf, ert⟩ := e
        refine ⟨edet, ?_, ?_⟩
        · simp only [wf_list, Bool.and_eq_true]
          exact ⟨hwc, ewf⟩
        · rw [list_annot_values, list_annot_values]
          exact rt_rel_append (node_annot_values (.tag j nm2 a2 c2)) st.reg
            (list_annot_values rest) (node_annot_values (.tag j nm2 a2 c2))
            (list_annot_values rest2) st.reg st2.reg
            (rt_rel_refl (node_annot_values (.tag j nm2 a2 c2)) st.reg) ert
      · rw [if_neg hsk]
        by_cases hsp2 : (lower nm2 == "span" && has_attr_k "data-i18n" a2) = true
        · rw [if_pos hsp2]
          dsimp only
          rcases hpc : process_children cfg parent_has rest st with ⟨rest2, st2⟩
          have e := rt_process_children cfg hrm parent_has rest st hwrest
          rw [hpc] at e
          dsimp only at e
          dsimp only
          obtain ⟨edet, ewf, ert⟩ := e
          refine ⟨edet, ?_, ?_⟩
          · simp only [wf_list, Bool.and_eq_true]
            exact ⟨hwc, ewf⟩
          · rw [list_annot_values, list_annot_values]
            exact rt_rel_append (node_annot_values (.tag j nm2 a2 c2)) st.reg
              (list_annot_values rest) (node_annot_values (.tag j nm2 a2 c2))
              (list_annot_values rest2) st.reg st2.reg
              (rt_rel_refl (node_annot_values (.tag j nm2 a2 c2)) st.reg) ert
        · rw [if_neg hsp2]
          rcases hh : process_tag cfg (.tag j nm2 a2 c2) st with ⟨cc, st1⟩
          have e1 := rt_process_tag cfg hrm (.tag j nm2 a2 c2) st hwc
          rw [hh] at e1
          dsimp only at e1
          rcases hpc : process_children cfg parent_has rest st1 with ⟨rest2, st2⟩
          have e2 := rt_process_children cfg hrm parent_has rest st1 hwrest
          rw [hpc] at e2
          dsimp only at e2
          dsimp only
          rw [hpc]
          dsimp only
          obtain ⟨d1, w1, r1e⟩ := e1
          obtain ⟨d2, w2, r2e⟩ := e2
          refine ⟨by rw [d2, d1], ?_, ?_⟩
          · simp only [wf_list, Bool.and_eq_true]
            exact ⟨w1, w2⟩
          · rw [list_annot_values, list_annot_values]
            exact rt_rel_append (node_annot_values (.tag j nm2 a2 c2)) st.reg
              (list_annot_values rest) (node_annot_values cc) (list_annot_values rest2)
              st1.reg st2.reg r1e r2e
termination_by sizeOf ch

end

mutual

/-- Round-trip invariant through one `find_all`-loop step on one node. -/
theorem rt_target_node (cfg : Config) (hrm : cfg.remove_original_attrs = true)
    (i : Nat) (n : Node) (st : St) (hwf : wf_node n = true) :
    (target_node cfg i n st).2.det = st.det
    ∧ wf_node (target_node cfg i n st).1 = true
    ∧ rt_rel (node_annot_values n) st.reg
        (node_annot_values (target_node cfg i n st).1) (target_node cfg i n st).2.reg := by
  cases n with
  | text s => exact ⟨rfl, hwf, rt_rel_refl _ _⟩
  | comment s => exact ⟨rfl, hwf, rt_rel_refl _ _⟩
  | tag j nm a c =>
    rw [target_node]
    by_cases hij : (j == i) = true
    · rw [if_pos hij]
      exact rt_process_tag cfg hrm (.tag j nm a c) st hwf
    · rw [if_neg hij]
      obtain ⟨hcl, hnd, hok, hdi, hfl, hwch⟩ := wf_tag_elim j nm a c hwf
      rcases htl : target_list cfg i c st with ⟨c2, st2⟩
      have e := rt_target_list cfg hrm i c st hwch
      rw [htl] at e
      dsimp only at e
      dsimp only
      obtain ⟨edet, ewf, ert⟩ := e
      refine ⟨edet, ?_, ?_⟩
      · refine wf_tag j nm a c2 hcl hnd hok ?_ ?_ ewf
        · cases hda : has_attr_k "data-i18n" a with
          | false => rfl
          | true =>
            rw [hda] at hdi
            have h0 : c.isEmpty = true := by simpa using hdi
            have hc0 : c = [] := List.isEmpty_iff.1 h0
            rw [hc0, show target_list cfg i ([] : List Node) st = ([], st) from rfl] at htl
            have hc2 : ([] : List Node) = c2 := congrArg Prod.fst htl
            rw [← hc2]
            simp
        · cases hbo : (lower nm != "option") with
          | true => rfl
          | false =>
            rw [hbo, Bool.false_or] at hfl
            have hnil := List.isEmpty_iff.1 hfl
            have h2 := target_list_filter_is_tag_nil cfg i c st hnil
            rw [htl] at h2
            dsimp only at h2
            rw [Bool.false_or, h2]
            rfl
      · rw [node_annot_values, node_annot_values]
        exact rt_rel_append (avals_attrs a) st.reg (list_annot_values c)
          (avals_attrs a) (list_annot_values c2) st.reg st2.reg
          (rt_rel_refl (avals_attrs a) st.reg) ert
termination_by sizeOf n

/-- Round-trip invariant through one `find_all`-loop step on a forest. -/
theorem rt_target_list (cfg : Config) (hrm : cfg.remove_original_attrs = true)
    (i : Nat) (l : List Node) (st : St) (hwf : wf_list l = true) :
    (target_list cfg i l st).2.det = st.det
    ∧ wf_list (target_list cfg i l st).1 = true
    ∧ rt_rel (list_annot_values l) st.reg
        (list_annot_values (target_list cfg i l st).1) (target_list cfg i l st).2.reg := by
  cases l with
  | nil => exact ⟨rfl, rfl, rt_rel_refl _ _⟩
  | cons n rest =>
    simp only [wf_list, Bool.and_eq_true] at hwf
    obtain ⟨hwn, hwrest⟩ := hwf
    rw [target_list]
    rcases htn : target_node cfg i n st with ⟨n2, st1⟩
    have e1 := rt_target_node cfg hrm i n st hwn
    rw [htn] at e1
    dsimp only at e1
    rcases htl : target_list cfg i rest st1 with ⟨rest2, st2⟩
    have e2 := rt_target_list cfg hrm i rest st1 hwrest
    rw [htl] at e2
    dsimp only at e2
    dsimp only
    try rw [htl]
    dsimp only
    obtain ⟨d1, w1, r1e⟩ := e1
    obtain ⟨d2, w2, r2e⟩ := e2
    refine ⟨by rw [d2, d1], ?_, ?_⟩
    · simp only [wf_list, Bool.and_eq_true]
      exact ⟨w1, w2⟩
    · rw [list_annot_values, list_annot_values]
      exact rt_rel_append (node_annot_values n) st.reg (list_annot_values rest)
        (node_annot_values n2) (list_annot_values rest2) st1.reg st2.reg r1e r2e
termination_by sizeOf l

end

theorem rt_run_step (cfg : Config) (hrm : cfg.remove_original_attrs = true)
    (acc : List Node × List Node × St) (i : Nat)
    (hpool : acc.2.1 = []) (hdet : acc.2.2.det = []) (hwf : wf_list acc.1 = true) :
    (run_step cfg acc i).2.1 = [] ∧ (run_step cfg acc i).2.2.det = []
    ∧ wf_list (run_step cfg acc i).1 = true
    ∧ rt_rel (list_annot_values acc.1) acc.2.2.reg
        (list_annot_values (run_step cfg acc i).1) (run_step cfg acc i).2.2.reg := by
  obtain ⟨doc, pool, st⟩ := acc
  dsimp only at hpool hdet hwf ⊢
  subst hpool
  rcases h1 : target_list cfg i doc st with ⟨doc2, st1⟩
  have e1 := rt_target_list cfg hrm i doc st hwf
  rw [h1] at e1
  dsimp only at e1
  obtain ⟨d1, w1, r1e⟩ := e1
  rw [run_step]
  dsimp only
  try rw [h1]
  dsimp only
  rw [show target_list cfg i ([] : List Node) st1 = ([], st1) from rfl]
  dsimp only
  refine ⟨?_, rfl, w1, r1e⟩
  rw [List.nil_append, d1, hdet]

theorem rt_foldl (cfg : Config) (hrm : cfg.remove_original_attrs = true) (ids : List Nat) :
    ∀ acc : List Node × List Node × St, acc.2.1 = [] → acc.2.2.det = [] →
      wf_list acc.1 = true →
      (ids.foldl (run_step cfg) acc).2.1 = []
      ∧ (ids.foldl (run_step cfg) acc).2.2.det = []
      ∧ wf_list (ids.foldl (run_step cfg) acc).1 = true
      ∧ rt_rel (list_annot_values acc.1) acc.2.2.reg
          (list_annot_values (ids.foldl (run_step cfg) acc).1)
          (ids.foldl (run_step cfg) acc).2.2.reg := by
  induction ids with
  | nil => intro acc h1 h2 h3; exact ⟨h1, h2, h3, rt_rel_refl _ _⟩
  | cons i rest ih =>
    intro acc h1 h2 h3
    rw [List.foldl_cons]
    obtain ⟨g1, g2, g3, g4⟩ := rt_run_step cfg hrm acc i h1 h2 h3
    obtain ⟨k1, k2, k3, k4⟩ := ih (run_step cfg acc i) g1 g2 g3
    exact ⟨k1, k2, k3, rt_rel_trans _ _ _ _ _ _ g4 k4⟩

theorem avals_attrs_fix_map (a : Attrs) (h : clean_attrs a = true) :
    avals_attrs (a.map fun p =>
        if starts_data_i18n p.1 then (p.1, unescape_html p.2) else p)
      = avals_attrs a := by
  induction a with
  | nil => rfl
  | cons q rest ih =>
    simp only [clean_attrs, List.all_cons, Bool.and_eq_true] at h
    have ih2 := ih h.2
    rw [List.map_cons]
    by_cases hq : starts_data_i18n q.1 = true
    · rw [if_pos hq]
      have hu : unescape_html q.2 = q.2 :=
        unescape_id_of_amp_free q.2 (amp_free_of_clean q.2.data h.1)
      simp only [avals_attrs, List.filterMap_cons] at ih2 ⊢
      simp only [hq, hu, ite_true]
      rw [ih2]
    · have hqf : starts_data_i18n q.1 = false := by
        cases hx : starts_data_i18n q.1 with
        | false => rfl
        | true => exact absurd hx hq
      rw [if_neg hq]
      simp only [avals_attrs, List.filterMap_cons] at ih2 ⊢
      simp only [hqf, ite_false]
      rw [ih2]

mutual

/-- The output fix-up stage rewrites annotation values through
`html.unescape`; on an escape-free document it leaves them unchanged. -/
theorem annot_fix_node (n : Node) (h : wf_node n = true) :
    node_annot_values (fix_node n) = node_annot_values n := by
  cases n with
  | text s => rfl
  | comment s => rfl
  | tag i nm a ch =>
    obtain ⟨hcl, _, _, _, _, hwch⟩ := wf_tag_elim i nm a ch h
    rw [fix_node]
    show avals_attrs (a.map fun p =>
          if starts_data_i18n p.1 then (p.1, unescape_html p.2) else p)
        ++ list_annot_values (fix_list ch)
      = avals_attrs a ++ list_annot_values ch
    rw [avals_attrs_fix_map a hcl, annot_fix_list ch hwch]
termination_by sizeOf n

theorem annot_fix_list (l : List Node) (h : wf_list l = true) :
    list_annot_values (fix_list l) = list_annot_values l := by
  cases l with
  | nil => rfl
  | cons n rest =>
    simp only [wf_list, Bool.and_eq_true] at h
    rw [fix_list]
    show node_annot_values (fix_node n) ++ list_annot_values (fix_list rest)
      = list_annot_values (n :: rest)
    rw [annot_fix_node n h.1, annot_fix_list rest h.2, list_annot_values]
termination_by sizeOf l

end

/-- C1 (amended): the round trip fails in general — a detached option child
can register a key that appears on no annotation of the output (see the
counterexample).  It does hold whenever the configuration removes original
attributes (the default), every string of the document is free of the five
`html.escape` characters, attribute names are unique, no tag carries an
original translatable attribute together with its derived annotation name,
no selection option has element children, and the document carries no
pre-existing annotation: then after `process_html` (with its empty initial
registry) a string is a registry key exactly when it is the value of some
`data-i18n`/`data-i18n-*` attribute of the output document. -/
theorem c1_registry_round_trip (cfg : Config) (doc : List Node)
    (hrm : cfg.remove_original_attrs = true)
    (hwf : wf_list doc = true)
    (hno : list_annot_values doc = []) :
    ∀ x, x ∈ reg_keys (process_html cfg doc).2
      ↔ x ∈ list_annot_values (process_html cfg doc).1 := by
  unfold process_html process_html_from
  dsimp only
  rcases hrl : run_loop cfg (list_ids doc) doc
      { reg := [], fresh := list_max_id doc + 1, det := [] } with ⟨doc2, pool2, st2⟩
  have e := rt_foldl cfg hrm (list_ids doc)
    (doc, [], { reg := [], fresh := list_max_id doc + 1, det := [] }) rfl rfl hwf
  rw [run_loop] at hrl
  rw [hrl] at e
  dsimp only at e
  obtain ⟨hp, hd, hwf2, hrt⟩ := e
  dsimp only
  rw [annot_fix_list doc2 hwf2]
  obtain ⟨hA, _hB, hC, _hD⟩ := hrt
  intro x
  constructor
  · intro hx
    rcases hC x hx with h | h
    · exact absurd h (by simp [reg_keys])
    · exact h
  · intro hx
    rcases hA x hx with h | h
    · rw [hno] at h
      exact absurd h (List.not_mem_nil x)
    · exact h

/-- Witness for C1 at a concrete document: a titled paragraph with text
content under the default configuration. -/
theorem c1_witness :
    (default_config.remove_original_attrs = true) ∧
    (wf_list [Node.tag 1 "p" [("title", "Click here")] [Node.text "Hello world"]] = true) ∧
    (list_annot_values
        [Node.tag 1 "p" [("title", "Click here")] [Node.text "Hello world"]] = []) ∧
    (∀ x, x ∈ reg_keys (process_html default_config
          [Node.tag 1 "p" [("title", "Click here")] [Node.text "Hello world"]]).2
      ↔ x ∈ list_annot_values (process_html default_config
          [Node.tag 1 "p" [("title", "Click here")] [Node.text "Hello world"]]).1) :=
  ⟨rfl, by decide, by decide,
    c1_registry_round_trip default_config
      [Node.tag 1 "p" [("title", "Click here")] [Node.text "Hello world"]]
      rfl (by decide) (by decide)⟩

/-! ### C3: the walker on settled documents -/

/-- No translatable attribute of the list would fire (source lines 121-134
are a no-op). -/
def settled_attrs (a : Attrs) : Bool :=
  TRANSLATABLE_ATTRIBUTES.all fun p =>
    match get_attr p.1 a with
    | none => true
    | some v => !(v != "" && should_translate v)

/-- The per-child loop of `process_tag` (source lines 189-213) leaves this
child unchanged. -/
def settled_child (_cfg : Config) (parent_has : Bool) : Node → Bool
  | .text s =>
    strip_str s == "" || parent_has
      || ((wrap_leading s).isEmpty && (wrap_trailing s).isEmpty
          && !(should_translate ⟨wrap_core s⟩))
  | _ => true

mutual

/-- A settled node: every branch of `process_tag` is a no-op on it and on
each of its descendants, and every attribute value is ampersand-free, so the
output fix-up also leaves it unchanged. -/
def settled_node (cfg : Config) : Node → Bool
  | .text _ => true
  | .comment _ => true
  | .tag _ nm a ch =>
    (if cfg.skipped_tags.contains (lower nm) then true
     else
       settled_attrs a
       && !(direct_text ch != "" && should_translate (direct_text ch))
       && ((lower nm == "option")
           || ch.all (settled_child cfg (has_attr_k "data-i18n" a))))
    && (a.all fun p => amp_free p.2.data)
    && settled_list cfg ch

/-- `settled_node` over a forest. -/
def settled_list (cfg : Config) : List Node → Bool
  | [] => true
  | n :: rest => settled_node cfg n && settled_list cfg rest

end

theorem settled_attrs_noop (cfg : Config) :
    ∀ (ps : List (String × String)) (a : Attrs) (reg : List (String × String)),
    (ps.all fun p =>
      match get_attr p.1 a with
      | none => true
      | some v => !(v != "" && should_translate v)) = true →
    ps.foldl (process_attr_pair cfg) (a, reg) = (a, reg)
  | [], _, _, _ => rfl
  | p :: rest, a, reg, h => by
    simp only [List.all_cons, Bool.and_eq_true] at h
    rw [List.foldl_cons]
    have hstep : process_attr_pair cfg (a, reg) p = (a, reg) := by
      rw [process_attr_pair]
      rcases hga : get_attr p.1 a with _ | v
      · rfl
      · dsimp only
        have h1 := h.1
        rw [hga] at h1
        dsimp only at h1
        rw [Bool.not_eq_true'] at h1
        rw [if_neg (fun hc => by rw [h1] at hc; exact Bool.noConfusion hc)]
    rw [hstep]
    exact settled_attrs_noop cfg rest a reg h.2

theorem process_attributes_settled (cfg : Config) (a : Attrs)
    (reg : List (String × String)) (h : settled_attrs a = true) :
    process_attributes cfg a reg = (a, reg) := by
  unfold process_attributes
  exact settled_attrs_noop cfg TRANSLATABLE_ATTRIBUTES a reg h

theorem dropWhile_eq_self_of_takeWhile_nil (p : Char → Bool) :
    ∀ l : List Char, l.takeWhile p = [] → l.dropWhile p = l
  | [], _ => rfl
  | d :: t, h => by
    rw [List.takeWhile_cons] at h
    by_cases hd : p d = true
    · rw [if_pos hd] at h
      exact absurd h (by simp)
    · rw [List.dropWhile_cons, if_neg hd]

theorem wrap_core_eq_of_no_ws (s : String) (hl : (wrap_leading s).isEmpty = true)
    (htr : (wrap_trailing s).isEmpty = true) : wrap_core s = s.data := by
  have h1 : s.data.takeWhile py_space = [] := List.isEmpty_iff.1 hl
  have h2 : s.data.dropWhile py_space = s.data :=
    dropWhile_eq_self_of_takeWhile_nil py_space s.data h1
  unfold wrap_trailing at htr
  rw [h2] at htr
  have h3 : s.data.reverse.takeWhile py_space = [] := by
    have h4 := List.isEmpty_iff.1 htr
    rwa [List.reverse_eq_nil_iff] at h4
  have h5 : s.data.reverse.dropWhile py_space = s.data.reverse :=
    dropWhile_eq_self_of_takeWhile_nil py_space s.data.reverse h3
  unfold wrap_core
  rw [h2, h5, List.reverse_reverse]

/-- On a text with no surrounding whitespace and an untranslatable core,
`wrap_text_with_whitespace` reproduces the original text node. -/
theorem wrap_settled (s : String) (st : St)
    (hstrip : (strip_str s != "") = true)
    (hl : (wrap_leading s).isEmpty = true) (htr : (wrap_trailing s).isEmpty = true)
    (hns : should_translate ⟨wrap_core s⟩ = false) :
    wrap_text_with_whitespace s st = ([.text s], st) := by
  have hcore : wrap_core s = s.data := wrap_core_eq_of_no_ws s hl htr
  unfold wrap_text_with_whitespace
  have hc1 : (!(wrap_core s).isEmpty && should_translate ⟨wrap_core s⟩) = false := by
    rw [hns, Bool.and_false]
  rw [if_neg (fun hc => by rw [hc1] at hc; exact Bool.noConfusion hc)]
  have hc2 : (!(wrap_core s).isEmpty) = true := by
    rw [hcore]
    cases hd : s.data with
    | nil =>
      exfalso
      have he : strip_str s = "" := by
        unfold strip_str py_strip
        rw [hd]
        rfl
      rw [show (strip_str s != "") = !(strip_str s == "") from rfl, he] at hstrip
      simp at hstrip
    | cons c t => rfl
  rw [if_pos hc2]
  unfold lead_nodes trail_nodes
  rw [if_pos hl, if_pos htr, hcore]
  rfl

mutual

/-- On a settled node `process_tag` is the identity on both the node and the
state. -/
theorem settled_process_tag (cfg : Config) (n : Node) (st : St)
    (h : settled_node cfg n = true) :
    process_tag cfg n st = (n, st) := by
  cases n with
  | text s => rfl
  | comment s => rfl
  | tag i nm a ch =>
    rw [process_tag]
    simp only [settled_node, Bool.and_eq_true] at h
    obtain ⟨⟨hmain, _hamp⟩, hch⟩ := h
    by_cases hskip : cfg.skipped_tags.contains (lower nm) = true
    · rw [if_pos hskip]
    · rw [if_neg hskip]
      rw [if_neg hskip] at hmain
      simp only [Bool.and_eq_true] at hmain
      obtain ⟨⟨hattrs, ht⟩, hkids⟩ := hmain
      rw [process_attributes_settled cfg a st.reg hattrs]
      dsimp only
      rw [Bool.not_eq_true'] at ht
      by_cases hopt : (lower nm == "option") = true
      · rw [if_pos hopt]
        rw [if_neg (fun hc => by rw [ht] at hc; exact Bool.noConfusion hc)]
      · rw [if_neg hopt]
        rw [if_neg (fun hc => by rw [ht] at hc; exact Bool.noConfusion hc)]
        have hall : ch.all (settled_child cfg (has_attr_k "data-i18n" a)) = true := by
          cases h2 : (lower nm == "option") with
          | true => exact absurd h2 hopt
          | false =>
            rw [h2, Bool.false_or] at hkids
            exact hkids
        rw [settled_process_children cfg (has_attr_k "data-i18n" a) ch
          { st with reg := st.reg } hch hall]
termination_by sizeOf n

/-- On settled children the fallback per-child loop is the identity. -/
theorem settled_process_children (cfg : Config) (ph : Bool) (ch : List Node) (st : St)
    (hs : settled_list cfg ch = true) (ha : ch.all (settled_child cfg ph) = true) :
    process_children cfg ph ch st = (ch, st) := by
  cases ch with
  | nil => rfl
  | cons c rest =>
    simp only [settled_list, Bool.and_eq_true] at hs
    simp only [List.all_cons, Bool.and_eq_true] at ha
    obtain ⟨hsc, hsrest⟩ := hs
    obtain ⟨hac, harest⟩ := ha
    cases c with
    | text s =>
      rw [process_children]
      by_cases h1 : (strip_str s != "") = true
      · rw [if_pos h1]
        have hac2 : (ph || ((wrap_leading s).isEmpty && (wrap_trailing s).isEmpty
            && !(should_translate ⟨wrap_core s⟩))) = true := by
          have hne : (strip_str s == "") = false := by
            cases hx : (strip_str s == "") with
            | false => rfl
            | true =>
              rw [show (strip_str s != "") = !(strip_str s == "") from rfl, hx] at h1
              exact absurd h1 (by decide)
          rw [settled_child] at hac
          rw [hne, Bool.false_or] at hac
          exact hac
        by_cases h2 : ph = true
        · rw [if_pos h2]
          rw [settled_process_children cfg ph rest st hsrest harest]
        · rw [if_neg h2]
          have hph : ph = false := by
            cases hp : ph with
            | false => rfl
            | true => exact absurd hp h2
          rw [hph, Bool.false_or] at hac2
          simp only [Bool.and_eq_true] at hac2
          obtain ⟨⟨hl, htr⟩, hns⟩ := hac2
          rw [Bool.not_eq_true'] at hns
          rw [wrap_settled s st h1 hl htr hns]
          dsimp only
          rw [settled_process_children cfg ph rest st hsrest harest]
          rfl
      · rw [if_neg h1]
        dsimp only
        rw [settled_process_children cfg ph rest st hsrest harest]
    | comment s =>
      rw [process_children]
      dsimp only
      rw [settled_process_children cfg ph rest st hsrest harest]
    | tag j nm2 a2 c2 =>
      rw [process_children]
      by_cases hsk : cfg.skipped_tags.contains (lower nm2) = true
      · rw [if_pos hsk]
        dsimp only
        rw [settled_process_children cfg ph rest st hsrest harest]
      · rw [if_neg hsk]
        by_cases hsp2 : (lower nm2 == "span" && has_attr_k "data-i18n" a2) = true
        · rw [if_pos hsp2]
          dsimp only
          rw [settled_process_children cfg ph rest st hsrest harest]
        · rw [if_neg hsp2]
          rw [settled_process_tag cfg (.tag j nm2 a2 c2) st hsc]
          dsimp only
          rw [settled_process_children cfg ph rest st hsrest harest]
termination_by sizeOf ch

end

mutual

theorem settled_target_node (cfg : Config) (i : Nat) (n : Node) (st : St)
    (h : settled_node cfg n = true) : target_node cfg i n st = (n, st) := by
  cases n with
  | text s => rfl
  | comment s => rfl
  | tag j nm a c =>
    rw [target_node]
    by_cases hij : (j == i) = true
    · rw [if_pos hij]
      exact settled_process_tag cfg (.tag j nm a c) st h
    · rw [if_neg hij]
      have hch : settled_list cfg c = true := by
        simp only [settled_node, Bool.and_eq_true] at h
        exact h.2
      rw [settled_target_list cfg i c st hch]
termination_by sizeOf n

theorem settled_target_list (cfg : Config) (i : Nat) (l : List Node) (st : St)
    (h : settled_list cfg l = true) : target_list cfg i l st = (l, st) := by
  cases l with
  | nil => rfl
  | cons n rest =>
    simp only [settled_list, Bool.and_eq_true] at h
    rw [target_list, settled_target_node cfg i n st h.1]
    dsimp only
    rw [settled_target_list cfg i rest st h.2]
termination_by sizeOf l

end

theorem settled_run_step (cfg : Config) (doc : List Node) (st : St) (i : Nat)
    (h : settled_list cfg doc = true) (hdet : st.det = []) :
    run_step cfg (doc, [], st) i = (doc, [], st) := by
  obtain ⟨r, f, d⟩ := st
  dsimp only at hdet
  subst hdet
  rw [run_step]
  dsimp only
  rw [settled_target_list cfg i doc { reg := r, fresh := f, det := [] } h]
  dsimp only
  rw [show target_list cfg i ([] : List Node) { reg := r, fresh := f, det := [] }
    = ([], { reg := r, fresh := f, det := [] }) from rfl]
  rfl

theorem settled_run_loop (cfg : Config) (ids : List Nat) (doc : List Node) (st : St)
    (h : settled_list cfg doc = true) (hdet : st.det = []) :
    run_loop cfg ids doc st = (doc, [], st) := by
  rw [run_loop]
  induction ids with
  | nil => rfl
  | cons i rest ih =>
    rw [List.foldl_cons, settled_run_step cfg doc st i h hdet]
    exact ih

theorem settled_fix_map (a : Attrs) (h : (a.all fun p => amp_free p.2.data) = true) :
    (a.map fun p => if starts_data_i18n p.1 then (p.1, unescape_html p.2) else p) = a := by
  induction a with
  | nil => rfl
  | cons q rest ih =>
    simp only [List.all_cons, Bool.and_eq_true] at h
    rw [List.map_cons, ih h.2]
    by_cases hq : starts_data_i18n q.1 = true
    · rw [if_pos hq, unescape_id_of_amp_free q.2 h.1]
    · rw [if_neg hq]

mutual

theorem settled_fix_node (cfg : Config) (n : Node) (h : settled_node cfg n = true) :
    fix_node n = n := by
  cases n with
  | text s => rfl
  | comment s => rfl
  | tag i nm a ch =>
    simp only [settled_node, Bool.and_eq_true] at h
    rw [fix_node, settled_fix_map a h.1.2, settled_fix_list cfg ch h.2]
termination_by sizeOf n

theorem settled_fix_list (cfg : Config) (l : List Node) (h : settled_list cfg l = true) :
    fix_list l = l := by
  cases l with
  | nil => rfl
  | cons n rest =>
    simp only [settled_list, Bool.and_eq_true] at h
    rw [fix_list, settled_fix_node cfg n h.1, settled_fix_list cfg rest h.2]
termination_by sizeOf l

end

/-- C3 (amended): the walker is not idempotent in general — the output
fix-up unescapes `data-i18n` values once per run, so an `&`-bearing text
drifts on the second run (see the counterexample).  What does hold: on a
settled document — one where every branch of `process_tag` is a no-op on
every tag, as any annotated-and-cleared output shape is, and every attribute
value is ampersand-free — `process_html` is the identity on the document and
the registry: no additional annotations, no nested or duplicate wrapper
elements, and no new registry keys. -/
theorem c3_settled_fixed_point (cfg : Config) (reg : List (String × String))
    (doc : List Node) (h : settled_list cfg doc = true) :
    process_html_from cfg reg doc = (doc, reg) := by
  rw [process_html_from]
  dsimp only
  rw [settled_run_loop cfg (list_ids doc) doc
    { reg := reg, fresh := list_max_id doc + 1, det := [] } h rfl]
  dsimp only
  rw [settled_fix_list cfg doc h]

/-- Witness for C3 on a concrete settled document of output shape: an
annotated cleared paragraph and a div with an untranslatable text and an
annotated span. -/
theorem c3_witness :
    (settled_list default_config
      [Node.tag 1 "p" [("data-i18n", "Hello world")] [],
       Node.tag 2 "div" []
         [Node.text "x", Node.tag 3 "span" [("data-i18n", "Hello")] []]] = true)
    ∧ process_html_from default_config
        [("Hello", "Hello"), ("Hello world", "Hello world")]
        [Node.tag 1 "p" [("data-i18n", "Hello world")] [],
         Node.tag 2 "div" []
           [Node.text "x", Node.tag 3 "span" [("data-i18n", "Hello")] []]]
      = ([Node.tag 1 "p" [("data-i18n", "Hello world")] [],
          Node.tag 2 "div" []
            [Node.text "x", Node.tag 3 "span" [("data-i18n", "Hello")] []]],
         [("Hello", "Hello"), ("Hello world", "Hello world")]) :=
  ⟨by decide,
    c3_settled_fixed_point default_config
      [("Hello", "Hello"), ("Hello world", "Hello world")]
      [Node.tag 1 "p" [("data-i18n", "Hello world")] [],
       Node.tag 2 "div" []
         [Node.text "x", Node.tag 3 "span" [("data-i18n", "Hello")] []]]
      (by decide)⟩

end Translate
